import Mathlib

/-!
# Constraint-graph floorplanning: a verification development

Shallow embedding of `constraint_graph_floorplan.cpp` (class `Floorplanner`).

Conventions of the embedding:

* `vector<int>` is `List Int`, read with `getD · 0` and written with `List.set`;
  `vector<vector<int>>` is `List (List Nat)` (block handles are the indices
  produced by `idToIdx`, hence natural numbers).
* `int` values are integers; the `int` sums and differences of the propagation
  and span loops (`coords[u] + shift`, `latest[u] - shift`, `x[i] + width`,
  `y[i] + height`) are reduced to the 32-bit range by `wrapInt32`, so that a run
  in which one of them overflows is described as the wrapping machine computes
  it; the theorems about exact coordinates carry an explicit no-overflow
  hypothesis (`WalksFit`). The `long long` product `1LL * a * b` is reduced to
  the signed 64-bit range by `wrapInt64`. The difference `bound - shift` of the
  initialisation loop of `topoBackward` is kept exact: with a non-negative bound
  and a positive extent, both of type `int`, it cannot leave the `int` range.
* `deque<int>` is a list: `push_back` appends, `front`/`pop_front` take the head.
* every `while (!q.empty())` loop is run with a fuel equal to the number of
  vertices; `forwardLoop_queue_empty` shows that this fuel always empties the
  queue of the forward pass, so the loop has really exited, and
  `topoBackward_eq_forward` shows the same for the backward pass on graphs
  whose edge targets are valid handles.
* `forwardOrder` / `backwardOrder` record the vertices popped by the work loops;
  the predicates `TopoForwardSafe` / `TopoBackwardSafe` follow the same loops
  and state that every subscript is in range and no counter goes negative.
-/

namespace Floorplan

/-! ## Data model -/

/-- Block record of the source: `struct Block { string id; int width, height; }`. -/
structure Block where
  id : String
  width : Int
  height : Int
deriving DecidableEq

instance : Inhabited Block := ⟨⟨"", 0, 0⟩⟩

/-- Adjacency lists, `vector<vector<int>>`: `graph[u]` lists the targets of the edges leaving `u`. -/
abbrev Graph := List (List Nat)

/-- Reduction of an integer to the range of a 32-bit `int` (two's complement wrap-around). -/
def wrapInt32 (x : Int) : Int := (x + 2 ^ 31) % 2 ^ 32 - 2 ^ 31

/-- The local `shift` of both passes: `horizontal ? blocks[u].width : blocks[u].height`. -/
def shift (blocks : List Block) (horizontal : Bool) (u : Nat) : Int :=
  if horizontal then (blocks.getD u default).width else (blocks.getD u default).height

/-! ## `topoForward` -/

/-- Local state of the work loop of `topoForward`. -/
structure FwdState where
  coords : List Int
  indegree : List Int
  q : List Nat
deriving DecidableEq

/-- In-degree table: `for u < n: for v in graph[u]: indegree[v]++`, from all zeros. -/
def indegreeInit (graph : Graph) : List Int :=
  (List.range graph.length).foldl
    (fun indegree u => (graph.getD u []).foldl (fun d v => d.set v (d.getD v 0 + 1)) indegree)
    (List.replicate graph.length 0)

/-- Queue seeding: `for i < n: if (deg[i] == 0) q.push_back(i)`. -/
def seedQueue (n : Nat) (deg : List Int) : List Nat :=
  (List.range n).foldl (fun q i => if deg.getD i 0 = 0 then q ++ [i] else q) []

/-- Body of `for (int v : graph[u])` in `topoForward`:
`coords[v] = max(coords[v], coords[u] + shift); if (--indegree[v] == 0) q.push_back(v);`. -/
def forwardRelax (blocks : List Block) (horizontal : Bool) (u : Nat) (s : FwdState) (v : Nat) :
    FwdState :=
  let d := s.indegree.getD v 0 - 1
  { coords := s.coords.set v
      (max (s.coords.getD v 0) (wrapInt32 (s.coords.getD u 0 + shift blocks horizontal u)))
    indegree := s.indegree.set v d
    q := if d = 0 then s.q ++ [v] else s.q }

/-- The loop `while (!q.empty())` of `topoForward`, at most `fuel` iterations. -/
def forwardLoop (graph : Graph) (blocks : List Block) (horizontal : Bool) :
    Nat → FwdState → FwdState
  | 0, s => s
  | fuel + 1, s =>
    match s.q with
    | [] => s
    | u :: rest =>
      forwardLoop graph blocks horizontal fuel
        ((graph.getD u []).foldl (forwardRelax blocks horizontal u) { s with q := rest })

/-- State of `topoForward` before the work loop. -/
def forwardInit (graph : Graph) : FwdState :=
  { coords := List.replicate graph.length 0
    indegree := indegreeInit graph
    q := seedQueue graph.length (indegreeInit graph) }

/-- Final local state of `topoForward`. -/
def topoForwardRun (graph : Graph) (blocks : List Block) (horizontal : Bool) : FwdState :=
  forwardLoop graph blocks horizontal graph.length (forwardInit graph)

/-- The vector `coords` that `Floorplanner::topoForward` leaves in its output parameter. -/
def topoForward (graph : Graph) (blocks : List Block) (horizontal : Bool) : List Int :=
  (topoForwardRun graph blocks horizontal).coords

/-- The vertices popped by the work loop of `topoForward` (`u = q.front()` of each
iteration), in order. -/
def forwardOrder (graph : Graph) (blocks : List Block) (horizontal : Bool) :
    Nat → FwdState → List Nat
  | 0, _ => []
  | fuel + 1, s =>
    match s.q with
    | [] => []
    | u :: rest =>
      u :: forwardOrder graph blocks horizontal fuel
        ((graph.getD u []).foldl (forwardRelax blocks horizontal u) { s with q := rest })

/-- The dequeue order of a whole run of `topoForward`. -/
def topoForwardOrder (graph : Graph) (blocks : List Block) (horizontal : Bool) : List Nat :=
  forwardOrder graph blocks horizontal graph.length (forwardInit graph)

/-! ## `topoBackward` -/

/-- Local state of the work loop of `topoBackward`. -/
structure BwdState where
  latest : List Int
  outdeg : List Int
  q : List Nat
deriving DecidableEq

/-- Body of the loop that reverses the graph: `rev[v].push_back(u); outdeg[u]++;`. -/
def revPush (u : Nat) (a : List (List Nat) × List Int) (v : Nat) : List (List Nat) × List Int :=
  (a.1.set v (a.1.getD v [] ++ [u]), a.2.set u (a.2.getD u 0 + 1))

/-- Reverse adjacency and out-degrees:
`for u < n: for v in graph[u]: { rev[v].push_back(u); outdeg[u]++; }`. -/
def buildRev (graph : Graph) : List (List Nat) × List Int :=
  (List.range graph.length).foldl
    (fun acc u => (graph.getD u []).foldl (revPush u) acc)
    (List.replicate graph.length [], List.replicate graph.length 0)

/-- Initialisation loop of `topoBackward`:
`for i < n: { latest[i] = bound - shift(i); if (outdeg[i] == 0) q.push_back(i); }`,
from `latest.assign(n, bound)` and an empty queue. -/
def backwardInit (graph : Graph) (blocks : List Block) (bound : Int) (horizontal : Bool) :
    BwdState :=
  let outdeg := (buildRev graph).2
  let r := (List.range graph.length).foldl
    (fun (a : List Int × List Nat) i =>
      (a.1.set i (bound - shift blocks horizontal i),
       if outdeg.getD i 0 = 0 then a.2 ++ [i] else a.2))
    (List.replicate graph.length bound, [])
  { latest := r.1, outdeg := outdeg, q := r.2 }

/-- Body of `for (int p : rev[u])` in `topoBackward`:
`latest[p] = min(latest[p], latest[u] - shift(p)); if (--outdeg[p] == 0) q.push_back(p);`. -/
def backwardRelax (blocks : List Block) (horizontal : Bool) (u : Nat) (s : BwdState) (p : Nat) :
    BwdState :=
  let d := s.outdeg.getD p 0 - 1
  { latest := s.latest.set p
      (min (s.latest.getD p 0) (wrapInt32 (s.latest.getD u 0 - shift blocks horizontal p)))
    outdeg := s.outdeg.set p d
    q := if d = 0 then s.q ++ [p] else s.q }

/-- The loop `while (!q.empty())` of `topoBackward`, at most `fuel` iterations. -/
def backwardLoop (rev : List (List Nat)) (blocks : List Block) (horizontal : Bool) :
    Nat → BwdState → BwdState
  | 0, s => s
  | fuel + 1, s =>
    match s.q with
    | [] => s
    | u :: rest =>
      backwardLoop rev blocks horizontal fuel
        ((rev.getD u []).foldl (backwardRelax blocks horizontal u) { s with q := rest })

/-- Final local state of `topoBackward`. -/
def topoBackwardRun (graph : Graph) (blocks : List Block) (bound : Int) (horizontal : Bool) :
    BwdState :=
  backwardLoop (buildRev graph).1 blocks horizontal graph.length
    (backwardInit graph blocks bound horizontal)

/-- The vector `latest` that `Floorplanner::topoBackward` leaves in its output parameter. -/
def topoBackward (graph : Graph) (blocks : List Block) (bound : Int) (horizontal : Bool) :
    List Int :=
  (topoBackwardRun graph blocks bound horizontal).latest

/-- The vertices popped by the work loop of `topoBackward`, in order. -/
def backwardOrder (rev : List (List Nat)) (blocks : List Block) (horizontal : Bool) :
    Nat → BwdState → List Nat
  | 0, _ => []
  | fuel + 1, s =>
    match s.q with
    | [] => []
    | u :: rest =>
      u :: backwardOrder rev blocks horizontal fuel
        ((rev.getD u []).foldl (backwardRelax blocks horizontal u) { s with q := rest })

/-- The dequeue order of a whole run of `topoBackward`. -/
def topoBackwardOrder (graph : Graph) (blocks : List Block) (bound : Int) (horizontal : Bool) :
    List Nat :=
  backwardOrder (buildRev graph).1 blocks horizontal graph.length
    (backwardInit graph blocks bound horizontal)

/-! ## The `Floorplanner` pipeline -/

/-- Data members of `class Floorplanner` (the file name apart). -/
structure Floorplanner where
  blocks : List Block
  hGraph : Graph
  vGraph : Graph
  startX : List Int
  startY : List Int
  endX : List Int
  endY : List Int
  hCritEdges : List (Nat × Nat)
  vCritEdges : List (Nat × Nat)
  minArea : Int
deriving DecidableEq

/-- The planner as `readInput` leaves it: blocks and graphs filled, everything else default. -/
def Floorplanner.ofInput (blocks : List Block) (hGraph vGraph : Graph) : Floorplanner :=
  { blocks := blocks, hGraph := hGraph, vGraph := vGraph
    startX := [], startY := [], endX := [], endY := []
    hCritEdges := [], vCritEdges := [], minArea := 0 }

/-- Reduction of an integer to the range of a signed 64-bit `long long`. -/
def wrapInt64 (x : Int) : Int := (x + 2 ^ 63) % 2 ^ 64 - 2 ^ 63

/-- The product `1LL * a * b` of two `int` values, computed in `long long`. -/
def mulLL (a b : Int) : Int := wrapInt64 (a * b)

/-- The span loop shared by `computeLatestPositions` and `tryAreaReduction`:
`for i < blocks.size(): { mX = max(mX, x[i] + blocks[i].width); mY = max(mY, y[i] + blocks[i].height); }`
from `(0, 0)`. -/
def maxSpans (blocks : List Block) (x y : List Int) : Int × Int :=
  (List.range blocks.length).foldl
    (fun (m : Int × Int) i =>
      (max m.1 (wrapInt32 (x.getD i 0 + (blocks.getD i default).width)),
       max m.2 (wrapInt32 (y.getD i 0 + (blocks.getD i default).height))))
    (0, 0)

/-- Embedding of `Floorplanner::computeEarliestPositions`. -/
def computeEarliestPositions (fp : Floorplanner) : Floorplanner :=
  { fp with
    startX := topoForward fp.hGraph fp.blocks true
    startY := topoForward fp.vGraph fp.blocks false }

/-- Embedding of `Floorplanner::computeLatestPositions`. -/
def computeLatestPositions (fp : Floorplanner) : Floorplanner :=
  let m := maxSpans fp.blocks fp.startX fp.startY
  { fp with
    minArea := mulLL m.1 m.2
    endX := topoBackward fp.hGraph fp.blocks m.1 true
    endY := topoBackward fp.vGraph fp.blocks m.2 false }

/-- Inner loop of `findCriticalEdges` for one graph and one source `u`:
`for v in graph[u]: if (start[u] == end[u] && start[v] == end[v]) crit.emplace_back(u, v);`. -/
def pushCritical (graph : Graph) (start stop : List Int) (u : Nat) (crit : List (Nat × Nat)) :
    List (Nat × Nat) :=
  (graph.getD u []).foldl
    (fun c v =>
      if start.getD u 0 = stop.getD u 0 ∧ start.getD v 0 = stop.getD v 0 then c ++ [(u, v)] else c)
    crit

/-- Embedding of `Floorplanner::findCriticalEdges`. -/
def findCriticalEdges (fp : Floorplanner) : Floorplanner :=
  let r := (List.range fp.blocks.length).foldl
    (fun (a : List (Nat × Nat) × List (Nat × Nat)) u =>
      (pushCritical fp.hGraph fp.startX fp.endX u a.1,
       pushCritical fp.vGraph fp.startY fp.endY u a.2))
    (fp.hCritEdges, fp.vCritEdges)
  { fp with hCritEdges := r.1, vCritEdges := r.2 }

/-- The trial copy `hG`: `hG[u].erase(remove(hG[u].begin(), hG[u].end(), v), hG[u].end())`. -/
def trialH (hGraph : Graph) (u v : Nat) : Graph :=
  hGraph.set u ((hGraph.getD u []).filter (fun x => x != v))

/-- The trial copy `vG`: `if (find(vG[u]..., v) == vG[u].end()) vG[u].push_back(v)`. -/
def trialV (vGraph : Graph) (u v : Nat) : Graph :=
  if v ∈ vGraph.getD u [] then vGraph else vGraph.set u (vGraph.getD u [] ++ [v])

/-- Area `1LL * newW * newH` of one trial of `tryAreaReduction`. -/
def trialArea (blocks : List Block) (hGraph vGraph : Graph) (p : Nat × Nat) : Int :=
  let x := topoForward (trialH hGraph p.1 p.2) blocks true
  let y := topoForward (trialV vGraph p.1 p.2) blocks false
  let m := maxSpans blocks x y
  mulLL m.1 m.2

/-- Embedding of `Floorplanner::tryAreaReduction`: one `min` per horizontal critical edge. -/
def tryAreaReduction (fp : Floorplanner) : Floorplanner :=
  { fp with
    minArea := fp.hCritEdges.foldl
      (fun m p => min m (trialArea fp.blocks fp.hGraph fp.vGraph p)) fp.minArea }

/-- The planner after `readInput`, `computeEarliestPositions` and `computeLatestPositions`. -/
def latestStage (blocks : List Block) (hGraph vGraph : Graph) : Floorplanner :=
  computeLatestPositions (computeEarliestPositions (Floorplanner.ofInput blocks hGraph vGraph))

/-- The planner after `findCriticalEdges`, before the reduction search. -/
def criticalStage (blocks : List Block) (hGraph vGraph : Graph) : Floorplanner :=
  findCriticalEdges (latestStage blocks hGraph vGraph)

/-- The constructor's pipeline after `readInput` and before `writeOutput`. -/
def run (blocks : List Block) (hGraph vGraph : Graph) : Floorplanner :=
  tryAreaReduction (criticalStage blocks hGraph vGraph)

/-- The running `minArea` after the first `k` iterations of the loop of `tryAreaReduction`. -/
def areaAfterTrials (fp : Floorplanner) (k : Nat) : Int :=
  (fp.hCritEdges.take k).foldl
    (fun m p => min m (trialArea fp.blocks fp.hGraph fp.vGraph p)) fp.minArea

/-! ## Specification vocabulary -/

/-- The graph has the edge `u → v`: `v` occurs in `graph[u]`. -/
def Edge (g : Graph) (u v : Nat) : Prop := v ∈ g.getD u []

instance (g : Graph) (u v : Nat) : Decidable (Edge g u v) := by
  unfold Edge; infer_instance

/-- Every edge target is a valid block handle. -/
def InRange (g : Graph) : Prop := ∀ adj ∈ g, ∀ v ∈ adj, v < g.length

instance (g : Graph) : Decidable (InRange g) := by
  unfold InRange; infer_instance

/-- No vertex reaches itself along one or more edges. -/
def Acyclic (g : Graph) : Prop := ∀ v, ¬ Relation.TransGen (Edge g) v v

/-- Number of edges into `v` (with multiplicity) whose source is not in `done`. -/
def inCount (g : Graph) (done : List Nat) (v : Nat) : Nat :=
  ((List.range g.length).map (fun u => if u ∈ done then 0 else (g.getD u []).count v)).sum

/-- Loop invariant of `topoForward` between two iterations of the work loop; `done` is the
list of the vertices dequeued so far, in order, and `sh` the extent of each vertex. -/
structure FwdInv (g : Graph) (sh : Nat → Int) (done : List Nat) (s : FwdState) : Prop where
  lenC : s.coords.length = g.length
  lenD : s.indegree.length = g.length
  nodup : (done ++ s.q).Nodup
  lt : ∀ x ∈ done ++ s.q, x < g.length
  deg : ∀ v, v < g.length → s.indegree.getD v 0 = (inCount g done v : Int)
  zero : ∀ v, v < g.length → (v ∈ done ++ s.q ↔ inCount g done v = 0)
  nonneg : ∀ v, v < g.length → 0 ≤ s.coords.getD v 0
  lower : ∀ u ∈ done, ∀ v, v < g.length → Edge g u v →
    wrapInt32 (s.coords.getD u 0 + sh u) ≤ s.coords.getD v 0
  attain : ∀ v, v < g.length → s.coords.getD v 0 = 0 ∨
    ∃ u ∈ done, Edge g u v ∧ s.coords.getD v 0 = wrapInt32 (s.coords.getD u 0 + sh u)

/-- All edges go from a smaller handle to a larger one (a checkable certificate of acyclicity). -/
def TopoSorted (g : Graph) : Prop := ∀ u, u < g.length → ∀ v ∈ g.getD u [], u < v

instance (g : Graph) : Decidable (TopoSorted g) := by
  unfold TopoSorted; infer_instance

/-- The list `p` is a walk of the graph: consecutive entries are joined by an edge. -/
def IsPath (g : Graph) : List Nat → Prop
  | [] => True
  | [_] => True
  | a :: b :: rest => Edge g a b ∧ IsPath g (b :: rest)

/-- Sum of the extents of the vertices of a walk. -/
def pathExtent (sh : Nat → Int) (p : List Nat) : Int := (p.map sh).sum

/-- Correspondence between a state of `topoBackward` and a state of `topoForward` run on the
reverse graph: same queue, same degree table, vectors of the same length `n`. -/
structure BwdSim (n : Nat) (bs : BwdState) (fs : FwdState) : Prop where
  q : bs.q = fs.q
  deg : bs.outdeg = fs.indegree
  lenL : bs.latest.length = n
  lenC : fs.coords.length = n

/-- Value part of the loop invariant of `topoBackward`; `done` lists the vertices dequeued so
far. Every `latest[p]` is at most its initial value, at most every candidate produced by a
dequeued successor, and equal to the initial value or to one of these candidates. -/
structure BwdVal (g : Graph) (sh : Nat → Int) (bound : Int) (done : List Nat) (s : BwdState) :
    Prop where
  upper : ∀ p, p < g.length → s.latest.getD p 0 ≤ bound - sh p
  lower : ∀ u ∈ done, ∀ p, p < g.length → Edge g p u →
    s.latest.getD p 0 ≤ wrapInt32 (s.latest.getD u 0 - sh p)
  attain : ∀ p, p < g.length → s.latest.getD p 0 = bound - sh p ∨
    ∃ u ∈ done, Edge g p u ∧ s.latest.getD p 0 = wrapInt32 (s.latest.getD u 0 - sh p)

/-- No walk of the graph has an extent reaching `2^31`: with non-negative extents, none of
the `int` sums formed by the forward pass and by the span loop overflows. -/
def WalksFit (g : Graph) (sh : Nat → Int) : Prop :=
  ∀ p, IsPath g p → pathExtent sh p < 2 ^ 31

/-- All edges of a graph, by ascending source handle and, per source, in adjacency order. -/
def allEdges (g : Graph) : List (Nat × Nat) :=
  (List.range g.length).flatMap (fun u => (g.getD u []).map (fun v => (u, v)))

/-- Both endpoints of the edge `e` have zero slack: `start[u] == stop[u] && start[v] == stop[v]`. -/
def BothZeroSlack (start stop : List Int) (e : Nat × Nat) : Prop :=
  start.getD e.1 0 = stop.getD e.1 0 ∧ start.getD e.2 0 = stop.getD e.2 0

instance (start stop : List Int) (e : Nat × Nat) : Decidable (BothZeroSlack start stop e) := by
  unfold BothZeroSlack; infer_instance

/-- The value `m` is the maximum of `f` over the handles below `n`. -/
def IsMaxOver (n : Nat) (f : Nat → Int) (m : Int) : Prop :=
  (∀ i, i < n → f i ≤ m) ∧ ∃ i, i < n ∧ f i = m

/-- The dequeued vertices `done` respect the edges: every predecessor of a dequeued vertex
was dequeued before it (`rank` gives the position in the order). -/
def DequeueOrdered (g : Graph) (done : List Nat) : Prop :=
  ∃ rank : Nat → Nat, ∀ v ∈ done, rank v < done.length ∧
    ∀ u, Edge g u v → u ∈ done ∧ rank u < rank v

/-! ## Run-time checks

The predicates below follow the loops of the two passes and state that every subscript used
is inside its vector and that no degree counter drops below zero. -/

/-- All executions of the loop body `f` over the list, starting from `s`, pass the check `ok`. -/
def AllOk {σ α : Type} (ok : σ → α → Prop) (f : σ → α → σ) : List α → σ → Prop
  | [], _ => True
  | a :: l, s => ok s a ∧ AllOk ok f l (f s a)

/-- Check of one body of `topoForward`: `coords[v]`, `coords[u]`, `blocks[u]`, `indegree[v]`
are in range and `--indegree[v]` does not go below zero. -/
def forwardRelaxOk (blocks : List Block) (u : Nat) (s : FwdState) (v : Nat) : Prop :=
  v < s.coords.length ∧ u < s.coords.length ∧ u < blocks.length ∧ v < s.indegree.length ∧
    0 ≤ s.indegree.getD v 0 - 1

/-- The work loop of `topoForward` started in `s` pops at most `fuel` vertices and then finds
its queue empty; every popped `u` is a valid subscript of `graph` and every body passes
`forwardRelaxOk`. -/
def ForwardSafe (graph : Graph) (blocks : List Block) (horizontal : Bool) :
    Nat → FwdState → Prop
  | 0, s => s.q = []
  | fuel + 1, s =>
    match s.q with
    | [] => True
    | u :: rest =>
      u < graph.length ∧
      AllOk (forwardRelaxOk blocks u) (forwardRelax blocks horizontal u) (graph.getD u [])
        { s with q := rest } ∧
      ForwardSafe graph blocks horizontal fuel
        ((graph.getD u []).foldl (forwardRelax blocks horizontal u) { s with q := rest })

/-- The in-degree loop of `topoForward` only writes `indegree[v]` with `v` in range. -/
def indegreeInitSafe (graph : Graph) : Prop :=
  AllOk
    (fun (d : List Int) u => u < graph.length ∧
      AllOk (fun (d : List Int) v => v < d.length) (fun d v => d.set v (d.getD v 0 + 1))
        (graph.getD u []) d)
    (fun d u => (graph.getD u []).foldl (fun d v => d.set v (d.getD v 0 + 1)) d)
    (List.range graph.length) (List.replicate graph.length 0)

/-- A whole run of `topoForward` is free of out-of-range subscripts and negative counters,
and its work loop stops within `n` iterations. -/
def TopoForwardSafe (graph : Graph) (blocks : List Block) (horizontal : Bool) : Prop :=
  indegreeInitSafe graph ∧
  (∀ i, i < graph.length → i < (indegreeInit graph).length) ∧
  ForwardSafe graph blocks horizontal graph.length (forwardInit graph)

/-- Check of one body of `topoBackward`: `latest[p]`, `latest[u]`, `blocks[p]`, `outdeg[p]`
are in range and `--outdeg[p]` does not go below zero. -/
def backwardRelaxOk (blocks : List Block) (u : Nat) (s : BwdState) (p : Nat) : Prop :=
  p < s.latest.length ∧ u < s.latest.length ∧ p < blocks.length ∧ p < s.outdeg.length ∧
    0 ≤ s.outdeg.getD p 0 - 1

/-- The work loop of `topoBackward` started in `s` pops at most `fuel` vertices and then
finds its queue empty; every popped `u` is a valid subscript of `rev` and every body passes
`backwardRelaxOk`. -/
def BackwardSafe (rev : List (List Nat)) (blocks : List Block) (horizontal : Bool) :
    Nat → BwdState → Prop
  | 0, s => s.q = []
  | fuel + 1, s =>
    match s.q with
    | [] => True
    | u :: rest =>
      u < rev.length ∧
      AllOk (backwardRelaxOk blocks u) (backwardRelax blocks horizontal u) (rev.getD u [])
        { s with q := rest } ∧
      BackwardSafe rev blocks horizontal fuel
        ((rev.getD u []).foldl (backwardRelax blocks horizontal u) { s with q := rest })

/-- The reversal loop of `topoBackward` only touches `rev[v]` and `outdeg[u]` in range. -/
def buildRevSafe (graph : Graph) : Prop :=
  AllOk
    (fun (a : List (List Nat) × List Int) u => u < graph.length ∧
      AllOk (fun (a : List (List Nat) × List Int) v => v < a.1.length ∧ u < a.2.length)
        (revPush u) (graph.getD u []) a)
    (fun a u => (graph.getD u []).foldl (revPush u) a)
    (List.range graph.length) (List.replicate graph.length [], List.replicate graph.length 0)

/-- The initialisation loop of `topoBackward` only touches `latest[i]`, `blocks[i]` and
`outdeg[i]` in range. -/
def backwardInitSafe (graph : Graph) (blocks : List Block) (bound : Int) (horizontal : Bool) :
    Prop :=
  AllOk
    (fun (a : List Int × List Nat) i =>
      i < a.1.length ∧ i < blocks.length ∧ i < (buildRev graph).2.length)
    (fun (a : List Int × List Nat) i =>
      (a.1.set i (bound - shift blocks horizontal i),
       if (buildRev graph).2.getD i 0 = 0 then a.2 ++ [i] else a.2))
    (List.range graph.length) (List.replicate graph.length bound, [])

/-- A whole run of `topoBackward` is free of out-of-range subscripts and negative counters,
and its work loop stops within `n` iterations. -/
def TopoBackwardSafe (graph : Graph) (blocks : List Block) (bound : Int) (horizontal : Bool) :
    Prop :=
  buildRevSafe graph ∧ backwardInitSafe graph blocks bound horizontal ∧
  BackwardSafe (buildRev graph).1 blocks horizontal graph.length
    (backwardInit graph blocks bound horizontal)

/-! ## Vector reads and writes -/

theorem getD_set {α : Type} (l : List α) (i j : Nat) (a d : α) :
    (l.set i a).getD j d = if i = j ∧ i < l.length then a else l.getD j d := by
  simp only [List.getD_eq_getElem?_getD, List.getElem?_set]
  by_cases h : i = j
  · subst h
    by_cases h2 : i < l.length
    · simp [h2]
    · have h3 : l.length ≤ i := Nat.le_of_not_lt h2
      simp [h2, List.getElem?_eq_none h3]
  · simp [h]

theorem getD_set_self {α : Type} (l : List α) (i : Nat) (a d : α) (h : i < l.length) :
    (l.set i a).getD i d = a := by
  rw [getD_set]; simp [h]

theorem getD_set_ne {α : Type} (l : List α) (i j : Nat) (a d : α) (h : i ≠ j) :
    (l.set i a).getD j d = l.getD j d := by
  rw [getD_set]; simp [h]

theorem getD_ge {α : Type} (l : List α) (i : Nat) (d : α) (h : l.length ≤ i) :
    l.getD i d = d := by
  simp [List.getD_eq_getElem?_getD, List.getElem?_eq_none h]

theorem getD_replicate {α : Type} (n i : Nat) (a : α) : (List.replicate n a).getD i a = a := by
  by_cases h : i < n
  · simp [List.getD_eq_getElem?_getD, List.getElem?_replicate, h]
  · simp [List.getD_eq_getElem?_getD, List.getElem?_replicate, h]

theorem mem_of_getD_ne_nil {α : Type} (g : List (List α)) (u : Nat) (x : α)
    (h : x ∈ g.getD u []) : u < g.length := by
  by_contra hn
  rw [getD_ge g u [] (Nat.le_of_not_lt hn)] at h
  simp at h

/-- Sum over `range n` of a function changed at one index. -/
theorem sum_range_update (f f' : Nat → Nat) (u k : Nat) :
    ∀ n, u < n → (∀ i, i ≠ u → f i = f' i) → f u = f' u + k →
      ((List.range n).map f).sum = ((List.range n).map f').sum + k := by
  intro n
  induction n with
  | zero => intro h; omega
  | succ m ih =>
    intro hu hne heq
    rw [List.sum_range_succ, List.sum_range_succ]
    by_cases hm : u = m
    · subst hm
      have : (List.map f (List.range u)).sum = (List.map f' (List.range u)).sum := by
        congr 1
        apply List.map_congr_left
        intro i hi
        exact hne i (by simp at hi; omega)
      omega
    · have := ih (by omega) hne heq
      have := hne m (Ne.symm hm)
      omega

theorem sum_range_eq_zero (f : Nat → Nat) (n : Nat) :
    ((List.range n).map f).sum = 0 ↔ ∀ i < n, f i = 0 := by
  induction n with
  | zero => simp
  | succ m ih =>
    rw [List.sum_range_succ]
    constructor
    · intro h i hi
      have h1 : (List.map f (List.range m)).sum = 0 := by omega
      have h2 : f m = 0 := by omega
      by_cases him : i = m
      · subst him; exact h2
      · exact ih.mp h1 i (by omega)
    · intro h
      have h1 := ih.mpr (fun i hi => h i (by omega))
      have h2 := h m (by omega)
      omega

/-- A duplicate-free list of numbers below `n` has at most `n` entries. -/
theorem nodup_length_le (l : List Nat) (n : Nat) (hnd : l.Nodup) (hlt : ∀ x ∈ l, x < n) :
    l.length ≤ n := by
  have h := (List.subperm_of_subset hnd (fun x hx => List.mem_range.mpr (hlt x hx))).length_le
  simpa using h

/-! ## The 32-bit reduction -/

theorem wrapInt32_of_range (x : Int) (h1 : -(2 ^ 31) ≤ x) (h2 : x < 2 ^ 31) : wrapInt32 x = x := by
  unfold wrapInt32
  rw [Int.emod_eq_of_lt (by omega) (by omega)]
  ring

theorem wrapInt32_range (x : Int) : -(2 ^ 31) ≤ wrapInt32 x ∧ wrapInt32 x < 2 ^ 31 := by
  unfold wrapInt32
  have h1 := Int.emod_nonneg (x + 2 ^ 31) (by norm_num : (2 : Int) ^ 32 ≠ 0)
  have h2 := Int.emod_lt_of_pos (x + 2 ^ 31) (by norm_num : (0 : Int) < 2 ^ 32)
  constructor <;> omega

/-! ## The inner loop of `topoForward` -/

theorem forwardRelax_coords (b : List Block) (h : Bool) (u : Nat) :
    ∀ (l : List Nat) (s : FwdState), u ∉ l →
      (l.foldl (forwardRelax b h u) s).coords.length = s.coords.length ∧
      ∀ v, v < s.coords.length →
        (l.foldl (forwardRelax b h u) s).coords.getD v 0 =
          if v ∈ l then max (s.coords.getD v 0) (wrapInt32 (s.coords.getD u 0 + shift b h u))
          else s.coords.getD v 0 := by
  intro l
  induction l with
  | nil => intro s _; simp
  | cons w l ih =>
    intro s hu
    have huw : u ≠ w := fun e => hu (by simp [e])
    have hul : u ∉ l := fun e => hu (by simp [e])
    obtain ⟨hlen, hval⟩ := ih (forwardRelax b h u s w) hul
    have hc1 : (forwardRelax b h u s w).coords =
        s.coords.set w
          (max (s.coords.getD w 0) (wrapInt32 (s.coords.getD u 0 + shift b h u))) := rfl
    rw [hc1] at hlen hval
    rw [List.foldl_cons]
    refine ⟨by rw [hlen]; simp, ?_⟩
    intro v hv
    rw [hval v (by simpa using hv)]
    rw [getD_set, getD_set]
    have hwu : ¬ (w = u ∧ w < s.coords.length) := fun e => huw e.1.symm
    rw [if_neg hwu]
    by_cases hvw : w = v
    · subst hvw
      simp only [hv, and_self, if_true, List.mem_cons, true_or]
      split
      · simp
      · rfl
    · have hvw2 : v ≠ w := fun e => hvw e.symm
      simp [hvw, hvw2]

theorem forwardRelax_indegree (b : List Block) (h : Bool) (u : Nat) :
    ∀ (l : List Nat) (s : FwdState),
      (l.foldl (forwardRelax b h u) s).indegree.length = s.indegree.length ∧
      ∀ v, v < s.indegree.length →
        (l.foldl (forwardRelax b h u) s).indegree.getD v 0 =
          s.indegree.getD v 0 - (l.count v : Int) := by
  intro l
  induction l with
  | nil => intro s; simp
  | cons w l ih =>
    intro s
    obtain ⟨hlen, hval⟩ := ih (forwardRelax b h u s w)
    have hc1 : (forwardRelax b h u s w).indegree =
        s.indegree.set w (s.indegree.getD w 0 - 1) := rfl
    rw [hc1] at hlen hval
    rw [List.foldl_cons]
    refine ⟨by rw [hlen]; simp, ?_⟩
    intro v hv
    rw [hval v (by simpa using hv), getD_set, List.count_cons]
    by_cases hvw : w = v
    · subst hvw
      simp [hv]
      ring
    · simp [hvw]

theorem forwardRelax_queue (b : List Block) (h : Bool) (u : Nat) :
    ∀ (l : List Nat) (s : FwdState),
      (∀ v, v < s.indegree.length → v ∈ l → (l.count v : Int) ≤ s.indegree.getD v 0) →
      ∃ p, (l.foldl (forwardRelax b h u) s).q = s.q ++ p ∧ p.Nodup ∧
        ∀ x, x ∈ p ↔ (x < s.indegree.length ∧ x ∈ l ∧ s.indegree.getD x 0 = (l.count x : Int)) := by
  intro l
  induction l with
  | nil => intro s _; exact ⟨[], by simp⟩
  | cons w l ih =>
    intro s hs
    have hc1 : (forwardRelax b h u s w).indegree =
        s.indegree.set w (s.indegree.getD w 0 - 1) := rfl
    have hq1 : (forwardRelax b h u s w).q =
        if s.indegree.getD w 0 - 1 = 0 then s.q ++ [w] else s.q := rfl
    have hpre : ∀ v, v < (forwardRelax b h u s w).indegree.length → v ∈ l →
        (l.count v : Int) ≤ (forwardRelax b h u s w).indegree.getD v 0 := by
      intro v hv hvl
      rw [hc1] at hv ⊢
      have hv2 : v < s.indegree.length := by simpa using hv
      have := hs v hv2 (by simp [hvl])
      rw [List.count_cons] at this
      rw [getD_set]
      by_cases hvw : w = v
      · subst hvw
        simp [hv2] at this ⊢
        omega
      · simp [hvw] at this ⊢
        exact this
    obtain ⟨p, hp, hnd, hmem⟩ := ih (forwardRelax b h u s w) hpre
    rw [hc1] at hmem
    rw [List.foldl_cons, hp, hq1]
    have hmem2 : ∀ x, x ∈ p ↔ (x < s.indegree.length ∧ x ∈ l ∧
        (if w = x ∧ w < s.indegree.length then s.indegree.getD w 0 - 1 else s.indegree.getD x 0)
          = (l.count x : Int)) := by
      intro x
      rw [hmem x, getD_set]
      simp
    by_cases hpush : s.indegree.getD w 0 - 1 = 0
    · rw [if_pos hpush]
      have hwlt : w < s.indegree.length := by
        by_contra hn
        rw [getD_ge _ _ _ (Nat.le_of_not_lt hn)] at hpush
        omega
      have hwl : w ∉ l := by
        intro hwl
        have := hs w hwlt (by simp)
        rw [List.count_cons] at this
        have hpos : 0 < l.count w := List.count_pos_iff.mpr hwl
        simp only [beq_self_eq_true, if_true] at this
        push_cast at this
        omega
      refine ⟨w :: p, by simp, ?_, ?_⟩
      · refine List.nodup_cons.mpr ⟨?_, hnd⟩
        intro hwp
        exact hwl ((hmem2 w).mp hwp).2.1
      · intro x
        rw [List.mem_cons, hmem2 x, List.count_cons]
        by_cases hxw : w = x
        · subst hxw
          have hc0 : l.count w = 0 := List.count_eq_zero.mpr hwl
          constructor
          · intro _
            refine ⟨hwlt, List.mem_cons_self _ _, ?_⟩
            simp only [hc0, beq_self_eq_true, if_true]
            push_cast
            omega
          · intro _
            exact Or.inl rfl
        · have hxw2 : x ≠ w := fun e => hxw e.symm
          simp [hxw, hxw2]
    · rw [if_neg hpush]
      refine ⟨p, rfl, hnd, ?_⟩
      intro x
      rw [hmem2 x, List.count_cons]
      by_cases hxw : w = x
      · subst hxw
        by_cases hwlt : w < s.indegree.length
        · simp only [hwlt, and_self, if_true, true_and, List.mem_cons, true_or, beq_self_eq_true]
          constructor
          · rintro ⟨_, h2⟩
            push_cast
            omega
          · intro h2
            push_cast at h2
            have hpos : 0 < l.count w := by
              by_contra hn
              have h0 : l.count w = 0 := by omega
              rw [h0] at h2
              simp only [Nat.cast_zero, zero_add] at h2
              omega
            refine ⟨List.count_pos_iff.mp hpos, ?_⟩
            omega
        · simp [hwlt]
      · have hxw2 : x ≠ w := fun e => hxw e.symm
        simp [hxw, hxw2]

/-! ## The work loop of `topoForward` -/

theorem inCount_snoc (g : Graph) (done : List Nat) (u w : Nat) (hu : u < g.length)
    (hnd : u ∉ done) :
    inCount g done w = inCount g (done ++ [u]) w + (g.getD u []).count w := by
  unfold inCount
  apply sum_range_update _ _ u _ _ hu
  · intro i hi
    simp [hi]
  · simp [hnd]

theorem inCount_eq_zero (g : Graph) (done : List Nat) (w : Nat) :
    inCount g done w = 0 ↔ ∀ u, Edge g u w → u ∈ done := by
  unfold inCount
  rw [sum_range_eq_zero]
  constructor
  · intro h u hu
    have hlt : u < g.length := mem_of_getD_ne_nil g u w hu
    have := h u hlt
    by_contra hn
    simp only [hn, if_false] at this
    exact (List.count_eq_zero.mp this) hu
  · intro h u _
    by_cases hd : u ∈ done
    · simp [hd]
    · simp only [hd, if_false]
      exact List.count_eq_zero.mpr (fun hm => hd (h u hm))

/-- Vertices already dequeued or queued receive no edge from the vertex at the head of the
queue. -/
theorem FwdInv.no_edge {g : Graph} {sh : Nat → Int} {done : List Nat} {s : FwdState}
    {u : Nat} {rest : List Nat} (hinv : FwdInv g sh done s) (hq : s.q = u :: rest) :
    u < g.length ∧ u ∉ done ∧ ∀ w, w ∈ done ++ s.q → w ∉ g.getD u [] := by
  have hnd := hinv.nodup
  rw [hq] at hnd
  have hud : u ∉ done := fun hmem => (List.nodup_append.mp hnd).2.2 hmem (by simp)
  refine ⟨hinv.lt u (by simp [hq]), hud, ?_⟩
  intro w hw hwl
  have hwlt := hinv.lt w hw
  have h0 := (hinv.zero w hwlt).mp hw
  exact hud ((inCount_eq_zero g done w).mp h0 u hwl)

theorem FwdInv.step {g : Graph} {b : List Block} {h : Bool} {done : List Nat} {s : FwdState}
    {u : Nat} {rest : List Nat} (hinv : FwdInv g (shift b h) done s) (hq : s.q = u :: rest) :
    FwdInv g (shift b h) (done ++ [u])
      ((g.getD u []).foldl (forwardRelax b h u) { s with q := rest }) := by
  have hnd := hinv.nodup
  rw [hq] at hnd
  have hult : u < g.length := hinv.lt u (by simp [hq])
  have hud : u ∉ done := by
    intro hmem
    have := (List.nodup_append.mp hnd).2.2
    exact this hmem (by simp)
  -- vertices already queued or done receive no edge from `u`
  have hnoedge : ∀ w, w ∈ done ++ s.q → w ∉ g.getD u [] := by
    intro w hw hwl
    have hwlt := hinv.lt w hw
    have h0 := (hinv.zero w hwlt).mp hw
    exact hud ((inCount_eq_zero g done w).mp h0 u hwl)
  have huu : u ∉ g.getD u [] := hnoedge u (by simp [hq])
  obtain ⟨hclen, hcval⟩ := forwardRelax_coords b h u (g.getD u []) { s with q := rest } huu
  obtain ⟨hdlen, hdval⟩ := forwardRelax_indegree b h u (g.getD u []) { s with q := rest }
  have hpre : ∀ v, v < ({ s with q := rest } : FwdState).indegree.length → v ∈ g.getD u [] →
      ((g.getD u []).count v : Int) ≤ ({ s with q := rest } : FwdState).indegree.getD v 0 := by
    intro v hv _
    have hv2 : v < g.length := by rw [← hinv.lenD]; exact hv
    show ((g.getD u []).count v : Int) ≤ s.indegree.getD v 0
    rw [hinv.deg v hv2, inCount_snoc g done u v hult hud]
    push_cast
    omega
  obtain ⟨p, hp, hpnd, hpmem⟩ := forwardRelax_queue b h u (g.getD u []) { s with q := rest } hpre
  simp only at hclen hcval hdlen hdval hp hpmem
  rw [hinv.lenC] at hclen hcval
  rw [hinv.lenD] at hdlen hdval hpmem
  have hpmem2 : ∀ x, x ∈ p ↔ x < g.length ∧ x ∈ g.getD u [] ∧ inCount g (done ++ [u]) x = 0 := by
    intro x
    rw [hpmem x]
    constructor
    · rintro ⟨h1, h2, h3⟩
      refine ⟨h1, h2, ?_⟩
      rw [hinv.deg x h1, inCount_snoc g done u x hult hud] at h3
      push_cast at h3
      omega
    · rintro ⟨h1, h2, h3⟩
      refine ⟨h1, h2, ?_⟩
      rw [hinv.deg x h1, inCount_snoc g done u x hult hud, h3]
      simp
  have hcu : ∀ w, w ∈ done ++ s.q → w < g.length →
      ((g.getD u []).foldl (forwardRelax b h u) { s with q := rest }).coords.getD w 0
        = s.coords.getD w 0 := by
    intro w hw hwlt
    rw [hcval w hwlt, if_neg (hnoedge w hw)]
  have hqeq : (done ++ [u]) ++ (rest ++ p) = (done ++ u :: rest) ++ p := by simp
  refine ⟨hclen, hdlen, ?_, ?_, ?_, ?_, ?_, ?_, ?_⟩
  · rw [hp, hqeq]
    refine List.nodup_append.mpr ⟨hnd, hpnd, ?_⟩
    intro x hx hxp
    rw [← hq] at hx
    exact hnoedge x hx ((hpmem2 x).mp hxp).2.1
  · intro x hx
    rw [hp, hqeq] at hx
    rcases List.mem_append.mp hx with hx | hx
    · rw [← hq] at hx; exact hinv.lt x hx
    · exact ((hpmem2 x).mp hx).1
  · intro v hv
    rw [hdval v hv, hinv.deg v hv, inCount_snoc g done u v hult hud]
    push_cast
    ring
  · intro v hv
    rw [hp, hqeq, List.mem_append, ← hq]
    constructor
    · rintro (hx | hx)
      · have := (hinv.zero v hv).mp hx
        rw [inCount_snoc g done u v hult hud] at this
        omega
      · exact ((hpmem2 v).mp hx).2.2
    · intro h0
      by_cases hvl : v ∈ g.getD u []
      · exact Or.inr ((hpmem2 v).mpr ⟨hv, hvl, h0⟩)
      · refine Or.inl ((hinv.zero v hv).mpr ?_)
        rw [inCount_snoc g done u v hult hud, h0, List.count_eq_zero.mpr hvl]
  · intro v hv
    rw [hcval v hv]
    have := hinv.nonneg v hv
    split
    · exact le_trans this (le_max_left _ _)
    · exact this
  · intro u' hu' v hv he
    have hu'q : u' ∈ done ++ s.q := by
      rcases List.mem_append.mp hu' with h1 | h1
      · exact List.mem_append.mpr (Or.inl h1)
      · simp at h1; subst h1; simp [hq]
    rw [hcu u' hu'q (hinv.lt u' hu'q), hcval v hv]
    rcases List.mem_append.mp hu' with h1 | h1
    · have := hinv.lower u' h1 v hv he
      split
      · exact le_trans this (le_max_left _ _)
      · exact this
    · simp at h1
      subst h1
      have he2 : v ∈ g.getD u' [] := he
      rw [if_pos he2]
      exact le_max_right _ _
  · intro v hv
    rw [hcval v hv]
    have hold : s.coords.getD v 0 = 0 ∨ ∃ u' ∈ done ++ [u], Edge g u' v ∧
        s.coords.getD v 0 =
          wrapInt32
            (((g.getD u []).foldl (forwardRelax b h u) { s with q := rest }).coords.getD u' 0
              + shift b h u') := by
      rcases hinv.attain v hv with h0 | ⟨u', hu', he, heq⟩
      · exact Or.inl h0
      · refine Or.inr ⟨u', List.mem_append.mpr (Or.inl hu'), he, ?_⟩
        have hu'q : u' ∈ done ++ s.q := List.mem_append.mpr (Or.inl hu')
        rw [hcu u' hu'q (hinv.lt u' hu'q)]
        exact heq
    by_cases hvl : v ∈ g.getD u []
    · rw [if_pos hvl]
      rcases le_total (s.coords.getD v 0) (wrapInt32 (s.coords.getD u 0 + shift b h u))
        with hle | hle
      · rw [max_eq_right hle]
        refine Or.inr ⟨u, by simp, hvl, ?_⟩
        rw [hcu u (by simp [hq]) hult]
      · rw [max_eq_left hle]
        exact hold
    · rw [if_neg hvl]
      exact hold

/-! ## Initial state and termination of `topoForward` -/

theorem incr_fold (l : List Nat) : ∀ d : List Int,
    (l.foldl (fun d v => d.set v (d.getD v 0 + 1)) d).length = d.length ∧
    ∀ v, v < d.length →
      (l.foldl (fun d v => d.set v (d.getD v 0 + 1)) d).getD v 0 = d.getD v 0 + (l.count v : Int) := by
  induction l with
  | nil => intro d; simp
  | cons w l ih =>
    intro d
    obtain ⟨hlen, hval⟩ := ih (d.set w (d.getD w 0 + 1))
    rw [List.foldl_cons]
    refine ⟨by rw [hlen]; simp, ?_⟩
    intro v hv
    rw [hval v (by simpa using hv), getD_set, List.count_cons]
    by_cases hvw : w = v
    · subst hvw
      simp [hv]
      ring
    · simp [hvw]

theorem indegree_fold (g : Graph) (us : List Nat) : ∀ d : List Int,
    (us.foldl (fun indegree u =>
        (g.getD u []).foldl (fun d v => d.set v (d.getD v 0 + 1)) indegree) d).length = d.length ∧
    ∀ v, v < d.length →
      (us.foldl (fun indegree u =>
        (g.getD u []).foldl (fun d v => d.set v (d.getD v 0 + 1)) indegree) d).getD v 0
        = d.getD v 0 + ((us.map (fun u => (g.getD u []).count v)).sum : Nat) := by
  induction us with
  | nil => intro d; simp
  | cons u us ih =>
    intro d
    obtain ⟨hlen1, hval1⟩ := incr_fold (g.getD u []) d
    obtain ⟨hlen, hval⟩ := ih ((g.getD u []).foldl (fun d v => d.set v (d.getD v 0 + 1)) d)
    rw [List.foldl_cons]
    refine ⟨by rw [hlen, hlen1], ?_⟩
    intro v hv
    rw [hval v (by rw [hlen1]; exact hv), hval1 v hv]
    simp only [List.map_cons, List.sum_cons]
    push_cast
    ring

theorem indegreeInit_spec (g : Graph) :
    (indegreeInit g).length = g.length ∧
    ∀ v, v < g.length → (indegreeInit g).getD v 0 = (inCount g [] v : Int) := by
  obtain ⟨hlen, hval⟩ := indegree_fold g (List.range g.length) (List.replicate g.length 0)
  refine ⟨by unfold indegreeInit; rw [hlen]; simp, ?_⟩
  intro v hv
  unfold indegreeInit inCount
  rw [hval v (by simpa using hv), getD_replicate]
  simp

theorem seedQueue_fold (deg : List Int) (l : List Nat) : ∀ q : List Nat,
    l.foldl (fun q i => if deg.getD i 0 = 0 then q ++ [i] else q) q
      = q ++ l.filter (fun i => decide (deg.getD i 0 = 0)) := by
  induction l with
  | nil => intro q; simp
  | cons i l ih =>
    intro q
    rw [List.foldl_cons, ih]
    by_cases hi : deg.getD i 0 = 0
    · rw [if_pos hi, List.filter_cons_of_pos (by simpa using hi)]
      simp
    · rw [if_neg hi, List.filter_cons_of_neg (by simpa using hi)]

theorem seedQueue_eq (n : Nat) (deg : List Int) :
    seedQueue n deg = (List.range n).filter (fun i => decide (deg.getD i 0 = 0)) := by
  unfold seedQueue
  rw [seedQueue_fold]
  simp

theorem FwdInv.initial (g : Graph) (sh : Nat → Int) : FwdInv g sh [] (forwardInit g) := by
  obtain ⟨hlen, hval⟩ := indegreeInit_spec g
  have hmem : ∀ v, v ∈ seedQueue g.length (indegreeInit g) ↔
      v < g.length ∧ (indegreeInit g).getD v 0 = 0 := by
    intro v
    rw [seedQueue_eq]
    simp [List.mem_filter]
  refine ⟨by simp [forwardInit], hlen, ?_, ?_, hval, ?_, ?_, ?_, ?_⟩
  · show ([] ++ seedQueue g.length (indegreeInit g)).Nodup
    rw [List.nil_append, seedQueue_eq]
    exact List.Nodup.filter _ (List.nodup_range _)
  · intro x hx
    exact ((hmem x).mp (by simpa [forwardInit] using hx)).1
  · intro v hv
    show v ∈ [] ++ seedQueue g.length (indegreeInit g) ↔ _
    rw [List.nil_append, hmem v, hval v hv]
    constructor
    · rintro ⟨_, h0⟩; exact_mod_cast h0
    · intro h0; exact ⟨hv, by exact_mod_cast h0⟩
  · intro v _
    show 0 ≤ (List.replicate g.length (0 : Int)).getD v 0
    rw [getD_replicate]
  · intro u hu
    simp at hu
  · intro v _
    left
    show (List.replicate g.length (0 : Int)).getD v 0 = 0
    rw [getD_replicate]

theorem forwardLoop_inv (g : Graph) (b : List Block) (h : Bool) :
    ∀ (fuel : Nat) (s : FwdState) (done : List Nat),
      FwdInv g (shift b h) done s → g.length ≤ done.length + fuel →
      ∃ done', FwdInv g (shift b h) done' (forwardLoop g b h fuel s) ∧
        (forwardLoop g b h fuel s).q = [] := by
  intro fuel
  induction fuel with
  | zero =>
    intro s done hinv hfuel
    have hle := nodup_length_le _ _ hinv.nodup hinv.lt
    rw [List.length_append] at hle
    have hq : s.q = [] := List.eq_nil_of_length_eq_zero (by omega)
    exact ⟨done, hinv, hq⟩
  | succ fuel ih =>
    intro s done hinv hfuel
    cases hq : s.q with
    | nil =>
      refine ⟨done, ?_, ?_⟩
      · simp only [forwardLoop, hq]; exact hinv
      · simp only [forwardLoop, hq]
    | cons u rest =>
      have hstep := hinv.step hq
      obtain ⟨done', hinv', hq'⟩ := ih _ (done ++ [u]) hstep (by simp; omega)
      refine ⟨done', ?_, ?_⟩
      · simp only [forwardLoop, hq]; exact hinv'
      · simp only [forwardLoop, hq]; exact hq'

/-- The work loop of `topoForward` has emptied its queue when the fuel `n` is spent, for
every graph: the loop of the source terminates after at most `n` iterations. -/
theorem forwardLoop_queue_empty (g : Graph) (b : List Block) (h : Bool) :
    (topoForwardRun g b h).q = [] := by
  obtain ⟨_, _, hq⟩ := forwardLoop_inv g b h g.length (forwardInit g) [] (FwdInv.initial g _) (by simp)
  exact hq

theorem topoForwardRun_inv (g : Graph) (b : List Block) (h : Bool) :
    ∃ done, FwdInv g (shift b h) done (topoForwardRun g b h) ∧ (topoForwardRun g b h).q = [] :=
  forwardLoop_inv g b h g.length (forwardInit g) [] (FwdInv.initial g _) (by simp)

/-- Once the queue is empty, extra fuel changes nothing: the result of the work loop does not
depend on the fuel, provided there is enough of it. -/
theorem forwardLoop_fuel_stable (g : Graph) (b : List Block) (h : Bool) :
    ∀ (fuel k : Nat) (s : FwdState), (forwardLoop g b h fuel s).q = [] →
      forwardLoop g b h (fuel + k) s = forwardLoop g b h fuel s := by
  intro fuel
  induction fuel with
  | zero =>
    intro k s hq
    simp only [forwardLoop] at hq
    cases k with
    | zero => rfl
    | succ k => simp only [Nat.zero_add, forwardLoop, hq]
  | succ fuel ih =>
    intro k s hq
    rw [show fuel + 1 + k = (fuel + k) + 1 by omega]
    cases hs : s.q with
    | nil => simp only [forwardLoop, hs]
    | cons u rest =>
      simp only [forwardLoop, hs] at hq ⊢
      exact ih k _ hq

/-- The result of `topoForward` is the same for every fuel of at least `n`. -/
theorem topoForward_fuel_independent (g : Graph) (b : List Block) (h : Bool) (k : Nat) :
    (forwardLoop g b h (g.length + k) (forwardInit g)).coords = topoForward g b h := by
  rw [forwardLoop_fuel_stable g b h g.length k (forwardInit g) (forwardLoop_queue_empty g b h)]
  rfl

/-! ## Acyclic graphs -/

theorem wf_of_irrefl_bounded (r : Nat → Nat → Prop) (n : Nat) (hlt : ∀ a b, r a b → a < n)
    (hirr : ∀ v, ¬ Relation.TransGen r v v) : WellFounded r := by
  let R : Fin n → Fin n → Prop := fun a b => Relation.TransGen r a.val b.val
  haveI : IsTrans (Fin n) R := ⟨fun _ _ _ h1 h2 => Relation.TransGen.trans h1 h2⟩
  haveI : IsIrrefl (Fin n) R := ⟨fun a => hirr a.val⟩
  have hwf : WellFounded R := Finite.wellFounded_of_trans_of_irrefl R
  have hfin : ∀ a : Fin n, Acc r a.val := by
    intro a
    induction a using hwf.induction with
    | _ a ih =>
      refine Acc.intro _ (fun y hy => ?_)
      exact ih ⟨y, hlt y _ hy⟩ (Relation.TransGen.single hy)
  refine ⟨fun v => Acc.intro _ (fun y hy => ?_)⟩
  exact hfin ⟨y, hlt y v hy⟩

theorem Edge.src_lt {g : Graph} {u v : Nat} (he : Edge g u v) : u < g.length :=
  mem_of_getD_ne_nil g u v he

theorem Edge.tgt_lt {g : Graph} {u v : Nat} (hin : InRange g) (he : Edge g u v) :
    v < g.length := by
  have hu := he.src_lt
  unfold Edge at he
  rw [List.getD_eq_getElem _ _ hu] at he
  exact hin _ (List.getElem_mem _) v he

theorem Acyclic.wf {g : Graph} (hac : Acyclic g) : WellFounded (Edge g) :=
  wf_of_irrefl_bounded (Edge g) g.length (fun _ _ he => he.src_lt) hac

theorem Acyclic.wf_rev {g : Graph} (hac : Acyclic g) (hin : InRange g) :
    WellFounded (fun a b => Edge g b a) := by
  refine wf_of_irrefl_bounded _ g.length (fun _ _ he => he.tgt_lt hin) ?_
  intro v hv
  exact hac v (Relation.transGen_swap.mp hv)

theorem acyclic_of_rank (g : Graph) (rank : Nat → Nat)
    (hr : ∀ u v, Edge g u v → rank u < rank v) : Acyclic g := by
  have hmono : ∀ a b, Relation.TransGen (Edge g) a b → rank a < rank b := by
    intro a b hab
    induction hab with
    | single he => exact hr _ _ he
    | tail _ he ih => exact lt_trans ih (hr _ _ he)
  intro v hv
  exact lt_irrefl _ (hmono v v hv)

theorem TopoSorted.acyclic {g : Graph} (hs : TopoSorted g) : Acyclic g :=
  acyclic_of_rank g id (fun u v he => hs u he.src_lt v he)

/-! ## What `topoForward` computes -/

theorem FwdInv.all_done {g : Graph} {sh : Nat → Int} {done : List Nat} {s : FwdState}
    (hinv : FwdInv g sh done s) (hq : s.q = []) (hac : Acyclic g) :
    ∀ v, v < g.length → v ∈ done := by
  intro v
  induction v using hac.wf.induction with
  | _ v ih =>
    intro hv
    have h0 : inCount g done v = 0 :=
      (inCount_eq_zero g done v).mpr (fun u he => ih u he he.src_lt)
    have := (hinv.zero v hv).mpr h0
    rw [hq] at this
    simpa using this

/-- Recurrence satisfied by the result of `topoForward` on an acyclic graph, each candidate
being the `int` sum as the machine forms it. -/
theorem topoForward_wrap_spec (g : Graph) (b : List Block) (h : Bool) (hac : Acyclic g) :
    (topoForward g b h).length = g.length ∧
    ∀ v, v < g.length →
      0 ≤ (topoForward g b h).getD v 0 ∧
      (∀ u, Edge g u v →
        wrapInt32 ((topoForward g b h).getD u 0 + shift b h u) ≤ (topoForward g b h).getD v 0) ∧
      ((topoForward g b h).getD v 0 = 0 ∨
        ∃ u, Edge g u v ∧
          (topoForward g b h).getD v 0
            = wrapInt32 ((topoForward g b h).getD u 0 + shift b h u)) := by
  obtain ⟨done, hinv, hq⟩ := topoForwardRun_inv g b h
  have hall := hinv.all_done hq hac
  refine ⟨hinv.lenC, fun v hv => ⟨hinv.nonneg v hv, ?_, ?_⟩⟩
  · intro u he
    exact hinv.lower u (hall u he.src_lt) v hv he
  · rcases hinv.attain v hv with h0 | ⟨u, _, he, heq⟩
    · exact Or.inl h0
    · exact Or.inr ⟨u, he, heq⟩

theorem isPath_iff_chain (g : Graph) (p : List Nat) : IsPath g p ↔ List.Chain' (Edge g) p := by
  induction p with
  | nil => simp [IsPath]
  | cons a p ih =>
    cases p with
    | nil => simp [IsPath]
    | cons c p =>
      simp only [IsPath, List.chain'_cons]
      rw [ih]

theorem isPath_snoc (g : Graph) (p : List Nat) (u v : Nat) :
    IsPath g (p ++ [u] ++ [v]) ↔ IsPath g (p ++ [u]) ∧ Edge g u v := by
  rw [isPath_iff_chain, isPath_iff_chain, List.chain'_append]
  simp [List.getLast?_append]

theorem isPath_cons (g : Graph) (p : List Nat) (u v : Nat) :
    IsPath g (u :: v :: p) ↔ Edge g u v ∧ IsPath g (v :: p) := by
  simp [IsPath]

theorem pathExtent_append (sh : Nat → Int) (p q : List Nat) :
    pathExtent sh (p ++ q) = pathExtent sh p + pathExtent sh q := by
  simp [pathExtent]

theorem pathExtent_cons (sh : Nat → Int) (u : Nat) (q : List Nat) :
    pathExtent sh (u :: q) = sh u + pathExtent sh q := by
  simp [pathExtent]

theorem pathExtent_single (sh : Nat → Int) (u : Nat) : pathExtent sh [u] = sh u := by
  simp [pathExtent]

/-- Without overflow every forward coordinate is the extent of a walk ending at the vertex
(the vertex itself excluded). -/
theorem topoForward_walk (g : Graph) (b : List Block) (h : Bool) (hac : Acyclic g)
    (hnn : ∀ u, u < g.length → 0 ≤ shift b h u) (hfit : WalksFit g (shift b h)) :
    ∀ v, v < g.length →
      ∃ p, IsPath g (p ++ [v]) ∧ pathExtent (shift b h) p = (topoForward g b h).getD v 0 := by
  obtain ⟨_, hspec⟩ := topoForward_wrap_spec g b h hac
  intro v
  induction v using hac.wf.induction with
  | _ v ih =>
    intro hv
    rcases (hspec v hv).2.2 with h0 | ⟨u, he, heq⟩
    · exact ⟨[], by simp [IsPath], by rw [h0]; simp [pathExtent]⟩
    · have hu := he.src_lt
      obtain ⟨p, hp, hsum⟩ := ih u he hu
      refine ⟨p ++ [u], (isPath_snoc g p u v).mpr ⟨hp, he⟩, ?_⟩
      have h1 := hfit (p ++ [u]) hp
      have h2 := (hspec u hu).1
      have h3 := hnn u hu
      rw [pathExtent_append, pathExtent_single] at h1 ⊢
      rw [heq, wrapInt32_of_range _ (by omega) (by omega)]
      omega

/-- Without overflow the sum `coords[u] + extent(u)` is formed exactly. -/
theorem topoForward_sum_exact (g : Graph) (b : List Block) (h : Bool) (hac : Acyclic g)
    (hnn : ∀ u, u < g.length → 0 ≤ shift b h u) (hfit : WalksFit g (shift b h)) :
    ∀ u, u < g.length →
      0 ≤ (topoForward g b h).getD u 0 + shift b h u ∧
      (topoForward g b h).getD u 0 + shift b h u < 2 ^ 31 ∧
      wrapInt32 ((topoForward g b h).getD u 0 + shift b h u)
        = (topoForward g b h).getD u 0 + shift b h u := by
  obtain ⟨_, hspec⟩ := topoForward_wrap_spec g b h hac
  intro u hu
  obtain ⟨p, hp, hsum⟩ := topoForward_walk g b h hac hnn hfit u hu
  have h1 := hfit (p ++ [u]) hp
  have h2 := (hspec u hu).1
  have h3 := hnn u hu
  rw [pathExtent_append, pathExtent_single] at h1
  exact ⟨by omega, by omega, wrapInt32_of_range _ (by omega) (by omega)⟩

/-- Recurrence satisfied by the result of `topoForward` on an acyclic graph whose walks fit
the `int` range. -/
theorem topoForward_spec (g : Graph) (b : List Block) (h : Bool) (hac : Acyclic g)
    (hnn : ∀ u, u < g.length → 0 ≤ shift b h u) (hfit : WalksFit g (shift b h)) :
    (topoForward g b h).length = g.length ∧
    ∀ v, v < g.length →
      0 ≤ (topoForward g b h).getD v 0 ∧
      (∀ u, Edge g u v →
        (topoForward g b h).getD u 0 + shift b h u ≤ (topoForward g b h).getD v 0) ∧
      ((topoForward g b h).getD v 0 = 0 ∨
        ∃ u, Edge g u v ∧
          (topoForward g b h).getD v 0 = (topoForward g b h).getD u 0 + shift b h u) := by
  obtain ⟨hlen, hspec⟩ := topoForward_wrap_spec g b h hac
  have hex := topoForward_sum_exact g b h hac hnn hfit
  refine ⟨hlen, fun v hv => ⟨(hspec v hv).1, ?_, ?_⟩⟩
  · intro u he
    have := (hspec v hv).2.1 u he
    rw [(hex u he.src_lt).2.2] at this
    exact this
  · rcases (hspec v hv).2.2 with h0 | ⟨u, he, heq⟩
    · exact Or.inl h0
    · rw [(hex u he.src_lt).2.2] at heq
      exact Or.inr ⟨u, he, heq⟩

/-! ## Longest-path reading of the forward pass -/

theorem shift_ge (b : List Block) (h : Bool) (v : Nat) (hv : b.length ≤ v) : shift b h v = 0 := by
  unfold shift
  rw [getD_ge b v default hv]
  cases h <;> rfl

/-- A checkable certificate that no walk overflows: `a[v]` bounds the extent of every walk
ending at `v` (`v` included) and stays below `2^31`. -/
theorem walksFit_of_bounds (g : Graph) (b : List Block) (h : Bool) (a : List Int)
    (hin : InRange g) (hlen : b.length ≤ g.length)
    (hnode : ∀ v, v < g.length → shift b h v ≤ a.getD v 0 ∧ a.getD v 0 < 2 ^ 31)
    (hedge : ∀ u, u < g.length → ∀ v ∈ g.getD u [], a.getD u 0 + shift b h v ≤ a.getD v 0) :
    WalksFit g (shift b h) := by
  have hwalk : ∀ (p : List Nat) (v : Nat), v < g.length → IsPath g (p ++ [v]) →
      pathExtent (shift b h) (p ++ [v]) ≤ a.getD v 0 := by
    intro p
    induction p using List.reverseRecOn with
    | nil =>
      intro v hv _
      simpa [pathExtent] using (hnode v hv).1
    | append_singleton p u ih =>
      intro v hv hp
      obtain ⟨hp1, he⟩ := (isPath_snoc g p u v).mp hp
      have h1 := ih u he.src_lt hp1
      have h2 := hedge u he.src_lt v he
      rw [pathExtent_append, pathExtent_single]
      omega
  intro q hq
  rcases List.eq_nil_or_concat q with e | ⟨p, v, e⟩
  · subst e
    simp [pathExtent]
  · rw [List.concat_eq_append] at e
    subst e
    by_cases hv : v < g.length
    · exact lt_of_le_of_lt (hwalk p v hv hq) (hnode v hv).2
    · have hp : p = [] := by
        rcases List.eq_nil_or_concat p with e | ⟨p0, w, e⟩
        · exact e
        · rw [List.concat_eq_append] at e
          subst e
          have he := ((isPath_snoc g p0 w v).mp hq).2
          exact absurd (he.tgt_lt hin) hv
      subst hp
      rw [List.nil_append, pathExtent_single, shift_ge b h v (by omega)]
      norm_num

theorem topoForward_path_le (g : Graph) (b : List Block) (h : Bool) (hac : Acyclic g)
    (hnn : ∀ u, u < g.length → 0 ≤ shift b h u) (hfit : WalksFit g (shift b h)) :
    ∀ (p : List Nat) (v : Nat), v < g.length → IsPath g (p ++ [v]) →
      pathExtent (shift b h) p ≤ (topoForward g b h).getD v 0 := by
  obtain ⟨_, hspec⟩ := topoForward_spec g b h hac hnn hfit
  intro p
  induction p using List.reverseRecOn with
  | nil =>
    intro v hv _
    simpa [pathExtent] using (hspec v hv).1
  | append_singleton p u ih =>
    intro v hv hp
    obtain ⟨hp1, he⟩ := (isPath_snoc g p u v).mp hp
    have h1 := ih u he.src_lt hp1
    have h2 := (hspec v hv).2.1 u he
    rw [pathExtent_append, pathExtent_single]
    omega

theorem list_ext_getD {α : Type} (l1 l2 : List α) (d : α) (hlen : l1.length = l2.length)
    (h : ∀ i, i < l1.length → l1.getD i d = l2.getD i d) : l1 = l2 := by
  apply List.ext_getElem hlen
  intro i h1 h2
  have := h i h1
  rw [List.getD_eq_getElem _ _ h1, List.getD_eq_getElem _ _ h2] at this
  exact this

theorem sum_range_single (f : Nat → Nat) (x n : Nat) :
    ((List.range n).map (fun u => if u = x then f u else 0)).sum = if x < n then f x else 0 := by
  induction n with
  | zero => simp
  | succ m ih =>
    rw [List.sum_range_succ, ih]
    by_cases h1 : x < m
    · have h2 : m ≠ x := by omega
      have h3 : x < m + 1 := by omega
      simp [h1, h2, h3]
    · by_cases h2 : m = x
      · subst h2; simp
      · have h3 : ¬ x < m + 1 := by omega
        simp [h1, h2, h3]

theorem buildRev_inner (u : Nat) (l : List Nat) : ∀ a : List (List Nat) × List Int,
    (l.foldl (revPush u) a).1.length = a.1.length ∧
    (l.foldl (revPush u) a).2.length = a.2.length ∧
    (∀ w, w < a.1.length → ∀ x,
      ((l.foldl (revPush u) a).1.getD w []).count x
        = (a.1.getD w []).count x + if u = x then l.count w else 0) ∧
    (∀ i, i < a.2.length →
      (l.foldl (revPush u) a).2.getD i 0
        = a.2.getD i 0 + if i = u then (l.length : Int) else 0) := by
  induction l with
  | nil => intro a; simp
  | cons v l ih =>
    intro a
    obtain ⟨h1, h2, h3, h4⟩ := ih (revPush u a v)
    have e1 : (revPush u a v).1 = a.1.set v (a.1.getD v [] ++ [u]) := rfl
    have e2 : (revPush u a v).2 = a.2.set u (a.2.getD u 0 + 1) := rfl
    rw [e1] at h1 h3
    rw [e2] at h2 h4
    simp only [List.foldl_cons]
    refine ⟨by rw [h1]; simp, by rw [h2]; simp, ?_, ?_⟩
    · intro w hw x
      rw [h3 w (by simpa using hw) x]
      simp only [getD_set, List.count_cons]
      by_cases hvw : v = w
      · subst hvw
        by_cases hux : u = x
        · subst hux
          simp [hw, List.count_append]
          omega
        · have hxu : ¬ x = u := fun e => hux e.symm
          simp [hw, List.count_append, hux, hxu, List.count_cons]
      · simp [hvw]
    · intro i hi
      rw [h4 i (by simpa using hi)]
      simp only [getD_set]
      by_cases hiu : u = i
      · subst hiu
        simp [hi]
        ring
      · have : i ≠ u := fun e => hiu e.symm
        simp [hiu, this]

theorem buildRev_outer (g : Graph) (us : List Nat) : ∀ a : List (List Nat) × List Int,
    (us.foldl (fun acc u => (g.getD u []).foldl
      (revPush u) acc) a).1.length
      = a.1.length ∧
    (us.foldl (fun acc u => (g.getD u []).foldl
      (revPush u) acc) a).2.length
      = a.2.length ∧
    (∀ w, w < a.1.length → ∀ x,
      ((us.foldl (fun acc u => (g.getD u []).foldl
        (revPush u) acc) a).1.getD w []).count x
        = (a.1.getD w []).count x
          + (us.map (fun u => if u = x then (g.getD u []).count w else 0)).sum) ∧
    (∀ i, i < a.2.length →
      (us.foldl (fun acc u => (g.getD u []).foldl
        (revPush u) acc) a).2.getD i 0
        = a.2.getD i 0
          + ((us.map (fun u => if u = i then (g.getD u []).length else 0)).sum : Nat)) := by
  induction us with
  | nil => intro a; simp
  | cons u us ih =>
    intro a
    obtain ⟨i1, i2, i3, i4⟩ := buildRev_inner u (g.getD u []) a
    obtain ⟨h1, h2, h3, h4⟩ := ih ((g.getD u []).foldl
      (revPush u) a)
    simp only [List.foldl_cons]
    refine ⟨by rw [h1, i1], by rw [h2, i2], ?_, ?_⟩
    · intro w hw x
      rw [h3 w (by rw [i1]; exact hw) x, i3 w hw x]
      simp only [List.map_cons, List.sum_cons]
      ring
    · intro i hi
      rw [h4 i (by rw [i2]; exact hi), i4 i hi]
      simp only [List.map_cons, List.sum_cons]
      by_cases hiu : i = u
      · subst hiu
        simp
        ring
      · have : u ≠ i := fun e => hiu e.symm
        simp [hiu, this]

theorem buildRev_spec (g : Graph) :
    (buildRev g).1.length = g.length ∧ (buildRev g).2.length = g.length ∧
    (∀ w, w < g.length → ∀ x, ((buildRev g).1.getD w []).count x = (g.getD x []).count w) ∧
    (∀ i, i < g.length → (buildRev g).2.getD i 0 = ((g.getD i []).length : Int)) := by
  obtain ⟨h1, h2, h3, h4⟩ := buildRev_outer g (List.range g.length)
    (List.replicate g.length [], List.replicate g.length 0)
  refine ⟨by unfold buildRev; rw [h1]; simp, by unfold buildRev; rw [h2]; simp, ?_, ?_⟩
  · intro w hw x
    unfold buildRev
    rw [h3 w (by simpa using hw) x, getD_replicate, sum_range_single (fun u => (g.getD u []).count w)]
    by_cases hx : x < g.length
    · simp [hx]
    · rw [getD_ge g x [] (Nat.le_of_not_lt hx)]
      simp [hx]
  · intro i hi
    unfold buildRev
    rw [h4 i (by simpa using hi), getD_replicate, sum_range_single (fun u => (g.getD u []).length)]
    simp [hi]

theorem edge_buildRev (g : Graph) (a b : Nat) :
    Edge (buildRev g).1 a b ↔ Edge g b a ∧ a < g.length := by
  obtain ⟨h1, _, h3, _⟩ := buildRev_spec g
  constructor
  · intro he
    have ha : a < g.length := by rw [← h1]; exact he.src_lt
    refine ⟨?_, ha⟩
    unfold Edge at he ⊢
    have := h3 a ha b
    rw [← List.count_pos_iff] at he ⊢
    omega
  · rintro ⟨he, ha⟩
    unfold Edge at he ⊢
    have := h3 a ha b
    rw [← List.count_pos_iff] at he ⊢
    omega

/-! ## `topoBackward` as a forward pass over the reverse graph -/

theorem BwdSim.relax {n : Nat} {b : List Block} {h : Bool} {bs : BwdState}
    {fs : FwdState} (u p : Nat) (hsim : BwdSim n bs fs) :
    BwdSim n (backwardRelax b h u bs p) (forwardRelax b h u fs p) := by
  refine ⟨?_, ?_, ?_, ?_⟩
  · simp only [backwardRelax, forwardRelax, hsim.q, hsim.deg]
  · simp only [backwardRelax, forwardRelax, hsim.deg]
  · simp only [backwardRelax, List.length_set, hsim.lenL]
  · simp only [forwardRelax, List.length_set, hsim.lenC]

theorem BwdSim.fold {n : Nat} {b : List Block} {h : Bool} (u : Nat) :
    ∀ (l : List Nat) (bs : BwdState) (fs : FwdState), BwdSim n bs fs →
      BwdSim n (l.foldl (backwardRelax b h u) bs) (l.foldl (forwardRelax b h u) fs) := by
  intro l
  induction l with
  | nil => intro bs fs hsim; exact hsim
  | cons p l ih =>
    intro bs fs hsim
    simp only [List.foldl_cons]
    exact ih _ _ (hsim.relax u p)

theorem BwdSim.loop {n : Nat} {b : List Block} {h : Bool} (rev : List (List Nat)) :
    ∀ (fuel : Nat) (bs : BwdState) (fs : FwdState), BwdSim n bs fs →
      BwdSim n (backwardLoop rev b h fuel bs) (forwardLoop rev b h fuel fs) := by
  intro fuel
  induction fuel with
  | zero => intro bs fs hsim; exact hsim
  | succ fuel ih =>
    intro bs fs hsim
    have hqq := hsim.q
    cases hq : fs.q with
    | nil =>
      rw [hq] at hqq
      simp only [backwardLoop, forwardLoop, hq, hqq]
      exact hsim
    | cons u rest =>
      rw [hq] at hqq
      simp only [backwardLoop, forwardLoop, hq, hqq]
      apply ih
      have hsim0 : BwdSim n { bs with q := rest } { fs with q := rest } :=
        ⟨rfl, hsim.deg, hsim.lenL, hsim.lenC⟩
      exact BwdSim.fold u _ _ _ hsim0

theorem sum_count_range (n : Nat) (l : List Nat) (hl : ∀ x ∈ l, x < n) :
    ((List.range n).map (fun a => l.count a)).sum = l.length := by
  induction l with
  | nil => simp
  | cons x l ih =>
    have hx : x < n := hl x (by simp)
    have hfun : (fun a => (x :: l).count a)
        = fun a => l.count a + (if a = x then (fun _ => 1) a else 0) := by
      funext a
      rw [List.count_cons]
      by_cases hax : a = x
      · subst hax; simp
      · have : ¬ x = a := fun e => hax e.symm
        simp [hax, this]
    rw [hfun, List.sum_map_add, ih (fun y hy => hl y (by simp [hy])),
      sum_range_single (fun _ => 1) x n]
    simp [hx]

theorem indegreeInit_buildRev (g : Graph) (hin : InRange g) :
    indegreeInit (buildRev g).1 = (buildRev g).2 := by
  obtain ⟨h1, h2, h3, h4⟩ := buildRev_spec g
  obtain ⟨hlen, hval⟩ := indegreeInit_spec (buildRev g).1
  apply list_ext_getD _ _ 0 (by rw [hlen, h1, h2])
  intro i hi
  have hi2 : i < g.length := by rw [hlen, h1] at hi; exact hi
  rw [hval i (by rw [h1]; exact hi2), h4 i hi2]
  congr 1
  unfold inCount
  rw [h1]
  have hfun : ∀ a ∈ List.range g.length,
      (fun u => if u ∈ ([] : List Nat) then 0 else ((buildRev g).1.getD u []).count i) a
        = (fun a => (g.getD i []).count a) a := by
    intro a ha
    simp only [List.not_mem_nil, if_false]
    exact h3 a (List.mem_range.mp ha) i
  rw [List.map_congr_left hfun]
  apply sum_count_range
  intro x hx
  exact Edge.tgt_lt hin hx

theorem backwardInit_fold (b : List Block) (h : Bool) (bound : Int) (outdeg : List Int)
    (l : List Nat) : ∀ a : List Int × List Nat,
    (l.foldl (fun (a : List Int × List Nat) i =>
      (a.1.set i (bound - shift b h i), if outdeg.getD i 0 = 0 then a.2 ++ [i] else a.2)) a).1.length
      = a.1.length ∧
    (∀ i, i < a.1.length → i ∈ l →
      (l.foldl (fun (a : List Int × List Nat) i =>
        (a.1.set i (bound - shift b h i), if outdeg.getD i 0 = 0 then a.2 ++ [i] else a.2)) a).1.getD i 0
        = bound - shift b h i) ∧
    (∀ i, i ∉ l →
      (l.foldl (fun (a : List Int × List Nat) i =>
        (a.1.set i (bound - shift b h i), if outdeg.getD i 0 = 0 then a.2 ++ [i] else a.2)) a).1.getD i 0
        = a.1.getD i 0) ∧
    (l.foldl (fun (a : List Int × List Nat) i =>
      (a.1.set i (bound - shift b h i), if outdeg.getD i 0 = 0 then a.2 ++ [i] else a.2)) a).2
      = a.2 ++ l.filter (fun i => decide (outdeg.getD i 0 = 0)) := by
  induction l with
  | nil => intro a; simp
  | cons j l ih =>
    intro a
    obtain ⟨h1, h2, h3, h4⟩ := ih
      (a.1.set j (bound - shift b h j), if outdeg.getD j 0 = 0 then a.2 ++ [j] else a.2)
    simp only [List.foldl_cons]
    simp only [List.length_set] at h1 h2
    refine ⟨h1, ?_, ?_, ?_⟩
    · intro i hi hil
      by_cases hl : i ∈ l
      · exact h2 i hi hl
      · rw [h3 i hl]
        have hij : i = j := by
          rcases List.mem_cons.mp hil with e | e
          · exact e
          · exact absurd e hl
        subst hij
        simp only [getD_set, hi, and_self, if_true]
    · intro i hil
      have hij : ¬ j = i := fun e => hil (by simp [e])
      have hl : i ∉ l := fun e => hil (by simp [e])
      rw [h3 i hl]
      simp only [getD_set, hij, false_and, if_false]
    · rw [h4]
      by_cases hj : outdeg.getD j 0 = 0
      · rw [if_pos hj, List.filter_cons_of_pos (by simpa using hj)]
        simp
      · rw [if_neg hj, List.filter_cons_of_neg (by simpa using hj)]

theorem BwdSim.start (g : Graph) (b : List Block) (h : Bool) (bound : Int) (hin : InRange g) :
    BwdSim g.length (backwardInit g b bound h) (forwardInit (buildRev g).1) := by
  obtain ⟨h1, h2, _, _⟩ := buildRev_spec g
  obtain ⟨f1, _, _, f4⟩ := backwardInit_fold b h bound (buildRev g).2 (List.range g.length)
    (List.replicate g.length bound, [])
  refine ⟨?_, ?_, ?_, ?_⟩
  · show _ = seedQueue (buildRev g).1.length (indegreeInit (buildRev g).1)
    rw [indegreeInit_buildRev g hin, h1, seedQueue_eq]
    simp only [backwardInit]
    rw [f4]
    simp
  · exact (indegreeInit_buildRev g hin).symm
  · simp only [backwardInit]
    rw [f1]; simp
  · simp [forwardInit, h1]

/-- The work loop of `topoBackward` handles its queue and its degree table exactly as the loop
of `topoForward` does on the reverse graph; in particular it exits with an empty queue and
returns a vector of full length. -/
theorem topoBackward_eq_forward (g : Graph) (b : List Block) (h : Bool) (bound : Int)
    (hin : InRange g) :
    (topoBackwardRun g b bound h).q = [] ∧
    (topoBackward g b bound h).length = g.length ∧
    (topoBackwardRun g b bound h).outdeg = (topoForwardRun (buildRev g).1 b h).indegree := by
  obtain ⟨h1, _, _, _⟩ := buildRev_spec g
  have hsim := BwdSim.loop (b := b) (h := h) (buildRev g).1 g.length _ _
    (BwdSim.start g b h bound hin)
  have hq := forwardLoop_queue_empty (buildRev g).1 b h
  unfold topoForwardRun at hq
  rw [h1] at hq
  refine ⟨?_, hsim.lenL, ?_⟩
  · unfold topoBackwardRun
    rw [hsim.q]
    exact hq
  · unfold topoBackwardRun topoForwardRun
    rw [h1]
    exact hsim.deg
/-! ## What `topoBackward` computes -/

theorem Acyclic.reverse {g : Graph} (hac : Acyclic g) : Acyclic (buildRev g).1 := by
  intro v hv
  have h1 : Relation.TransGen (Function.swap (Edge g)) v v :=
    Relation.TransGen.mono (fun a b he => ((edge_buildRev g a b).mp he).1) hv
  exact hac v (Relation.transGen_swap.mp h1)

theorem backwardRelax_latest (b : List Block) (h : Bool) (u : Nat) :
    ∀ (l : List Nat) (s : BwdState), u ∉ l →
      (l.foldl (backwardRelax b h u) s).latest.length = s.latest.length ∧
      ∀ p, p < s.latest.length →
        (l.foldl (backwardRelax b h u) s).latest.getD p 0 =
          if p ∈ l then min (s.latest.getD p 0) (wrapInt32 (s.latest.getD u 0 - shift b h p))
          else s.latest.getD p 0 := by
  intro l
  induction l with
  | nil => intro s _; simp
  | cons w l ih =>
    intro s hu
    have huw : u ≠ w := fun e => hu (by simp [e])
    have hul : u ∉ l := fun e => hu (by simp [e])
    obtain ⟨hlen, hval⟩ := ih (backwardRelax b h u s w) hul
    have hc1 : (backwardRelax b h u s w).latest =
        s.latest.set w
          (min (s.latest.getD w 0) (wrapInt32 (s.latest.getD u 0 - shift b h w))) := rfl
    rw [hc1] at hlen hval
    rw [List.foldl_cons]
    refine ⟨by rw [hlen]; simp, ?_⟩
    intro v hv
    rw [hval v (by simpa using hv)]
    rw [getD_set, getD_set]
    have hwu : ¬ (w = u ∧ w < s.latest.length) := fun e => huw e.1.symm
    rw [if_neg hwu]
    by_cases hvw : w = v
    · subst hvw
      simp only [hv, and_self, if_true, List.mem_cons, true_or]
      split
      · simp
      · rfl
    · have hvw2 : v ≠ w := fun e => hvw e.symm
      simp [hvw, hvw2]

theorem BwdVal.atStart (g : Graph) (b : List Block) (h : Bool) (bound : Int) :
    BwdVal g (shift b h) bound [] (backwardInit g b bound h) := by
  obtain ⟨_, f2, _, _⟩ := backwardInit_fold b h bound (buildRev g).2 (List.range g.length)
    (List.replicate g.length bound, [])
  have hv : ∀ p, p < g.length →
      (backwardInit g b bound h).latest.getD p 0 = bound - shift b h p := by
    intro p hp
    exact f2 p (by simpa using hp) (by simpa using hp)
  refine ⟨fun p hp => le_of_eq (hv p hp), ?_, fun p hp => Or.inl (hv p hp)⟩
  intro u hu
  simp at hu

theorem BwdVal.advance {g : Graph} {b : List Block} {h : Bool} {bound : Int} {done : List Nat}
    {bs : BwdState} {fs : FwdState} {u : Nat} {rest : List Nat}
    (hF : FwdInv (buildRev g).1 (shift b h) done fs) (hsim : BwdSim g.length bs fs)
    (hval : BwdVal g (shift b h) bound done bs) (hq : fs.q = u :: rest) :
    BwdVal g (shift b h) bound (done ++ [u])
      (((buildRev g).1.getD u []).foldl (backwardRelax b h u) { bs with q := rest }) := by
  obtain ⟨hu, hud, hno⟩ := hF.no_edge hq
  have hn : (buildRev g).1.length = g.length := (buildRev_spec g).1
  rw [hn] at hu
  have hul : u ∉ (buildRev g).1.getD u [] := hno u (by simp [hq])
  obtain ⟨_, hch⟩ := backwardRelax_latest b h u ((buildRev g).1.getD u [])
    { bs with q := rest } hul
  have hlen : ({ bs with q := rest } : BwdState).latest.length = g.length := hsim.lenL
  rw [hlen] at hch
  have hl0 : ({ bs with q := rest } : BwdState).latest = bs.latest := rfl
  rw [hl0] at hch
  have hmem : ∀ p, p ∈ (buildRev g).1.getD u [] ↔ Edge g p u := by
    intro p
    have := edge_buildRev g u p
    unfold Edge at this
    rw [this]
    exact ⟨fun e => e.1, fun e => ⟨e, hu⟩⟩
  have hstab : ∀ w, w ∈ done ++ fs.q →
      (((buildRev g).1.getD u []).foldl (backwardRelax b h u) { bs with q := rest }).latest.getD w 0
        = bs.latest.getD w 0 := by
    intro w hw
    have hwlt : w < g.length := by
      have := hF.lt w hw
      rw [hn] at this
      exact this
    rw [hch w hwlt, if_neg (hno w hw)]
  have hle : ∀ p, p < g.length →
      (((buildRev g).1.getD u []).foldl (backwardRelax b h u) { bs with q := rest }).latest.getD p 0
        ≤ bs.latest.getD p 0 := by
    intro p hp
    rw [hch p hp]
    split
    · exact min_le_left _ _
    · exact le_refl _
  have hsu := hstab u (by simp [hq])
  refine ⟨?_, ?_, ?_⟩
  · intro p hp
    exact le_trans (hle p hp) (hval.upper p hp)
  · intro u' hu' p hp he
    rcases List.mem_append.mp hu' with hd | hd
    · rw [hstab u' (List.mem_append_left _ hd)]
      exact le_trans (hle p hp) (hval.lower u' hd p hp he)
    · have e : u' = u := by simpa using hd
      subst e
      rw [hsu, hch p hp, if_pos ((hmem p).mpr he)]
      exact min_le_right _ _
  · intro p hp
    have hold : bs.latest.getD p 0 = bound - shift b h p ∨
        ∃ u' ∈ done ++ [u], Edge g p u' ∧ bs.latest.getD p 0 =
          wrapInt32 ((((buildRev g).1.getD u []).foldl (backwardRelax b h u)
            { bs with q := rest }).latest.getD u' 0 - shift b h p) := by
      rcases hval.attain p hp with h0 | ⟨u', hd, he, heq⟩
      · exact Or.inl h0
      · refine Or.inr ⟨u', List.mem_append_left _ hd, he, ?_⟩
        rw [hstab u' (List.mem_append_left _ hd)]
        exact heq
    rw [hch p hp]
    by_cases hpl : p ∈ (buildRev g).1.getD u []
    · rw [if_pos hpl]
      rcases min_choice (bs.latest.getD p 0) (wrapInt32 (bs.latest.getD u 0 - shift b h p))
        with hm | hm
      · rw [hm]; exact hold
      · rw [hm]
        refine Or.inr ⟨u, by simp, (hmem p).mp hpl, ?_⟩
        rw [hsu]
    · rw [if_neg hpl]; exact hold

theorem backwardLoop_inv (g : Graph) (b : List Block) (h : Bool) (bound : Int) :
    ∀ (fuel : Nat) (bs : BwdState) (fs : FwdState) (done : List Nat),
      FwdInv (buildRev g).1 (shift b h) done fs → BwdSim g.length bs fs →
      BwdVal g (shift b h) bound done bs → g.length ≤ done.length + fuel →
      ∃ done', FwdInv (buildRev g).1 (shift b h) done' (forwardLoop (buildRev g).1 b h fuel fs) ∧
        (forwardLoop (buildRev g).1 b h fuel fs).q = [] ∧
        BwdVal g (shift b h) bound done' (backwardLoop (buildRev g).1 b h fuel bs) := by
  have hn : (buildRev g).1.length = g.length := (buildRev_spec g).1
  intro fuel
  induction fuel with
  | zero =>
    intro bs fs done hF hsim hval hfuel
    have hle := nodup_length_le _ _ hF.nodup hF.lt
    rw [List.length_append, hn] at hle
    have hq : fs.q = [] := List.eq_nil_of_length_eq_zero (by omega)
    exact ⟨done, hF, hq, hval⟩
  | succ fuel ih =>
    intro bs fs done hF hsim hval hfuel
    have hqq := hsim.q
    cases hq : fs.q with
    | nil =>
      rw [hq] at hqq
      refine ⟨done, ?_, ?_, ?_⟩
      · simp only [forwardLoop, hq]; exact hF
      · simp only [forwardLoop, hq]
      · simp only [backwardLoop, hqq]; exact hval
    | cons u rest =>
      rw [hq] at hqq
      have hF1 := hF.step hq
      have hsim0 : BwdSim g.length { bs with q := rest } { fs with q := rest } :=
        ⟨rfl, hsim.deg, hsim.lenL, hsim.lenC⟩
      have hsim1 := BwdSim.fold (b := b) (h := h) u ((buildRev g).1.getD u []) _ _ hsim0
      have hval1 := BwdVal.advance hF hsim hval hq
      obtain ⟨done', hF', hq', hval'⟩ := ih _ _ (done ++ [u]) hF1 hsim1 hval1 (by simp; omega)
      refine ⟨done', ?_, ?_, ?_⟩
      · simp only [forwardLoop, hq]; exact hF'
      · simp only [forwardLoop, hq]; exact hq'
      · simp only [backwardLoop, hqq]; exact hval'

/-- At the exit of `topoBackward` the value invariant holds for a list `done` that contains
every vertex dequeued by the work loop of `topoForward` on the reverse graph. -/
theorem topoBackward_inv (g : Graph) (b : List Block) (h : Bool) (bound : Int)
    (hin : InRange g) :
    ∃ done, FwdInv (buildRev g).1 (shift b h) done (topoForwardRun (buildRev g).1 b h) ∧
      (topoForwardRun (buildRev g).1 b h).q = [] ∧
      BwdVal g (shift b h) bound done (topoBackwardRun g b bound h) := by
  have hn : (buildRev g).1.length = g.length := (buildRev_spec g).1
  have := backwardLoop_inv g b h bound g.length (backwardInit g b bound h)
    (forwardInit (buildRev g).1) [] (FwdInv.initial _ _) (BwdSim.start g b h bound hin)
    (BwdVal.atStart g b h bound) (by simp)
  unfold topoForwardRun topoBackwardRun
  rw [hn]
  exact this

/-- Recurrence satisfied by the result of `topoBackward` on an acyclic graph, each candidate
being the `int` difference as the machine forms it. -/
theorem topoBackward_wrap_spec (g : Graph) (b : List Block) (h : Bool) (bound : Int)
    (hac : Acyclic g) (hin : InRange g) :
    (topoBackward g b bound h).length = g.length ∧
    ∀ u, u < g.length →
      (topoBackward g b bound h).getD u 0 ≤ bound - shift b h u ∧
      (∀ v, Edge g u v →
        (topoBackward g b bound h).getD u 0
          ≤ wrapInt32 ((topoBackward g b bound h).getD v 0 - shift b h u)) ∧
      ((topoBackward g b bound h).getD u 0 = bound - shift b h u ∨
        ∃ v, Edge g u v ∧
          (topoBackward g b bound h).getD u 0
            = wrapInt32 ((topoBackward g b bound h).getD v 0 - shift b h u)) := by
  obtain ⟨done, hF, hq, hval⟩ := topoBackward_inv g b h bound hin
  have hn : (buildRev g).1.length = g.length := (buildRev_spec g).1
  have hall := hF.all_done hq hac.reverse
  rw [hn] at hall
  refine ⟨(topoBackward_eq_forward g b h bound hin).2.1, fun u hu => ⟨hval.upper u hu, ?_, ?_⟩⟩
  · intro v he
    exact hval.lower v (hall v (he.tgt_lt hin)) u hu he
  · rcases hval.attain u hu with h0 | ⟨v, _, he, heq⟩
    · exact Or.inl h0
    · exact Or.inr ⟨v, he, heq⟩

/-- A vertex without outgoing edge keeps its initial value `bound - extent`, on every graph
with in-range targets. -/
theorem topoBackward_sink (g : Graph) (b : List Block) (h : Bool) (bound : Int)
    (hin : InRange g) (u : Nat) (hu : u < g.length) (hsink : ∀ v, ¬ Edge g u v) :
    (topoBackward g b bound h).getD u 0 = bound - shift b h u := by
  obtain ⟨done, _, _, hval⟩ := topoBackward_inv g b h bound hin
  rcases hval.attain u hu with h0 | ⟨v, _, he, _⟩
  · exact h0
  · exact absurd he (hsink v)

/-- Without overflow every `latest[u]` is the bound minus the extent of a walk starting at
`u` (`u` included). -/
theorem topoBackward_walk (g : Graph) (b : List Block) (h : Bool) (bound : Int)
    (hac : Acyclic g) (hin : InRange g) (hnn : ∀ u, u < g.length → 0 ≤ shift b h u)
    (hb : bound < 2 ^ 31)
    (hfit : ∀ p, IsPath g p → pathExtent (shift b h) p ≤ bound + 2 ^ 31) :
    ∀ u, u < g.length →
      ∃ p, IsPath g (u :: p) ∧
        (topoBackward g b bound h).getD u 0 = bound - pathExtent (shift b h) (u :: p) := by
  obtain ⟨_, hspec⟩ := topoBackward_wrap_spec g b h bound hac hin
  intro u
  induction u using (hac.wf_rev hin).induction with
  | _ u ih =>
    intro hu
    rcases (hspec u hu).2.2 with h0 | ⟨v, he, heq⟩
    · exact ⟨[], by simp [IsPath], by rw [h0]; simp [pathExtent]⟩
    · have hv := he.tgt_lt hin
      obtain ⟨p, hp, hsum⟩ := ih v he hv
      have hp2 : IsPath g (u :: v :: p) := (isPath_cons g p u v).mpr ⟨he, hp⟩
      refine ⟨v :: p, hp2, ?_⟩
      have h1 := hfit _ hp2
      have h2 := (hspec v hv).1
      have h3 := hnn v hv
      have h4 := hnn u hu
      rw [pathExtent_cons] at h1 ⊢
      rw [heq, wrapInt32_of_range _ (by omega) (by omega)]
      omega

/-- Without overflow the difference `latest[v] - extent(u)` is formed exactly. -/
theorem topoBackward_diff_exact (g : Graph) (b : List Block) (h : Bool) (bound : Int)
    (hac : Acyclic g) (hin : InRange g) (hnn : ∀ u, u < g.length → 0 ≤ shift b h u)
    (hb : bound < 2 ^ 31)
    (hfit : ∀ p, IsPath g p → pathExtent (shift b h) p ≤ bound + 2 ^ 31) :
    ∀ u v, Edge g u v →
      wrapInt32 ((topoBackward g b bound h).getD v 0 - shift b h u)
        = (topoBackward g b bound h).getD v 0 - shift b h u := by
  obtain ⟨_, hspec⟩ := topoBackward_wrap_spec g b h bound hac hin
  intro u v he
  have hu := he.src_lt
  have hv := he.tgt_lt hin
  obtain ⟨p, hp, hsum⟩ := topoBackward_walk g b h bound hac hin hnn hb hfit v hv
  have hp2 : IsPath g (u :: v :: p) := (isPath_cons g p u v).mpr ⟨he, hp⟩
  have h1 := hfit _ hp2
  have h2 := (hspec v hv).1
  have h3 := hnn v hv
  have h4 := hnn u hu
  rw [pathExtent_cons] at h1
  exact wrapInt32_of_range _ (by omega) (by omega)

/-- Recurrence satisfied by the result of `topoBackward` on an acyclic graph when no
difference leaves the `int` range. -/
theorem topoBackward_spec (g : Graph) (b : List Block) (h : Bool) (bound : Int)
    (hac : Acyclic g) (hin : InRange g) (hnn : ∀ u, u < g.length → 0 ≤ shift b h u)
    (hb : bound < 2 ^ 31)
    (hfit : ∀ p, IsPath g p → pathExtent (shift b h) p ≤ bound + 2 ^ 31) :
    (topoBackward g b bound h).length = g.length ∧
    ∀ u, u < g.length →
      (topoBackward g b bound h).getD u 0 ≤ bound - shift b h u ∧
      (∀ v, Edge g u v →
        (topoBackward g b bound h).getD u 0 ≤ (topoBackward g b bound h).getD v 0 - shift b h u) ∧
      ((topoBackward g b bound h).getD u 0 = bound - shift b h u ∨
        ∃ v, Edge g u v ∧
          (topoBackward g b bound h).getD u 0
            = (topoBackward g b bound h).getD v 0 - shift b h u) := by
  obtain ⟨hlen, hspec⟩ := topoBackward_wrap_spec g b h bound hac hin
  have hex := topoBackward_diff_exact g b h bound hac hin hnn hb hfit
  refine ⟨hlen, fun u hu => ⟨(hspec u hu).1, ?_, ?_⟩⟩
  · intro v he
    have := (hspec u hu).2.1 v he
    rw [hex u v he] at this
    exact this
  · rcases (hspec u hu).2.2 with h0 | ⟨v, he, heq⟩
    · exact Or.inl h0
    · rw [hex u v he] at heq
      exact Or.inr ⟨v, he, heq⟩

theorem topoBackward_path_le (g : Graph) (b : List Block) (h : Bool) (bound : Int)
    (hac : Acyclic g) (hin : InRange g) (hnn : ∀ u, u < g.length → 0 ≤ shift b h u)
    (hb : bound < 2 ^ 31)
    (hfit : ∀ p, IsPath g p → pathExtent (shift b h) p ≤ bound + 2 ^ 31) :
    ∀ (p : List Nat) (u : Nat), u < g.length → IsPath g (u :: p) →
      (topoBackward g b bound h).getD u 0 ≤ bound - pathExtent (shift b h) (u :: p) := by
  obtain ⟨_, hspec⟩ := topoBackward_spec g b h bound hac hin hnn hb hfit
  intro p
  induction p with
  | nil =>
    intro u hu _
    have := (hspec u hu).1
    simpa [pathExtent] using this
  | cons v p ih =>
    intro u hu hp
    obtain ⟨he, hp1⟩ := (isPath_cons g p u v).mp hp
    have h1 := ih v (he.tgt_lt hin) hp1
    have h2 := (hspec u hu).2.1 v he
    simp only [pathExtent, List.map_cons, List.sum_cons] at h1 ⊢
    omega

/-- C7 (as amended). Backward pass: on an acyclic graph with in-range targets and positive
extents, for either axis and every bound `B` below `2^31` such that no walk has an extent
above `B + 2^31` (no `int` difference formed by the pass overflows), the work loop exits with
an empty queue and `latest[u]` is `B - extent(u)` when `u` has no outgoing edge, otherwise the
minimum over the outgoing edges `(u, v)` of `latest[v] - extent(u)`; it is `B` minus the
largest extent of a walk starting at `u` (`u` included): every such walk gives an upper bound
and some walk attains it. -/
theorem C7_topoBackward_latest (g : Graph) (blocks : List Block) (horizontal : Bool)
    (bound : Int) (hac : Acyclic g) (hin : InRange g)
    (hpos : ∀ u, u < g.length → 0 < shift blocks horizontal u)
    (hb : bound < 2 ^ 31)
    (hfit : ∀ p, IsPath g p → pathExtent (shift blocks horizontal) p ≤ bound + 2 ^ 31) :
    (topoBackwardRun g blocks bound horizontal).q = [] ∧
    (topoBackward g blocks bound horizontal).length = g.length ∧
    ∀ u, u < g.length →
      ((∀ v, ¬ Edge g u v) →
        (topoBackward g blocks bound horizontal).getD u 0 = bound - shift blocks horizontal u) ∧
      ((∃ v, Edge g u v) →
        (∀ v, Edge g u v → (topoBackward g blocks bound horizontal).getD u 0
            ≤ (topoBackward g blocks bound horizontal).getD v 0 - shift blocks horizontal u) ∧
        (∃ v, Edge g u v ∧ (topoBackward g blocks bound horizontal).getD u 0
            = (topoBackward g blocks bound horizontal).getD v 0 - shift blocks horizontal u)) ∧
      (∀ p, IsPath g (u :: p) → (topoBackward g blocks bound horizontal).getD u 0
          ≤ bound - pathExtent (shift blocks horizontal) (u :: p)) ∧
      (∃ p, IsPath g (u :: p) ∧ (topoBackward g blocks bound horizontal).getD u 0
          = bound - pathExtent (shift blocks horizontal) (u :: p)) := by
  have hnn : ∀ u, u < g.length → 0 ≤ shift blocks horizontal u :=
    fun u hu => le_of_lt (hpos u hu)
  obtain ⟨hlen, hspec⟩ := topoBackward_spec g blocks horizontal bound hac hin hnn hb hfit
  refine ⟨(topoBackward_eq_forward g blocks horizontal bound hin).1, hlen,
    fun u hu => ⟨?_, ?_, ?_, ?_⟩⟩
  · exact topoBackward_sink g blocks horizontal bound hin u hu
  · rintro ⟨v0, he0⟩
    refine ⟨(hspec u hu).2.1, ?_⟩
    rcases (hspec u hu).2.2 with h0 | hex
    · exfalso
      have hv0 := he0.tgt_lt hin
      have h1 := (hspec u hu).2.1 v0 he0
      have h2 := (hspec v0 hv0).1
      have h3 := hpos v0 hv0
      omega
    · exact hex
  · exact fun p hp => topoBackward_path_le g blocks horizontal bound hac hin hnn hb hfit p u hu hp
  · exact topoBackward_walk g blocks horizontal bound hac hin hnn hb hfit u hu

theorem C7_witness :
    (topoBackwardRun [[1, 2], [2], []] [⟨"A", 2, 3⟩, ⟨"B", 1, 1⟩, ⟨"C", 4, 2⟩] 7 true).q = [] ∧
    (topoBackward [[1, 2], [2], []] [⟨"A", 2, 3⟩, ⟨"B", 1, 1⟩, ⟨"C", 4, 2⟩] 7 true).getD 0 0 = 0 :=
  ⟨(C7_topoBackward_latest [[1, 2], [2], []] [⟨"A", 2, 3⟩, ⟨"B", 1, 1⟩, ⟨"C", 4, 2⟩] true 7
      (TopoSorted.acyclic (by decide)) (by decide) (by decide) (by decide)
      (fun p hp => le_of_lt (lt_of_lt_of_le
        (walksFit_of_bounds _ _ _ [2, 3, 7] (by decide) (by decide) (by decide) (by decide) p hp)
        (by decide)))).1, by decide⟩

/-- C7 fails on the code as stated: on the chain `A → B → C → D` of four blocks of width
`2^30` with bound `2^30`, the difference `latest[B] - width(A) = -2^31 - 2^30` leaves the
`int` range and wraps to `2^30`, so `latest[A]` keeps its initial value 0 although `A` has the
outgoing edge `A → B`; it is neither `latest[B] - extent(A)` nor at most the bound minus the
extent of the walk `A, B, C, D`. -/
theorem C7_counterexample :
    Acyclic [[1], [2], [3], []] ∧ InRange [[1], [2], [3], []] ∧
    (∀ u, u < 4 → 0 < shift [⟨"A", 1073741824, 1⟩, ⟨"B", 1073741824, 1⟩,
      ⟨"C", 1073741824, 1⟩, ⟨"D", 1073741824, 1⟩] true u) ∧
    topoBackward [[1], [2], [3], []] [⟨"A", 1073741824, 1⟩, ⟨"B", 1073741824, 1⟩,
      ⟨"C", 1073741824, 1⟩, ⟨"D", 1073741824, 1⟩] 1073741824 true
      = [0, -2147483648, -1073741824, 0] ∧
    Edge [[1], [2], [3], []] 0 1 ∧ (∀ v, Edge [[1], [2], [3], []] 0 v → v = 1) ∧
    ¬ ((topoBackward [[1], [2], [3], []] [⟨"A", 1073741824, 1⟩, ⟨"B", 1073741824, 1⟩,
        ⟨"C", 1073741824, 1⟩, ⟨"D", 1073741824, 1⟩] 1073741824 true).getD 0 0
      = (topoBackward [[1], [2], [3], []] [⟨"A", 1073741824, 1⟩, ⟨"B", 1073741824, 1⟩,
        ⟨"C", 1073741824, 1⟩, ⟨"D", 1073741824, 1⟩] 1073741824 true).getD 1 0
        - shift [⟨"A", 1073741824, 1⟩, ⟨"B", 1073741824, 1⟩,
          ⟨"C", 1073741824, 1⟩, ⟨"D", 1073741824, 1⟩] true 0) ∧
    IsPath [[1], [2], [3], []] [0, 1, 2, 3] ∧
    ¬ ((topoBackward [[1], [2], [3], []] [⟨"A", 1073741824, 1⟩, ⟨"B", 1073741824, 1⟩,
        ⟨"C", 1073741824, 1⟩, ⟨"D", 1073741824, 1⟩] 1073741824 true).getD 0 0
      ≤ 1073741824 - pathExtent (shift [⟨"A", 1073741824, 1⟩, ⟨"B", 1073741824, 1⟩,
          ⟨"C", 1073741824, 1⟩, ⟨"D", 1073741824, 1⟩] true) [0, 1, 2, 3]) := by
  refine ⟨TopoSorted.acyclic (by decide), by decide, by decide, by decide, by decide, ?_,
    by decide, ?_, by decide⟩
  · intro v hv
    simpa [Edge] using hv
  · simp only [IsPath, and_true]
    decide

theorem foldl_pair {α β ι : Type} (f1 : α → ι → α) (f2 : β → ι → β) (l : List ι) :
    ∀ a : α × β, l.foldl (fun p i => (f1 p.1 i, f2 p.2 i)) a = (l.foldl f1 a.1, l.foldl f2 a.2) := by
  induction l with
  | nil => intro a; rfl
  | cons i l ih => intro a; simp only [List.foldl_cons]; rw [ih]

theorem foldl_max_spec (f : Nat → Int) (l : List Nat) : ∀ m : Int,
    m ≤ l.foldl (fun m i => max m (f i)) m ∧
    (∀ i ∈ l, f i ≤ l.foldl (fun m i => max m (f i)) m) ∧
    (l.foldl (fun m i => max m (f i)) m = m ∨ ∃ i ∈ l, l.foldl (fun m i => max m (f i)) m = f i) := by
  induction l with
  | nil => intro m; simp
  | cons j l ih =>
    intro m
    obtain ⟨h1, h2, h3⟩ := ih (max m (f j))
    simp only [List.foldl_cons]
    refine ⟨le_trans (le_max_left _ _) h1, ?_, ?_⟩
    · intro i hi
      rcases List.mem_cons.mp hi with e | e
      · subst e; exact le_trans (le_max_right _ _) h1
      · exact h2 i e
    · rcases h3 with e | ⟨i, hi, e⟩
      · rcases le_total m (f j) with hle | hle
        · right
          exact ⟨j, by simp, by rw [e, max_eq_right hle]⟩
        · left
          rw [e, max_eq_left hle]
      · right
        exact ⟨i, by simp [hi], e⟩

theorem maxSpans_eq (blocks : List Block) (x y : List Int) :
    maxSpans blocks x y =
      ((List.range blocks.length).foldl
        (fun m i => max m (wrapInt32 (x.getD i 0 + shift blocks true i))) 0,
       (List.range blocks.length).foldl
        (fun m i => max m (wrapInt32 (y.getD i 0 + shift blocks false i))) 0) := by
  unfold maxSpans
  rw [foldl_pair (fun m i => max m (wrapInt32 (x.getD i 0 + (blocks.getD i default).width)))
    (fun m i => max m (wrapInt32 (y.getD i 0 + (blocks.getD i default).height)))]
  simp [shift]

/-- What the span loop computes on one axis: an upper bound of 0 and of every `int` sum
`coord[i] + extent(i)`, which is 0 or attained. -/
theorem maxSpans_spec (blocks : List Block) (x y : List Int) :
    (0 ≤ (maxSpans blocks x y).1 ∧
     (∀ i, i < blocks.length →
       wrapInt32 (x.getD i 0 + shift blocks true i) ≤ (maxSpans blocks x y).1) ∧
     ((maxSpans blocks x y).1 = 0 ∨
       ∃ i, i < blocks.length ∧
         (maxSpans blocks x y).1 = wrapInt32 (x.getD i 0 + shift blocks true i))) ∧
    (0 ≤ (maxSpans blocks x y).2 ∧
     (∀ i, i < blocks.length →
       wrapInt32 (y.getD i 0 + shift blocks false i) ≤ (maxSpans blocks x y).2) ∧
     ((maxSpans blocks x y).2 = 0 ∨
       ∃ i, i < blocks.length ∧
         (maxSpans blocks x y).2 = wrapInt32 (y.getD i 0 + shift blocks false i))) := by
  rw [maxSpans_eq]
  obtain ⟨a1, a2, a3⟩ := foldl_max_spec (fun i => wrapInt32 (x.getD i 0 + shift blocks true i))
    (List.range blocks.length) 0
  obtain ⟨b1, b2, b3⟩ := foldl_max_spec (fun i => wrapInt32 (y.getD i 0 + shift blocks false i))
    (List.range blocks.length) 0
  refine ⟨⟨a1, fun i hi => a2 i (List.mem_range.mpr hi), ?_⟩,
    ⟨b1, fun i hi => b2 i (List.mem_range.mpr hi), ?_⟩⟩
  · rcases a3 with e | ⟨i, hi, e⟩
    · exact Or.inl e
    · exact Or.inr ⟨i, List.mem_range.mp hi, e⟩
  · rcases b3 with e | ⟨i, hi, e⟩
    · exact Or.inl e
    · exact Or.inr ⟨i, List.mem_range.mp hi, e⟩

/-- Both spans are non-negative `int` values, whatever the input. -/
theorem maxSpans_range (blocks : List Block) (x y : List Int) :
    (0 ≤ (maxSpans blocks x y).1 ∧ (maxSpans blocks x y).1 < 2 ^ 31) ∧
    (0 ≤ (maxSpans blocks x y).2 ∧ (maxSpans blocks x y).2 < 2 ^ 31) := by
  obtain ⟨⟨a1, _, a3⟩, ⟨b1, _, b3⟩⟩ := maxSpans_spec blocks x y
  refine ⟨⟨a1, ?_⟩, ⟨b1, ?_⟩⟩
  · rcases a3 with e | ⟨i, _, e⟩
    · rw [e]; norm_num
    · rw [e]; exact (wrapInt32_range _).2
  · rcases b3 with e | ⟨i, _, e⟩
    · rw [e]; norm_num
    · rw [e]; exact (wrapInt32_range _).2

/-- Horizontal span of the forward pass on a graph whose walks fit the `int` range: the
sums are exact, so the span bounds every `coord[i] + width(i)` and is 0 or attained. -/
theorem spanX_exact (blocks : List Block) (g : Graph) (y : List Int) (hac : Acyclic g)
    (hlen : g.length = blocks.length)
    (hnn : ∀ u, u < g.length → 0 ≤ shift blocks true u) (hfit : WalksFit g (shift blocks true)) :
    (∀ i, i < blocks.length → (topoForward g blocks true).getD i 0 + shift blocks true i
      ≤ (maxSpans blocks (topoForward g blocks true) y).1) ∧
    ((maxSpans blocks (topoForward g blocks true) y).1 = 0 ∨
      ∃ i, i < blocks.length ∧ (maxSpans blocks (topoForward g blocks true) y).1
        = (topoForward g blocks true).getD i 0 + shift blocks true i) := by
  obtain ⟨⟨_, a2, a3⟩, _⟩ := maxSpans_spec blocks (topoForward g blocks true) y
  have hex := topoForward_sum_exact g blocks true hac hnn hfit
  rw [hlen] at hex
  constructor
  · intro i hi
    have := a2 i hi
    rw [(hex i hi).2.2] at this
    exact this
  · rcases a3 with e | ⟨i, hi, e⟩
    · exact Or.inl e
    · rw [(hex i hi).2.2] at e
      exact Or.inr ⟨i, hi, e⟩

/-- Vertical span of the forward pass on a graph whose walks fit the `int` range. -/
theorem spanY_exact (blocks : List Block) (g : Graph) (x : List Int) (hac : Acyclic g)
    (hlen : g.length = blocks.length)
    (hnn : ∀ u, u < g.length → 0 ≤ shift blocks false u)
    (hfit : WalksFit g (shift blocks false)) :
    (∀ i, i < blocks.length → (topoForward g blocks false).getD i 0 + shift blocks false i
      ≤ (maxSpans blocks x (topoForward g blocks false)).2) ∧
    ((maxSpans blocks x (topoForward g blocks false)).2 = 0 ∨
      ∃ i, i < blocks.length ∧ (maxSpans blocks x (topoForward g blocks false)).2
        = (topoForward g blocks false).getD i 0 + shift blocks false i) := by
  obtain ⟨_, ⟨_, a2, a3⟩⟩ := maxSpans_spec blocks x (topoForward g blocks false)
  have hex := topoForward_sum_exact g blocks false hac hnn hfit
  rw [hlen] at hex
  constructor
  · intro i hi
    have := a2 i hi
    rw [(hex i hi).2.2] at this
    exact this
  · rcases a3 with e | ⟨i, hi, e⟩
    · exact Or.inl e
    · rw [(hex i hi).2.2] at e
      exact Or.inr ⟨i, hi, e⟩

/-- A bound in `[0, 2^31)` keeps every difference of the backward pass in the `int` range
when the walks of the graph fit it. -/
theorem walks_le_of_fit (g : Graph) (sh : Nat → Int) (bound : Int) (hfit : WalksFit g sh)
    (hb0 : 0 ≤ bound) : ∀ p, IsPath g p → pathExtent sh p ≤ bound + 2 ^ 31 := by
  intro p hp
  have := hfit p hp
  omega

/-- Earliest never exceeds latest when the bound dominates every `earliest + extent` and no
`int` operation of the two passes overflows. -/
theorem earliest_le_latest (g : Graph) (b : List Block) (h : Bool) (bound : Int)
    (hac : Acyclic g) (hin : InRange g) (hnn : ∀ u, u < g.length → 0 ≤ shift b h u)
    (hfit : WalksFit g (shift b h)) (hb0 : 0 ≤ bound) (hb : bound < 2 ^ 31)
    (hB : ∀ v, v < g.length → (topoForward g b h).getD v 0 + shift b h v ≤ bound) :
    ∀ v, v < g.length → (topoForward g b h).getD v 0 ≤ (topoBackward g b bound h).getD v 0 := by
  obtain ⟨_, hf⟩ := topoForward_spec g b h hac hnn hfit
  obtain ⟨_, hbw⟩ := topoBackward_spec g b h bound hac hin hnn hb
    (walks_le_of_fit g _ bound hfit hb0)
  intro v
  induction v using (hac.wf_rev hin).induction with
  | _ v ih =>
    intro hv
    rcases (hbw v hv).2.2 with h0 | ⟨w, he, heq⟩
    · have := hB v hv
      omega
    · have hw := he.tgt_lt hin
      have h1 := ih w he hw
      have h2 := (hf w hw).2.1 v he
      omega

/-- C2 (as amended). For acyclic HCG and VCG with in-range targets over the registered
blocks, with positive widths and heights, such that no walk of the HCG has a total width of
`2^31` or more and no walk of the VCG a total height of `2^31` or more (no `int` sum
overflows), after `computeEarliestPositions` and `computeLatestPositions` every block has
`startX ≤ endX` and `startY ≤ endY`. -/
theorem C2_earliest_le_latest (blocks : List Block) (hGraph vGraph : Graph)
    (hacH : Acyclic hGraph) (hacV : Acyclic vGraph) (hinH : InRange hGraph)
    (hinV : InRange vGraph) (hlenH : hGraph.length = blocks.length)
    (hlenV : vGraph.length = blocks.length)
    (hposW : ∀ u, u < blocks.length → 0 < shift blocks true u)
    (hposH : ∀ u, u < blocks.length → 0 < shift blocks false u)
    (hfitH : WalksFit hGraph (shift blocks true))
    (hfitV : WalksFit vGraph (shift blocks false)) :
    ∀ v, v < blocks.length →
      (latestStage blocks hGraph vGraph).startX.getD v 0
        ≤ (latestStage blocks hGraph vGraph).endX.getD v 0 ∧
      (latestStage blocks hGraph vGraph).startY.getD v 0
        ≤ (latestStage blocks hGraph vGraph).endY.getD v 0 := by
  intro v hv
  have hnnH : ∀ u, u < hGraph.length → 0 ≤ shift blocks true u :=
    fun u hu => le_of_lt (hposW u (by rw [← hlenH]; exact hu))
  have hnnV : ∀ u, u < vGraph.length → 0 ≤ shift blocks false u :=
    fun u hu => le_of_lt (hposH u (by rw [← hlenV]; exact hu))
  obtain ⟨⟨hx0, hx1⟩, ⟨hy0, hy1⟩⟩ := maxSpans_range blocks (topoForward hGraph blocks true)
    (topoForward vGraph blocks false)
  obtain ⟨hx, _⟩ := spanX_exact blocks hGraph (topoForward vGraph blocks false) hacH hlenH
    hnnH hfitH
  obtain ⟨hy, _⟩ := spanY_exact blocks vGraph (topoForward hGraph blocks true) hacV hlenV
    hnnV hfitV
  constructor
  · exact earliest_le_latest hGraph blocks true _ hacH hinH hnnH hfitH hx0 hx1
      (fun i hi => hx i (by rw [← hlenH]; exact hi)) v (by rw [hlenH]; exact hv)
  · exact earliest_le_latest vGraph blocks false _ hacV hinV hnnV hfitV hy0 hy1
      (fun i hi => hy i (by rw [← hlenV]; exact hi)) v (by rw [hlenV]; exact hv)

theorem C2_witness :
    (latestStage [⟨"A", 2, 3⟩, ⟨"B", 1, 1⟩, ⟨"C", 4, 2⟩] [[1, 2], [2], []] [[2], [], []]).startX.getD 1 0
      ≤ (latestStage [⟨"A", 2, 3⟩, ⟨"B", 1, 1⟩, ⟨"C", 4, 2⟩] [[1, 2], [2], []] [[2], [], []]).endX.getD 1 0 ∧
    (latestStage [⟨"A", 2, 3⟩, ⟨"B", 1, 1⟩, ⟨"C", 4, 2⟩] [[1, 2], [2], []] [[2], [], []]).startY.getD 1 0
      ≤ (latestStage [⟨"A", 2, 3⟩, ⟨"B", 1, 1⟩, ⟨"C", 4, 2⟩] [[1, 2], [2], []] [[2], [], []]).endY.getD 1 0 :=
  C2_earliest_le_latest [⟨"A", 2, 3⟩, ⟨"B", 1, 1⟩, ⟨"C", 4, 2⟩] [[1, 2], [2], []] [[2], [], []]
    (TopoSorted.acyclic (by decide)) (TopoSorted.acyclic (by decide))
    (by decide) (by decide) (by decide) (by decide) (by decide) (by decide)
    (walksFit_of_bounds _ _ _ [2, 3, 7] (by decide) (by decide) (by decide) (by decide))
    (walksFit_of_bounds _ _ _ [3, 1, 5] (by decide) (by decide) (by decide) (by decide))
    1 (by decide)

/-- C2 fails on the code as stated: for two blocks of width `2^30` with the HCG edge `A → B`
and an empty VCG, the sum `startX[B] + width(B) = 2^31` leaves the `int` range and wraps to
`-2^31`, so the bound is `2^30` instead of `2^31`, `endX = [-2^30, 0]`, and
`startX[B] = 2^30 > endX[B] = 0`. -/
theorem C2_counterexample :
    Acyclic [[1], []] ∧ Acyclic [[], []] ∧
    (∀ u, u < 2 → 0 < shift [⟨"A", 1073741824, 1⟩, ⟨"B", 1073741824, 1⟩] true u ∧
      0 < shift [⟨"A", 1073741824, 1⟩, ⟨"B", 1073741824, 1⟩] false u) ∧
    (latestStage [⟨"A", 1073741824, 1⟩, ⟨"B", 1073741824, 1⟩] [[1], []] [[], []]).startX
      = [0, 1073741824] ∧
    (latestStage [⟨"A", 1073741824, 1⟩, ⟨"B", 1073741824, 1⟩] [[1], []] [[], []]).endX
      = [-1073741824, 0] ∧
    ¬ ((latestStage [⟨"A", 1073741824, 1⟩, ⟨"B", 1073741824, 1⟩] [[1], []] [[], []]).startX.getD 1 0
      ≤ (latestStage [⟨"A", 1073741824, 1⟩, ⟨"B", 1073741824, 1⟩] [[1], []] [[], []]).endX.getD 1 0) :=
  ⟨TopoSorted.acyclic (by decide), TopoSorted.acyclic (by decide), by decide, by decide,
    by decide, by decide⟩

theorem forall_edge_of_bounded (g : Graph) (P : Nat → Nat → Prop)
    (hb : ∀ u, u < g.length → ∀ v ∈ g.getD u [], P u v) : ∀ u v, Edge g u v → P u v :=
  fun u v he => hb u he.src_lt v he

theorem pushCritical_eq (g : Graph) (start stop : List Int) (u : Nat) (crit : List (Nat × Nat)) :
    pushCritical g start stop u crit
      = crit ++ ((g.getD u []).map (fun v => (u, v))).filter
          (fun e => decide (BothZeroSlack start stop e)) := by
  unfold pushCritical
  generalize g.getD u [] = l
  induction l generalizing crit with
  | nil => simp
  | cons v l ih =>
    simp only [List.foldl_cons, List.map_cons]
    rw [ih]
    by_cases hc : start.getD u 0 = stop.getD u 0 ∧ start.getD v 0 = stop.getD v 0
    · rw [if_pos hc, List.filter_cons_of_pos (by simpa [BothZeroSlack] using hc)]
      simp
    · rw [if_neg hc, List.filter_cons_of_neg (by simpa [BothZeroSlack] using hc)]

theorem pushCritical_fold (g : Graph) (start stop : List Int) (us : List Nat) :
    ∀ crit : List (Nat × Nat),
      us.foldl (fun c u => pushCritical g start stop u c) crit
        = crit ++ (us.flatMap (fun u => (g.getD u []).map (fun v => (u, v)))).filter
            (fun e => decide (BothZeroSlack start stop e)) := by
  induction us with
  | nil => intro crit; simp
  | cons u us ih =>
    intro crit
    simp only [List.foldl_cons, List.flatMap_cons, List.filter_append]
    rw [ih, pushCritical_eq, List.append_assoc]

theorem findCriticalEdges_eq (fp : Floorplanner) :
    (findCriticalEdges fp).hCritEdges
      = fp.hCritEdges ++ ((List.range fp.blocks.length).flatMap
          (fun u => (fp.hGraph.getD u []).map (fun v => (u, v)))).filter
            (fun e => decide (BothZeroSlack fp.startX fp.endX e)) ∧
    (findCriticalEdges fp).vCritEdges
      = fp.vCritEdges ++ ((List.range fp.blocks.length).flatMap
          (fun u => (fp.vGraph.getD u []).map (fun v => (u, v)))).filter
            (fun e => decide (BothZeroSlack fp.startY fp.endY e)) := by
  unfold findCriticalEdges
  simp only
  rw [foldl_pair (fun c u => pushCritical fp.hGraph fp.startX fp.endX u c)
    (fun c u => pushCritical fp.vGraph fp.startY fp.endY u c)]
  simp only
  rw [pushCritical_fold, pushCritical_fold]
  exact ⟨rfl, rfl⟩

theorem mem_allEdges (g : Graph) (u v : Nat) : (u, v) ∈ allEdges g ↔ Edge g u v := by
  unfold allEdges
  rw [List.mem_flatMap]
  constructor
  · rintro ⟨a, _, hm⟩
    rw [List.mem_map] at hm
    obtain ⟨w, hw, heq⟩ := hm
    simp only [Prod.mk.injEq] at heq
    obtain ⟨rfl, rfl⟩ := heq
    exact hw
  · intro he
    exact ⟨u, List.mem_range.mpr he.src_lt, List.mem_map.mpr ⟨v, he, rfl⟩⟩

/-- Membership in the horizontal list after `findCriticalEdges`; only the HCG matters. -/
theorem mem_hCritEdges (blocks : List Block) (hGraph vGraph : Graph)
    (hlenH : hGraph.length = blocks.length) (u v : Nat) :
    (u, v) ∈ (criticalStage blocks hGraph vGraph).hCritEdges ↔
      Edge hGraph u v ∧
        (latestStage blocks hGraph vGraph).startX.getD u 0
          = (latestStage blocks hGraph vGraph).endX.getD u 0 ∧
        (latestStage blocks hGraph vGraph).startX.getD v 0
          = (latestStage blocks hGraph vGraph).endX.getD v 0 := by
  obtain ⟨hH, _⟩ := findCriticalEdges_eq (latestStage blocks hGraph vGraph)
  have e1 : (latestStage blocks hGraph vGraph).blocks = blocks := rfl
  have e2 : (latestStage blocks hGraph vGraph).hGraph = hGraph := rfl
  have e4 : (latestStage blocks hGraph vGraph).hCritEdges = [] := rfl
  rw [e1, e2, e4, List.nil_append, ← hlenH] at hH
  have hH2 : (criticalStage blocks hGraph vGraph).hCritEdges
      = (allEdges hGraph).filter (fun e => decide (BothZeroSlack
          (latestStage blocks hGraph vGraph).startX (latestStage blocks hGraph vGraph).endX e)) := hH
  rw [hH2, List.mem_filter, mem_allEdges]
  simp [BothZeroSlack]

/-- Membership in the vertical list after `findCriticalEdges`; only the VCG matters. -/
theorem mem_vCritEdges (blocks : List Block) (hGraph vGraph : Graph)
    (hlenV : vGraph.length = blocks.length) (u v : Nat) :
    (u, v) ∈ (criticalStage blocks hGraph vGraph).vCritEdges ↔
      Edge vGraph u v ∧
        (latestStage blocks hGraph vGraph).startY.getD u 0
          = (latestStage blocks hGraph vGraph).endY.getD u 0 ∧
        (latestStage blocks hGraph vGraph).startY.getD v 0
          = (latestStage blocks hGraph vGraph).endY.getD v 0 := by
  obtain ⟨_, hV⟩ := findCriticalEdges_eq (latestStage blocks hGraph vGraph)
  have e1 : (latestStage blocks hGraph vGraph).blocks = blocks := rfl
  have e3 : (latestStage blocks hGraph vGraph).vGraph = vGraph := rfl
  have e5 : (latestStage blocks hGraph vGraph).vCritEdges = [] := rfl
  rw [e1, e3, e5, List.nil_append, ← hlenV] at hV
  have hV2 : (criticalStage blocks hGraph vGraph).vCritEdges
      = (allEdges vGraph).filter (fun e => decide (BothZeroSlack
          (latestStage blocks hGraph vGraph).startY (latestStage blocks hGraph vGraph).endY e)) := hV
  rw [hV2, List.mem_filter, mem_allEdges]
  simp [BothZeroSlack]

/-- The two reported lists after `findCriticalEdges`, as filters of the edge enumerations. -/
theorem criticalStage_edges (blocks : List Block) (hGraph vGraph : Graph)
    (hlenH : hGraph.length = blocks.length) (hlenV : vGraph.length = blocks.length) :
    (criticalStage blocks hGraph vGraph).hCritEdges
      = (allEdges hGraph).filter (fun e => decide (BothZeroSlack
          (latestStage blocks hGraph vGraph).startX (latestStage blocks hGraph vGraph).endX e)) ∧
    (criticalStage blocks hGraph vGraph).vCritEdges
      = (allEdges vGraph).filter (fun e => decide (BothZeroSlack
          (latestStage blocks hGraph vGraph).startY (latestStage blocks hGraph vGraph).endY e)) ∧
    (∀ u v, (u, v) ∈ (criticalStage blocks hGraph vGraph).hCritEdges ↔
      Edge hGraph u v ∧
        (latestStage blocks hGraph vGraph).startX.getD u 0
          = (latestStage blocks hGraph vGraph).endX.getD u 0 ∧
        (latestStage blocks hGraph vGraph).startX.getD v 0
          = (latestStage blocks hGraph vGraph).endX.getD v 0) ∧
    (∀ u v, (u, v) ∈ (criticalStage blocks hGraph vGraph).vCritEdges ↔
      Edge vGraph u v ∧
        (latestStage blocks hGraph vGraph).startY.getD u 0
          = (latestStage blocks hGraph vGraph).endY.getD u 0 ∧
        (latestStage blocks hGraph vGraph).startY.getD v 0
          = (latestStage blocks hGraph vGraph).endY.getD v 0) := by
  obtain ⟨hH, hV⟩ := findCriticalEdges_eq (latestStage blocks hGraph vGraph)
  have e1 : (latestStage blocks hGraph vGraph).blocks = blocks := rfl
  have e2 : (latestStage blocks hGraph vGraph).hGraph = hGraph := rfl
  have e3 : (latestStage blocks hGraph vGraph).vGraph = vGraph := rfl
  have e4 : (latestStage blocks hGraph vGraph).hCritEdges = [] := rfl
  have e5 : (latestStage blocks hGraph vGraph).vCritEdges = [] := rfl
  rw [e1, e2, e4, List.nil_append, ← hlenH] at hH
  rw [e1, e3, e5, List.nil_append, ← hlenV] at hV
  have hH2 : (criticalStage blocks hGraph vGraph).hCritEdges
      = (allEdges hGraph).filter (fun e => decide (BothZeroSlack
          (latestStage blocks hGraph vGraph).startX (latestStage blocks hGraph vGraph).endX e)) := hH
  have hV2 : (criticalStage blocks hGraph vGraph).vCritEdges
      = (allEdges vGraph).filter (fun e => decide (BothZeroSlack
          (latestStage blocks hGraph vGraph).startY (latestStage blocks hGraph vGraph).endY e)) := hV
  refine ⟨hH2, hV2, ?_, ?_⟩
  · intro u v
    rw [hH2, List.mem_filter, mem_allEdges]
    simp [BothZeroSlack]
  · intro u v
    rw [hV2, List.mem_filter, mem_allEdges]
    simp [BothZeroSlack]

/-- C3. `findCriticalEdges` reports, for each axis, exactly the list of all edges of that
axis's graph (by ascending source handle, then adjacency order, duplicates kept) filtered by
the test that both endpoints have `earliest == latest`; in particular an edge is reported if
and only if both its endpoints have zero slack. -/
theorem C3_findCriticalEdges_filter (blocks : List Block) (hGraph vGraph : Graph)
    (hlenH : hGraph.length = blocks.length) (hlenV : vGraph.length = blocks.length) :
    (criticalStage blocks hGraph vGraph).hCritEdges
      = (allEdges hGraph).filter (fun e => decide (BothZeroSlack
          (latestStage blocks hGraph vGraph).startX (latestStage blocks hGraph vGraph).endX e)) ∧
    (criticalStage blocks hGraph vGraph).vCritEdges
      = (allEdges vGraph).filter (fun e => decide (BothZeroSlack
          (latestStage blocks hGraph vGraph).startY (latestStage blocks hGraph vGraph).endY e)) ∧
    (∀ u v, (u, v) ∈ (criticalStage blocks hGraph vGraph).hCritEdges ↔
      Edge hGraph u v ∧
        (latestStage blocks hGraph vGraph).startX.getD u 0
          = (latestStage blocks hGraph vGraph).endX.getD u 0 ∧
        (latestStage blocks hGraph vGraph).startX.getD v 0
          = (latestStage blocks hGraph vGraph).endX.getD v 0) ∧
    (∀ u v, (u, v) ∈ (criticalStage blocks hGraph vGraph).vCritEdges ↔
      Edge vGraph u v ∧
        (latestStage blocks hGraph vGraph).startY.getD u 0
          = (latestStage blocks hGraph vGraph).endY.getD u 0 ∧
        (latestStage blocks hGraph vGraph).startY.getD v 0
          = (latestStage blocks hGraph vGraph).endY.getD v 0) :=
  criticalStage_edges blocks hGraph vGraph hlenH hlenV

theorem C3_witness :
    (criticalStage [⟨"A", 1, 1⟩, ⟨"B", 1, 1⟩, ⟨"C", 1, 1⟩] [[1, 2, 1], [2], []] [[], [], []]).hCritEdges
      = [(0, 1), (0, 2), (0, 1), (1, 2)] :=
  (C3_findCriticalEdges_filter [⟨"A", 1, 1⟩, ⟨"B", 1, 1⟩, ⟨"C", 1, 1⟩] [[1, 2, 1], [2], []]
    [[], [], []] (by decide) (by decide)).1.trans (by decide)

/-! ## Critical edges and longest paths -/

theorem isPath_split (g : Graph) (p : List Nat) (u : Nat) (rest : List Nat) :
    IsPath g (p ++ u :: rest) ↔ IsPath g (p ++ [u]) ∧ IsPath g (u :: rest) := by
  rw [isPath_iff_chain, isPath_iff_chain, isPath_iff_chain]
  exact List.chain'_split

/-- Every walk of an acyclic graph has extent at most any bound that dominates all
`earliest + extent`, when no `int` sum of the forward pass overflows. -/
theorem pathExtent_le_bound (g : Graph) (b : List Block) (h : Bool) (bound : Int)
    (hac : Acyclic g) (hin : InRange g) (hlen : g.length = b.length) (h0 : 0 ≤ bound)
    (hnn : ∀ u, u < g.length → 0 ≤ shift b h u) (hfit : WalksFit g (shift b h))
    (hB : ∀ v, v < g.length → (topoForward g b h).getD v 0 + shift b h v ≤ bound) :
    ∀ q, IsPath g q → pathExtent (shift b h) q ≤ bound := by
  intro q
  induction q using List.reverseRecOn with
  | nil => intro _; simpa [pathExtent] using h0
  | append_singleton p v _ =>
    intro hq
    rw [pathExtent_append]
    by_cases hv : v < g.length
    · have h1 := topoForward_path_le g b h hac hnn hfit p v hv hq
      have h2 := hB v hv
      simp only [pathExtent, List.map_cons, List.map_nil, List.sum_cons, List.sum_nil,
        add_zero] at h1 ⊢
      omega
    · -- an out-of-range handle can only be a walk on its own, of extent 0
      have hp : p = [] := by
        rcases List.eq_nil_or_concat p with e | ⟨p0, w, e⟩
        · exact e
        · rw [List.concat_eq_append] at e
          subst e
          have he := ((isPath_snoc g p0 w v).mp (by simpa using hq)).2
          exact absurd (he.tgt_lt hin) hv
      subst hp
      have := shift_ge b h v (by omega)
      simp only [pathExtent, List.map_cons, List.map_nil, List.sum_cons, List.sum_nil,
        add_zero, this]
      simpa using h0

/-- An edge whose endpoints both have zero slack satisfies its length constraint, and it
lies on a walk whose extent equals the bound exactly when the constraint is tight; no `int`
operation of the two passes overflows. -/
theorem zero_slack_edge (g : Graph) (b : List Block) (h : Bool) (bound : Int)
    (hac : Acyclic g) (hin : InRange g) (hnn : ∀ u, u < g.length → 0 ≤ shift b h u)
    (hfit : WalksFit g (shift b h)) (hb0 : 0 ≤ bound) (hb : bound < 2 ^ 31)
    (u v : Nat) (he : Edge g u v)
    (hu : (topoForward g b h).getD u 0 = (topoBackward g b bound h).getD u 0)
    (hv : (topoForward g b h).getD v 0 = (topoBackward g b bound h).getD v 0) :
    (topoForward g b h).getD u 0 + shift b h u ≤ (topoForward g b h).getD v 0 ∧
    ((topoForward g b h).getD v 0 = (topoForward g b h).getD u 0 + shift b h u ↔
      ∃ p s, IsPath g (p ++ u :: v :: s) ∧ pathExtent (shift b h) (p ++ u :: v :: s) = bound) := by
  have hult := he.src_lt
  have hvlt := he.tgt_lt hin
  have hfitB := walks_le_of_fit g (shift b h) bound hfit hb0
  obtain ⟨_, hf⟩ := topoForward_spec g b h hac hnn hfit
  have hle := (hf v hvlt).2.1 u he
  refine ⟨hle, ?_, ?_⟩
  · intro htight
    obtain ⟨p, hp, hpe⟩ := topoForward_walk g b h hac hnn hfit u hult
    obtain ⟨s, hs, hse⟩ := topoBackward_walk g b h bound hac hin hnn hb hfitB v hvlt
    refine ⟨p, s, ?_, ?_⟩
    · rw [isPath_split, isPath_cons]
      exact ⟨hp, he, hs⟩
    · rw [pathExtent_append, pathExtent_cons]
      omega
  · rintro ⟨p, s, hpath, hext⟩
    rw [isPath_split, isPath_cons] at hpath
    obtain ⟨hp, _, hs⟩ := hpath
    have h1 := topoForward_path_le g b h hac hnn hfit p u hult hp
    have h2 := topoBackward_path_le g b h bound hac hin hnn hb hfitB s v hvlt hs
    rw [pathExtent_append, pathExtent_cons] at hext
    omega
/-- C4 (as amended). Per axis: for an acyclic graph with in-range targets over blocks with
positive extents in which no walk has a total extent of `2^31` or more (no `int` sum
overflows), every edge `(u, v)` that `findCriticalEdges` reports satisfies
`earliest[v] ≥ earliest[u] + extent(u)`, and it lies on a walk whose total extent equals the
axis's span (which no walk exceeds) if and only if that constraint is tight,
`earliest[v] = earliest[u] + extent(u)`. The hypotheses on one axis's graph are not needed
for the other axis. -/
theorem C4_critical_edge_tight_iff (blocks : List Block) (hGraph vGraph : Graph) (u v : Nat) :
    (Acyclic hGraph → InRange hGraph → hGraph.length = blocks.length →
      (∀ i, i < blocks.length → 0 < shift blocks true i) →
      WalksFit hGraph (shift blocks true) →
      (u, v) ∈ (criticalStage blocks hGraph vGraph).hCritEdges →
      (latestStage blocks hGraph vGraph).startX.getD u 0 + shift blocks true u
        ≤ (latestStage blocks hGraph vGraph).startX.getD v 0 ∧
      ((latestStage blocks hGraph vGraph).startX.getD v 0
          = (latestStage blocks hGraph vGraph).startX.getD u 0 + shift blocks true u ↔
        ∃ p s, IsPath hGraph (p ++ u :: v :: s) ∧
          pathExtent (shift blocks true) (p ++ u :: v :: s)
            = (maxSpans blocks (latestStage blocks hGraph vGraph).startX
                (latestStage blocks hGraph vGraph).startY).1) ∧
      ∀ q, IsPath hGraph q → pathExtent (shift blocks true) q
        ≤ (maxSpans blocks (latestStage blocks hGraph vGraph).startX
            (latestStage blocks hGraph vGraph).startY).1) ∧
    (Acyclic vGraph → InRange vGraph → vGraph.length = blocks.length →
      (∀ i, i < blocks.length → 0 < shift blocks false i) →
      WalksFit vGraph (shift blocks false) →
      (u, v) ∈ (criticalStage blocks hGraph vGraph).vCritEdges →
      (latestStage blocks hGraph vGraph).startY.getD u 0 + shift blocks false u
        ≤ (latestStage blocks hGraph vGraph).startY.getD v 0 ∧
      ((latestStage blocks hGraph vGraph).startY.getD v 0
          = (latestStage blocks hGraph vGraph).startY.getD u 0 + shift blocks false u ↔
        ∃ p s, IsPath vGraph (p ++ u :: v :: s) ∧
          pathExtent (shift blocks false) (p ++ u :: v :: s)
            = (maxSpans blocks (latestStage blocks hGraph vGraph).startX
                (latestStage blocks hGraph vGraph).startY).2) ∧
      ∀ q, IsPath vGraph q → pathExtent (shift blocks false) q
        ≤ (maxSpans blocks (latestStage blocks hGraph vGraph).startX
            (latestStage blocks hGraph vGraph).startY).2) := by
  obtain ⟨⟨hx0, hx1⟩, ⟨hy0, hy1⟩⟩ := maxSpans_range blocks (topoForward hGraph blocks true)
    (topoForward vGraph blocks false)
  constructor
  · intro hacH hinH hlenH hpos hfitH hcrit
    have hnn : ∀ i, i < hGraph.length → 0 ≤ shift blocks true i :=
      fun i hi => le_of_lt (hpos i (by rw [← hlenH]; exact hi))
    obtain ⟨hx, _⟩ := spanX_exact blocks hGraph (topoForward vGraph blocks false) hacH hlenH
      hnn hfitH
    obtain ⟨he, hzu, hzv⟩ := (mem_hCritEdges blocks hGraph vGraph hlenH u v).mp hcrit
    obtain ⟨z1, z2⟩ := zero_slack_edge hGraph blocks true _ hacH hinH hnn hfitH hx0 hx1
      u v he hzu hzv
    exact ⟨z1, z2, pathExtent_le_bound hGraph blocks true _ hacH hinH hlenH hx0 hnn hfitH
      (fun i hi => hx i (by rw [← hlenH]; exact hi))⟩
  · intro hacV hinV hlenV hpos hfitV hcrit
    have hnn : ∀ i, i < vGraph.length → 0 ≤ shift blocks false i :=
      fun i hi => le_of_lt (hpos i (by rw [← hlenV]; exact hi))
    obtain ⟨hy, _⟩ := spanY_exact blocks vGraph (topoForward hGraph blocks true) hacV hlenV
      hnn hfitV
    obtain ⟨he, hzu, hzv⟩ := (mem_vCritEdges blocks hGraph vGraph hlenV u v).mp hcrit
    obtain ⟨z1, z2⟩ := zero_slack_edge vGraph blocks false _ hacV hinV hnn hfitV hy0 hy1
      u v he hzu hzv
    exact ⟨z1, z2, pathExtent_le_bound vGraph blocks false _ hacV hinV hlenV hy0 hnn hfitV
      (fun i hi => hy i (by rw [← hlenV]; exact hi))⟩

/-- C4 fails on the code as stated. First input: three unit blocks with HCG edges `0→1`,
`0→2`, `1→2`; the edge `0→2` is reported critical, yet `earliest[2] = 2` while
`earliest[0] + width[0] = 1`. Second input: a chain `A → B → C` of blocks of width `2^30`
and an edge `D → E` between blocks of width `2^29`; the sum for `C` overflows, the span comes
out as `2^30`, `D → E` is reported critical and is tight, but the walk `A, B, C` has extent
`3 * 2^30`, so the reported edge lies on no longest walk. -/
theorem C4_counterexample :
    (Acyclic [[1, 2], [2], []] ∧ InRange [[1, 2], [2], []] ∧
      (∀ u, u < 3 → 0 < shift [⟨"A", 1, 1⟩, ⟨"B", 1, 1⟩, ⟨"C", 1, 1⟩] true u) ∧
      (0, 2) ∈ (criticalStage [⟨"A", 1, 1⟩, ⟨"B", 1, 1⟩, ⟨"C", 1, 1⟩]
        [[1, 2], [2], []] [[], [], []]).hCritEdges ∧
      ¬ ((latestStage [⟨"A", 1, 1⟩, ⟨"B", 1, 1⟩, ⟨"C", 1, 1⟩]
            [[1, 2], [2], []] [[], [], []]).startX.getD 2 0
          = (latestStage [⟨"A", 1, 1⟩, ⟨"B", 1, 1⟩, ⟨"C", 1, 1⟩]
            [[1, 2], [2], []] [[], [], []]).startX.getD 0 0
            + shift [⟨"A", 1, 1⟩, ⟨"B", 1, 1⟩, ⟨"C", 1, 1⟩] true 0)) ∧
    (Acyclic [[1], [2], [], [4], []] ∧ InRange [[1], [2], [], [4], []] ∧
      (∀ u, u < 5 → 0 < shift [⟨"A", 1073741824, 1⟩, ⟨"B", 1073741824, 1⟩,
        ⟨"C", 1073741824, 1⟩, ⟨"D", 536870912, 1⟩, ⟨"E", 536870912, 1⟩] true u) ∧
      (3, 4) ∈ (criticalStage [⟨"A", 1073741824, 1⟩, ⟨"B", 1073741824, 1⟩,
        ⟨"C", 1073741824, 1⟩, ⟨"D", 536870912, 1⟩, ⟨"E", 536870912, 1⟩]
        [[1], [2], [], [4], []] [[], [], [], [], []]).hCritEdges ∧
      (maxSpans [⟨"A", 1073741824, 1⟩, ⟨"B", 1073741824, 1⟩,
        ⟨"C", 1073741824, 1⟩, ⟨"D", 536870912, 1⟩, ⟨"E", 536870912, 1⟩]
        (latestStage [⟨"A", 1073741824, 1⟩, ⟨"B", 1073741824, 1⟩,
          ⟨"C", 1073741824, 1⟩, ⟨"D", 536870912, 1⟩, ⟨"E", 536870912, 1⟩]
          [[1], [2], [], [4], []] [[], [], [], [], []]).startX
        (latestStage [⟨"A", 1073741824, 1⟩, ⟨"B", 1073741824, 1⟩,
          ⟨"C", 1073741824, 1⟩, ⟨"D", 536870912, 1⟩, ⟨"E", 536870912, 1⟩]
          [[1], [2], [], [4], []] [[], [], [], [], []]).startY).1 = 1073741824 ∧
      IsPath [[1], [2], [], [4], []] [0, 1, 2] ∧
      pathExtent (shift [⟨"A", 1073741824, 1⟩, ⟨"B", 1073741824, 1⟩,
        ⟨"C", 1073741824, 1⟩, ⟨"D", 536870912, 1⟩, ⟨"E", 536870912, 1⟩] true) [0, 1, 2]
        = 3221225472) := by
  refine ⟨⟨TopoSorted.acyclic (by decide), by decide, by decide, by decide, by decide⟩,
    ⟨TopoSorted.acyclic (by decide), by decide, by decide, by decide, by decide, ?_, by decide⟩⟩
  simp only [IsPath, and_true]
  decide

theorem C4_witness :
    (latestStage [⟨"A", 1, 1⟩, ⟨"B", 1, 1⟩, ⟨"C", 1, 1⟩]
        [[1, 2], [2], []] [[], [], []]).startX.getD 0 0
      + shift [⟨"A", 1, 1⟩, ⟨"B", 1, 1⟩, ⟨"C", 1, 1⟩] true 0
      ≤ (latestStage [⟨"A", 1, 1⟩, ⟨"B", 1, 1⟩, ⟨"C", 1, 1⟩]
        [[1, 2], [2], []] [[], [], []]).startX.getD 2 0 :=
  ((C4_critical_edge_tight_iff [⟨"A", 1, 1⟩, ⟨"B", 1, 1⟩, ⟨"C", 1, 1⟩]
    [[1, 2], [2], []] [[], [], []] 0 2).1 (TopoSorted.acyclic (by decide)) (by decide)
    (by decide) (by decide)
    (walksFit_of_bounds _ _ _ [1, 2, 3] (by decide) (by decide) (by decide) (by decide))
    (by decide)).1
/-! ## Baseline area and the reduction search -/

theorem wrapInt64_of_range (x : Int) (h1 : -(2 ^ 63) ≤ x) (h2 : x < 2 ^ 63) : wrapInt64 x = x := by
  unfold wrapInt64
  rw [Int.emod_eq_of_lt (by omega) (by omega)]
  ring

/-- The `long long` product of two values in `int` range is the exact product. -/
theorem mulLL_exact (a b : Int) (ha1 : -(2 ^ 31) ≤ a) (ha2 : a < 2 ^ 31)
    (hb1 : -(2 ^ 31) ≤ b) (hb2 : b < 2 ^ 31) : mulLL a b = a * b := by
  unfold mulLL
  apply wrapInt64_of_range
  · nlinarith
  · nlinarith

theorem foldl_min_spec {ι : Type} (f : ι → Int) (l : List ι) : ∀ m : Int,
    l.foldl (fun m i => min m (f i)) m ≤ m ∧
    (∀ i ∈ l, l.foldl (fun m i => min m (f i)) m ≤ f i) ∧
    (l.foldl (fun m i => min m (f i)) m = m ∨ ∃ i ∈ l, l.foldl (fun m i => min m (f i)) m = f i) := by
  induction l with
  | nil => intro m; simp
  | cons j l ih =>
    intro m
    obtain ⟨h1, h2, h3⟩ := ih (min m (f j))
    simp only [List.foldl_cons]
    refine ⟨le_trans h1 (min_le_left _ _), ?_, ?_⟩
    · intro i hi
      rcases List.mem_cons.mp hi with e | e
      · subst e; exact le_trans h1 (min_le_right _ _)
      · exact h2 i e
    · rcases h3 with e | ⟨i, hi, e⟩
      · rcases le_total m (f j) with hle | hle
        · left
          rw [e, min_eq_left hle]
        · right
          exact ⟨j, by simp, by rw [e, min_eq_right hle]⟩
      · right
        exact ⟨i, by simp [hi], e⟩

/-- C5. After `tryAreaReduction`, `minArea` is the minimum of the baseline area and of the
trial areas of the reported horizontal critical edges; each trial area is the 64-bit product
of the two spans of forward passes over trial graphs built from the original HCG and VCG
(the exact product when both spans are below `2^31`); the graphs and both critical-edge
lists are left unchanged. -/
theorem C5_tryAreaReduction_min (blocks : List Block) (hGraph vGraph : Graph) :
    (run blocks hGraph vGraph).minArea ≤ (latestStage blocks hGraph vGraph).minArea ∧
    (∀ e ∈ (criticalStage blocks hGraph vGraph).hCritEdges,
      (run blocks hGraph vGraph).minArea ≤ trialArea blocks hGraph vGraph e) ∧
    ((run blocks hGraph vGraph).minArea = (latestStage blocks hGraph vGraph).minArea ∨
      ∃ e ∈ (criticalStage blocks hGraph vGraph).hCritEdges,
        (run blocks hGraph vGraph).minArea = trialArea blocks hGraph vGraph e) ∧
    (∀ e : Nat × Nat, trialArea blocks hGraph vGraph e
      = mulLL
          (maxSpans blocks (topoForward (trialH hGraph e.1 e.2) blocks true)
            (topoForward (trialV vGraph e.1 e.2) blocks false)).1
          (maxSpans blocks (topoForward (trialH hGraph e.1 e.2) blocks true)
            (topoForward (trialV vGraph e.1 e.2) blocks false)).2) ∧
    (∀ e : Nat × Nat,
      (maxSpans blocks (topoForward (trialH hGraph e.1 e.2) blocks true)
        (topoForward (trialV vGraph e.1 e.2) blocks false)).1 < 2 ^ 31 →
      (maxSpans blocks (topoForward (trialH hGraph e.1 e.2) blocks true)
        (topoForward (trialV vGraph e.1 e.2) blocks false)).2 < 2 ^ 31 →
      trialArea blocks hGraph vGraph e
        = (maxSpans blocks (topoForward (trialH hGraph e.1 e.2) blocks true)
            (topoForward (trialV vGraph e.1 e.2) blocks false)).1
          * (maxSpans blocks (topoForward (trialH hGraph e.1 e.2) blocks true)
            (topoForward (trialV vGraph e.1 e.2) blocks false)).2) ∧
    (run blocks hGraph vGraph).hGraph = hGraph ∧
    (run blocks hGraph vGraph).vGraph = vGraph ∧
    (run blocks hGraph vGraph).hCritEdges = (criticalStage blocks hGraph vGraph).hCritEdges ∧
    (run blocks hGraph vGraph).vCritEdges = (criticalStage blocks hGraph vGraph).vCritEdges := by
  obtain ⟨h1, h2, h3⟩ := foldl_min_spec (trialArea blocks hGraph vGraph)
    (criticalStage blocks hGraph vGraph).hCritEdges (latestStage blocks hGraph vGraph).minArea
  refine ⟨h1, h2, h3, fun _ => rfl, ?_, rfl, rfl, rfl, rfl⟩
  intro e hx hy
  obtain ⟨⟨hx0, _, _⟩, ⟨hy0, _, _⟩⟩ := maxSpans_spec blocks
    (topoForward (trialH hGraph e.1 e.2) blocks true)
    (topoForward (trialV vGraph e.1 e.2) blocks false)
  exact mulLL_exact _ _ (by omega) hx (by omega) hy

theorem areaAfterTrials_succ_le (fp : Floorplanner) (k : Nat) :
    areaAfterTrials fp (k + 1) ≤ areaAfterTrials fp k := by
  unfold areaAfterTrials
  rw [List.take_succ, List.foldl_append]
  exact (foldl_min_spec (trialArea fp.blocks fp.hGraph fp.vGraph) _ _).1

/-- C6. For every input, `minArea` after the reduction search is at most the baseline area,
and the running `minArea` (the baseline before the first trial, the final value after the
last) never increases from one evaluated trial to the next. -/
theorem C6_minArea_nonincreasing (blocks : List Block) (hGraph vGraph : Graph) :
    (run blocks hGraph vGraph).minArea ≤ (latestStage blocks hGraph vGraph).minArea ∧
    areaAfterTrials (criticalStage blocks hGraph vGraph) 0
      = (latestStage blocks hGraph vGraph).minArea ∧
    areaAfterTrials (criticalStage blocks hGraph vGraph)
        (criticalStage blocks hGraph vGraph).hCritEdges.length
      = (run blocks hGraph vGraph).minArea ∧
    ∀ k, areaAfterTrials (criticalStage blocks hGraph vGraph) (k + 1)
      ≤ areaAfterTrials (criticalStage blocks hGraph vGraph) k := by
  refine ⟨?_, rfl, ?_, fun k => areaAfterTrials_succ_le _ k⟩
  · exact (foldl_min_spec (trialArea blocks hGraph vGraph)
      (criticalStage blocks hGraph vGraph).hCritEdges (latestStage blocks hGraph vGraph).minArea).1
  · unfold areaAfterTrials
    rw [List.take_length]
    rfl

/-- C9 (as amended). For every input the baseline area set by `computeLatestPositions` is
the product of the two spans found by the span loop, and the 64-bit product is exact because
both spans lie in `[0, 2^31)`; each span is the largest of 0 and the `int` sums
`start[v] + extent[v]` (it bounds them all and is 0 or one of them), and it is the bound
handed to the backward pass of its axis. On an axis with at least one block, a graph of the
registry's size, positive extents and every sum `start[v] + extent[v]` below `2^31`, the span
is exactly the maximum over `v` of `start[v] + extent[v]`. -/
theorem C9_baseline_area (blocks : List Block) (hGraph vGraph : Graph) :
    ∃ mX mY : Int,
      (0 ≤ mX ∧ mX < 2 ^ 31 ∧
        (∀ i, i < blocks.length →
          wrapInt32 ((latestStage blocks hGraph vGraph).startX.getD i 0
            + (blocks.getD i default).width) ≤ mX) ∧
        (mX = 0 ∨ ∃ i, i < blocks.length ∧
          mX = wrapInt32 ((latestStage blocks hGraph vGraph).startX.getD i 0
            + (blocks.getD i default).width))) ∧
      (0 ≤ mY ∧ mY < 2 ^ 31 ∧
        (∀ i, i < blocks.length →
          wrapInt32 ((latestStage blocks hGraph vGraph).startY.getD i 0
            + (blocks.getD i default).height) ≤ mY) ∧
        (mY = 0 ∨ ∃ i, i < blocks.length ∧
          mY = wrapInt32 ((latestStage blocks hGraph vGraph).startY.getD i 0
            + (blocks.getD i default).height))) ∧
      (latestStage blocks hGraph vGraph).endX = topoBackward hGraph blocks mX true ∧
      (latestStage blocks hGraph vGraph).endY = topoBackward vGraph blocks mY false ∧
      (latestStage blocks hGraph vGraph).minArea = mulLL mX mY ∧
      (latestStage blocks hGraph vGraph).minArea = mX * mY ∧
      (0 < blocks.length → hGraph.length = blocks.length →
        (∀ i, i < blocks.length → 0 < (blocks.getD i default).width) →
        (∀ i, i < blocks.length → (latestStage blocks hGraph vGraph).startX.getD i 0
          + (blocks.getD i default).width < 2 ^ 31) →
        IsMaxOver blocks.length (fun i => (latestStage blocks hGraph vGraph).startX.getD i 0
          + (blocks.getD i default).width) mX) ∧
      (0 < blocks.length → vGraph.length = blocks.length →
        (∀ i, i < blocks.length → 0 < (blocks.getD i default).height) →
        (∀ i, i < blocks.length → (latestStage blocks hGraph vGraph).startY.getD i 0
          + (blocks.getD i default).height < 2 ^ 31) →
        IsMaxOver blocks.length (fun i => (latestStage blocks hGraph vGraph).startY.getD i 0
          + (blocks.getD i default).height) mY) := by
  obtain ⟨⟨hx0, hx, hxa⟩, ⟨hy0, hy, hya⟩⟩ := maxSpans_spec blocks (topoForward hGraph blocks true)
    (topoForward vGraph blocks false)
  obtain ⟨⟨_, hx1⟩, ⟨_, hy1⟩⟩ := maxSpans_range blocks (topoForward hGraph blocks true)
    (topoForward vGraph blocks false)
  obtain ⟨dH, hinvH, _⟩ := topoForwardRun_inv hGraph blocks true
  obtain ⟨dV, hinvV, _⟩ := topoForwardRun_inv vGraph blocks false
  have hwid : ∀ i, shift blocks true i = (blocks.getD i default).width := fun i => by simp [shift]
  have hhei : ∀ i, shift blocks false i = (blocks.getD i default).height := fun i => by simp [shift]
  have hsX : (latestStage blocks hGraph vGraph).startX = topoForward hGraph blocks true := rfl
  have hsY : (latestStage blocks hGraph vGraph).startY = topoForward vGraph blocks false := rfl
  rw [hsX, hsY]
  simp only [hwid, hhei] at hx hxa hy hya
  refine ⟨(maxSpans blocks (topoForward hGraph blocks true) (topoForward vGraph blocks false)).1,
    (maxSpans blocks (topoForward hGraph blocks true) (topoForward vGraph blocks false)).2,
    ⟨hx0, hx1, hx, hxa⟩, ⟨hy0, hy1, hy, hya⟩, rfl, rfl, rfl, ?_, ?_, ?_⟩
  · exact mulLL_exact _ _ (le_trans (by norm_num) hx0) hx1 (le_trans (by norm_num) hy0) hy1
  · intro hne hlenH hpos hfit
    have hex : ∀ i, i < blocks.length →
        0 < (topoForward hGraph blocks true).getD i 0 + (blocks.getD i default).width ∧
        wrapInt32 ((topoForward hGraph blocks true).getD i 0 + (blocks.getD i default).width)
          = (topoForward hGraph blocks true).getD i 0 + (blocks.getD i default).width := by
      intro i hi
      have h2 : 0 ≤ (topoForward hGraph blocks true).getD i 0 :=
        hinvH.nonneg i (by rw [hlenH]; exact hi)
      have h3 := hpos i hi
      have h4 := hfit i hi
      exact ⟨by omega, wrapInt32_of_range _ (by omega) h4⟩
    refine ⟨?_, ?_⟩
    · intro i hi
      have := hx i hi
      rw [(hex i hi).2] at this
      exact this
    · rcases hxa with e | ⟨i, hi, e⟩
      · exfalso
        have h1 := hx 0 hne
        rw [(hex 0 hne).2] at h1
        have h2 := (hex 0 hne).1
        omega
      · exact ⟨i, hi, by rw [e, (hex i hi).2]⟩
  · intro hne hlenV hpos hfit
    have hex : ∀ i, i < blocks.length →
        0 < (topoForward vGraph blocks false).getD i 0 + (blocks.getD i default).height ∧
        wrapInt32 ((topoForward vGraph blocks false).getD i 0 + (blocks.getD i default).height)
          = (topoForward vGraph blocks false).getD i 0 + (blocks.getD i default).height := by
      intro i hi
      have h2 : 0 ≤ (topoForward vGraph blocks false).getD i 0 :=
        hinvV.nonneg i (by rw [hlenV]; exact hi)
      have h3 := hpos i hi
      have h4 := hfit i hi
      exact ⟨by omega, wrapInt32_of_range _ (by omega) h4⟩
    refine ⟨?_, ?_⟩
    · intro i hi
      have := hy i hi
      rw [(hex i hi).2] at this
      exact this
    · rcases hya with e | ⟨i, hi, e⟩
      · exfalso
        have h1 := hy 0 hne
        rw [(hex 0 hne).2] at h1
        have h2 := (hex 0 hne).1
        omega
      · exact ⟨i, hi, by rw [e, (hex i hi).2]⟩

theorem C9_witness :
    ∃ mX mY : Int,
      IsMaxOver 2 (fun i => (latestStage [⟨"A", 2, 3⟩, ⟨"B", 2, 3⟩] [[1], []] [[], []]).startX.getD i 0
        + (([⟨"A", 2, 3⟩, ⟨"B", 2, 3⟩] : List Block).getD i default).width) mX ∧
      IsMaxOver 2 (fun i => (latestStage [⟨"A", 2, 3⟩, ⟨"B", 2, 3⟩] [[1], []] [[], []]).startY.getD i 0
        + (([⟨"A", 2, 3⟩, ⟨"B", 2, 3⟩] : List Block).getD i default).height) mY ∧
      (latestStage [⟨"A", 2, 3⟩, ⟨"B", 2, 3⟩] [[1], []] [[], []]).endX
        = topoBackward [[1], []] [⟨"A", 2, 3⟩, ⟨"B", 2, 3⟩] mX true ∧
      (latestStage [⟨"A", 2, 3⟩, ⟨"B", 2, 3⟩] [[1], []] [[], []]).endY
        = topoBackward [[], []] [⟨"A", 2, 3⟩, ⟨"B", 2, 3⟩] mY false ∧
      (latestStage [⟨"A", 2, 3⟩, ⟨"B", 2, 3⟩] [[1], []] [[], []]).minArea = mX * mY :=
  match C9_baseline_area [⟨"A", 2, 3⟩, ⟨"B", 2, 3⟩] [[1], []] [[], []] with
  | ⟨mX, mY, _, _, hbX, hbY, _, hprod, hmaxX, hmaxY⟩ =>
    ⟨mX, mY, hmaxX (by decide) (by decide) (by decide) (by decide),
      hmaxY (by decide) (by decide) (by decide) (by decide), hbX, hbY, hprod⟩

/-- C9 fails on the code as stated, on three inputs. With no block there is no maximum of
`startX[v] + width[v]`, and the baseline is 0. With the single block of width `-1` and height
1 the maximum of `startX[v] + width[v]` is `-1`, but the span loop starts from 0: the
horizontal span and bound are 0 and the baseline is 0, not `-1`. With two blocks of width
`2^30` and the HCG edge `A → B` the maximum of `startX[v] + width[v]` is `2^31`, but that
sum wraps to `-2^31` in `int`: the horizontal span and bound are `2^30` and the baseline is
`2^30`, not `2^31`. -/
theorem C9_counterexample :
    ((¬ ∃ m, IsMaxOver 0 (fun i => (latestStage [] [] []).startX.getD i 0
        + (([] : List Block).getD i default).width) m) ∧
      (latestStage [] [] []).minArea = 0) ∧
    (IsMaxOver 1 (fun i => (latestStage [⟨"A", -1, 1⟩] [[]] [[]]).startX.getD i 0
        + (([⟨"A", -1, 1⟩] : List Block).getD i default).width) (-1) ∧
      IsMaxOver 1 (fun i => (latestStage [⟨"A", -1, 1⟩] [[]] [[]]).startY.getD i 0
        + (([⟨"A", -1, 1⟩] : List Block).getD i default).height) 1 ∧
      (latestStage [⟨"A", -1, 1⟩] [[]] [[]]).endX = topoBackward [[]] [⟨"A", -1, 1⟩] 0 true ∧
      (latestStage [⟨"A", -1, 1⟩] [[]] [[]]).minArea = 0 ∧
      (latestStage [⟨"A", -1, 1⟩] [[]] [[]]).minArea ≠ (-1) * 1) ∧
    (IsMaxOver 2 (fun i => (latestStage [⟨"A", 1073741824, 1⟩, ⟨"B", 1073741824, 1⟩]
          [[1], []] [[], []]).startX.getD i 0
        + (([⟨"A", 1073741824, 1⟩, ⟨"B", 1073741824, 1⟩] : List Block).getD i default).width)
        2147483648 ∧
      IsMaxOver 2 (fun i => (latestStage [⟨"A", 1073741824, 1⟩, ⟨"B", 1073741824, 1⟩]
          [[1], []] [[], []]).startY.getD i 0
        + (([⟨"A", 1073741824, 1⟩, ⟨"B", 1073741824, 1⟩] : List Block).getD i default).height)
        1 ∧
      (latestStage [⟨"A", 1073741824, 1⟩, ⟨"B", 1073741824, 1⟩] [[1], []] [[], []]).endX
        = topoBackward [[1], []] [⟨"A", 1073741824, 1⟩, ⟨"B", 1073741824, 1⟩] 1073741824 true ∧
      (latestStage [⟨"A", 1073741824, 1⟩, ⟨"B", 1073741824, 1⟩] [[1], []] [[], []]).minArea
        = 1073741824 ∧
      (latestStage [⟨"A", 1073741824, 1⟩, ⟨"B", 1073741824, 1⟩] [[1], []] [[], []]).minArea
        ≠ 2147483648 * 1) := by
  refine ⟨⟨?_, by decide⟩,
    ⟨⟨by decide, 0, by decide, by decide⟩, ⟨by decide, 0, by decide, by decide⟩, by decide,
      by decide, by decide⟩,
    ⟨⟨by decide, 1, by decide, by decide⟩, ⟨by decide, 0, by decide, by decide⟩, by decide,
      by decide, by decide⟩⟩
  rintro ⟨m, _, i, hi, _⟩
  exact absurd hi (Nat.not_lt_zero i)

theorem C5_witness :
    (run [⟨"A", 2, 3⟩, ⟨"B", 2, 3⟩] [[1], []] [[], []]).minArea
      ≤ (latestStage [⟨"A", 2, 3⟩, ⟨"B", 2, 3⟩] [[1], []] [[], []]).minArea ∧
    (run [⟨"A", 2, 3⟩, ⟨"B", 2, 3⟩] [[1], []] [[], []]).minArea = 12 :=
  ⟨(C5_tryAreaReduction_min [⟨"A", 2, 3⟩, ⟨"B", 2, 3⟩] [[1], []] [[], []]).1, by decide⟩

theorem C6_witness :
    areaAfterTrials (criticalStage [⟨"A", 3, 1⟩, ⟨"B", 3, 1⟩] [[1], []] [[], []]) 1
      ≤ areaAfterTrials (criticalStage [⟨"A", 3, 1⟩, ⟨"B", 3, 1⟩] [[1], []] [[], []]) 0 ∧
    areaAfterTrials (criticalStage [⟨"A", 3, 1⟩, ⟨"B", 3, 1⟩] [[1], []] [[], []]) 0 = 6 ∧
    areaAfterTrials (criticalStage [⟨"A", 3, 1⟩, ⟨"B", 3, 1⟩] [[1], []] [[], []]) 1 = 6 :=
  ⟨(C6_minArea_nonincreasing [⟨"A", 3, 1⟩, ⟨"B", 3, 1⟩] [[1], []] [[], []]).2.2.2 0,
    by decide, by decide⟩

/-! ## Scenarios -/

/-- C11. Two-block scenario `A(2×3)`, `B(2×3)`, HCG `A → B`, empty VCG: earliest and latest
horizontal positions are `[0, 2]` under the bound 4, the horizontal critical edges are exactly
`[A → B]`, there is no vertical critical edge, the baseline area is 12, the single trial has
horizontal span 2 and vertical span 6 (area 12), and the final `minArea` is 12. -/
theorem C11_two_block_scenario :
    (latestStage [⟨"A", 2, 3⟩, ⟨"B", 2, 3⟩] [[1], []] [[], []]).startX = [0, 2] ∧
    (latestStage [⟨"A", 2, 3⟩, ⟨"B", 2, 3⟩] [[1], []] [[], []]).endX = [0, 2] ∧
    (maxSpans [⟨"A", 2, 3⟩, ⟨"B", 2, 3⟩]
      (latestStage [⟨"A", 2, 3⟩, ⟨"B", 2, 3⟩] [[1], []] [[], []]).startX
      (latestStage [⟨"A", 2, 3⟩, ⟨"B", 2, 3⟩] [[1], []] [[], []]).startY) = (4, 3) ∧
    (latestStage [⟨"A", 2, 3⟩, ⟨"B", 2, 3⟩] [[1], []] [[], []]).endX
      = topoBackward [[1], []] [⟨"A", 2, 3⟩, ⟨"B", 2, 3⟩] 4 true ∧
    (criticalStage [⟨"A", 2, 3⟩, ⟨"B", 2, 3⟩] [[1], []] [[], []]).hCritEdges = [(0, 1)] ∧
    (criticalStage [⟨"A", 2, 3⟩, ⟨"B", 2, 3⟩] [[1], []] [[], []]).vCritEdges = [] ∧
    (latestStage [⟨"A", 2, 3⟩, ⟨"B", 2, 3⟩] [[1], []] [[], []]).minArea = 12 ∧
    trialH [[1], []] 0 1 = [[], []] ∧
    trialV [[], []] 0 1 = [[1], []] ∧
    maxSpans [⟨"A", 2, 3⟩, ⟨"B", 2, 3⟩]
      (topoForward (trialH [[1], []] 0 1) [⟨"A", 2, 3⟩, ⟨"B", 2, 3⟩] true)
      (topoForward (trialV [[], []] 0 1) [⟨"A", 2, 3⟩, ⟨"B", 2, 3⟩] false) = (2, 6) ∧
    trialArea [⟨"A", 2, 3⟩, ⟨"B", 2, 3⟩] [[1], []] [[], []] (0, 1) = 12 ∧
    (run [⟨"A", 2, 3⟩, ⟨"B", 2, 3⟩] [[1], []] [[], []]).minArea = 12 := by
  refine ⟨by decide, by decide, by decide, by decide, by decide, by decide, by decide,
    by decide, by decide, by decide, by decide, by decide⟩

theorem single_forward (b : List Block) (h : Bool) : topoForward [[]] b h = [0] := by
  simp [topoForward, topoForwardRun, forwardInit, indegreeInit, seedQueue, forwardLoop,
    List.range_succ, List.range_zero]

theorem single_backward (b : List Block) (h : Bool) (bound : Int) :
    topoBackward [[]] b bound h = [bound - shift b h 0] := by
  simp [topoBackward, topoBackwardRun, backwardInit, buildRev, backwardLoop, revPush,
    List.range_succ, List.range_zero]

theorem run_minArea (blocks : List Block) (hGraph vGraph : Graph) :
    (run blocks hGraph vGraph).minArea
      = (criticalStage blocks hGraph vGraph).hCritEdges.foldl
          (fun m p => min m (trialArea blocks hGraph vGraph p))
          (latestStage blocks hGraph vGraph).minArea := rfl

/-- C13. Single-block scenario: for one block of positive width `w` and height `h` (both in
`int` range) with empty HCG and VCG, earliest and latest are 0 on both axes, both
critical-edge lists are empty, so the search evaluates no trial, and `minArea` is the
baseline area `w * h`. -/
theorem C13_single_block_scenario (id : String) (w h : Int) (hw : 0 < w) (hh : 0 < h)
    (hw2 : w < 2 ^ 31) (hh2 : h < 2 ^ 31) :
    (run [⟨id, w, h⟩] [[]] [[]]).startX = [0] ∧
    (run [⟨id, w, h⟩] [[]] [[]]).endX = [0] ∧
    (run [⟨id, w, h⟩] [[]] [[]]).startY = [0] ∧
    (run [⟨id, w, h⟩] [[]] [[]]).endY = [0] ∧
    (run [⟨id, w, h⟩] [[]] [[]]).hCritEdges = [] ∧
    (run [⟨id, w, h⟩] [[]] [[]]).vCritEdges = [] ∧
    (criticalStage [⟨id, w, h⟩] [[]] [[]]).hCritEdges.length = 0 ∧
    (latestStage [⟨id, w, h⟩] [[]] [[]]).minArea = w * h ∧
    (run [⟨id, w, h⟩] [[]] [[]]).minArea = w * h := by
  have ew : wrapInt32 w = w := wrapInt32_of_range w (by omega) hw2
  have eh : wrapInt32 h = h := wrapInt32_of_range h (by omega) hh2
  have hsp : maxSpans [⟨id, w, h⟩] [0] [0] = (w, h) := by
    simp [maxSpans, List.range_succ, List.range_zero, ew, eh, le_of_lt hw, le_of_lt hh]
  have hX : (run [⟨id, w, h⟩] [[]] [[]]).startX = [0] := single_forward [⟨id, w, h⟩] true
  have hY : (run [⟨id, w, h⟩] [[]] [[]]).startY = [0] := single_forward [⟨id, w, h⟩] false
  have hbase : (latestStage [⟨id, w, h⟩] [[]] [[]]).minArea = w * h := by
    show mulLL (maxSpans [⟨id, w, h⟩] (topoForward [[]] [⟨id, w, h⟩] true)
      (topoForward [[]] [⟨id, w, h⟩] false)).1 (maxSpans [⟨id, w, h⟩]
      (topoForward [[]] [⟨id, w, h⟩] true) (topoForward [[]] [⟨id, w, h⟩] false)).2 = w * h
    rw [single_forward, single_forward, hsp]
    exact mulLL_exact w h (by omega) hw2 (by omega) hh2
  have hEX : (run [⟨id, w, h⟩] [[]] [[]]).endX = [0] := by
    show topoBackward [[]] [⟨id, w, h⟩] (maxSpans [⟨id, w, h⟩]
      (topoForward [[]] [⟨id, w, h⟩] true) (topoForward [[]] [⟨id, w, h⟩] false)).1 true = [0]
    rw [single_forward, single_forward, hsp, single_backward]
    simp [shift]
  have hEY : (run [⟨id, w, h⟩] [[]] [[]]).endY = [0] := by
    show topoBackward [[]] [⟨id, w, h⟩] (maxSpans [⟨id, w, h⟩]
      (topoForward [[]] [⟨id, w, h⟩] true) (topoForward [[]] [⟨id, w, h⟩] false)).2 false = [0]
    rw [single_forward, single_forward, hsp, single_backward]
    simp [shift]
  have hH : (criticalStage [⟨id, w, h⟩] [[]] [[]]).hCritEdges = [] := by
    rw [(criticalStage_edges [⟨id, w, h⟩] [[]] [[]] rfl rfl).1]
    simp [allEdges, List.range_succ, List.range_zero]
  have hV : (criticalStage [⟨id, w, h⟩] [[]] [[]]).vCritEdges = [] := by
    rw [(criticalStage_edges [⟨id, w, h⟩] [[]] [[]] rfl rfl).2.1]
    simp [allEdges, List.range_succ, List.range_zero]
  refine ⟨hX, hEX, hY, hEY, hH, hV, by rw [hH]; rfl, hbase, ?_⟩
  rw [run_minArea, hH]
  exact hbase

theorem C13_witness :
    (run [⟨"A", 5, 7⟩] [[]] [[]]).minArea = 5 * 7 :=
  (C13_single_block_scenario "A" 5 7 (by decide) (by decide) (by decide) (by decide)).2.2.2.2.2.2.2.2

theorem chain_forward (ia ib ic : String) (w hA hB hC : Int) (hw : 0 < w)
    (hfit : w + w + w < 2 ^ 31) :
    topoForward [[1], [2], []] [⟨ia, w, hA⟩, ⟨ib, w, hB⟩, ⟨ic, w, hC⟩] true = [0, w, w + w] := by
  have e1 : wrapInt32 w = w := wrapInt32_of_range w (by omega) (by omega)
  have e2 : wrapInt32 (w + w) = w + w := wrapInt32_of_range _ (by omega) (by omega)
  simp [topoForward, topoForwardRun, forwardInit, indegreeInit, seedQueue, forwardLoop,
    forwardRelax, shift, List.range_succ, List.range_zero, e1, e2, le_of_lt hw]

theorem chain_backward (ia ib ic : String) (w hA hB hC : Int) (hw : 0 < w)
    (hfit : w + w + w < 2 ^ 31) :
    topoBackward [[1], [2], []] [⟨ia, w, hA⟩, ⟨ib, w, hB⟩, ⟨ic, w, hC⟩] (w + w + w) true
      = [0, w, w + w] := by
  have e0 : w + w + w - w = w + w := by ring
  have e1 : wrapInt32 w = w := wrapInt32_of_range w (by omega) (by omega)
  have e2 : wrapInt32 0 = 0 := by decide
  have e3 : w ≤ w + w := by omega
  simp [topoBackward, topoBackwardRun, backwardInit, buildRev, backwardLoop, revPush,
    backwardRelax, shift, List.range_succ, List.range_zero, e0, e1, e2, e3, le_of_lt hw]

theorem chain_span (ia ib ic : String) (w hA hB hC : Int) (y : List Int) (hw : 0 < w)
    (hfit : w + w + w < 2 ^ 31) :
    (maxSpans [⟨ia, w, hA⟩, ⟨ib, w, hB⟩, ⟨ic, w, hC⟩] [0, w, w + w] y).1 = w + w + w := by
  have e1 : wrapInt32 (0 + w) = 0 + w := wrapInt32_of_range _ (by omega) (by omega)
  have e2 : wrapInt32 (w + w) = w + w := wrapInt32_of_range _ (by omega) (by omega)
  have e3 : wrapInt32 (w + w + w) = w + w + w := wrapInt32_of_range _ (by omega) (by omega)
  rw [maxSpans_eq]
  simp only [List.length_cons, List.length_nil, List.range_succ, List.range_zero, List.nil_append,
    List.cons_append, List.foldl_cons, List.foldl_nil, shift]
  simp only [List.getD_cons_zero, List.getD_cons_succ, if_true]
  rw [e1, e2, e3]
  rw [max_eq_right (by omega : (0 : Int) ≤ 0 + w), max_eq_right (by omega : 0 + w ≤ w + w),
    max_eq_right (by omega : w + w ≤ w + w + w)]

/-- C12 (as amended). Three-block chain `A → B → C` with a common width `w > 0` such that
`3 * w < 2^31` (no `int` sum overflows), positive heights and an empty VCG: every block has
zero horizontal slack and the reported horizontal critical edges are exactly
`[A → B, B → C]`, in that order. -/
theorem C12_chain_scenario (ia ib ic : String) (w hA hB hC : Int) (hw : 0 < w)
    (hfit : w + w + w < 2 ^ 31)
    (_hhA : 0 < hA) (_hhB : 0 < hB) (_hhC : 0 < hC) :
    (criticalStage [⟨ia, w, hA⟩, ⟨ib, w, hB⟩, ⟨ic, w, hC⟩] [[1], [2], []] [[], [], []]).startX
      = [0, w, w + w] ∧
    (criticalStage [⟨ia, w, hA⟩, ⟨ib, w, hB⟩, ⟨ic, w, hC⟩] [[1], [2], []] [[], [], []]).endX
      = [0, w, w + w] ∧
    (∀ i, i < 3 →
      (criticalStage [⟨ia, w, hA⟩, ⟨ib, w, hB⟩, ⟨ic, w, hC⟩]
          [[1], [2], []] [[], [], []]).startX.getD i 0
        = (criticalStage [⟨ia, w, hA⟩, ⟨ib, w, hB⟩, ⟨ic, w, hC⟩]
          [[1], [2], []] [[], [], []]).endX.getD i 0) ∧
    (criticalStage [⟨ia, w, hA⟩, ⟨ib, w, hB⟩, ⟨ic, w, hC⟩]
      [[1], [2], []] [[], [], []]).hCritEdges = [(0, 1), (1, 2)] := by
  have hX : (latestStage [⟨ia, w, hA⟩, ⟨ib, w, hB⟩, ⟨ic, w, hC⟩]
      [[1], [2], []] [[], [], []]).startX = [0, w, w + w] :=
    chain_forward ia ib ic w hA hB hC hw hfit
  have hE : (latestStage [⟨ia, w, hA⟩, ⟨ib, w, hB⟩, ⟨ic, w, hC⟩]
      [[1], [2], []] [[], [], []]).endX = [0, w, w + w] := by
    show topoBackward [[1], [2], []] [⟨ia, w, hA⟩, ⟨ib, w, hB⟩, ⟨ic, w, hC⟩]
      (maxSpans [⟨ia, w, hA⟩, ⟨ib, w, hB⟩, ⟨ic, w, hC⟩]
        (topoForward [[1], [2], []] [⟨ia, w, hA⟩, ⟨ib, w, hB⟩, ⟨ic, w, hC⟩] true)
        (topoForward [[], [], []] [⟨ia, w, hA⟩, ⟨ib, w, hB⟩, ⟨ic, w, hC⟩] false)).1 true = _
    rw [chain_forward ia ib ic w hA hB hC hw hfit, chain_span ia ib ic w hA hB hC _ hw hfit,
      chain_backward ia ib ic w hA hB hC hw hfit]
  have hX2 : (criticalStage [⟨ia, w, hA⟩, ⟨ib, w, hB⟩, ⟨ic, w, hC⟩]
      [[1], [2], []] [[], [], []]).startX = [0, w, w + w] := hX
  have hE2 : (criticalStage [⟨ia, w, hA⟩, ⟨ib, w, hB⟩, ⟨ic, w, hC⟩]
      [[1], [2], []] [[], [], []]).endX = [0, w, w + w] := hE
  refine ⟨hX2, hE2, ?_, ?_⟩
  · intro i _
    rw [hX2, hE2]
  · rw [(criticalStage_edges [⟨ia, w, hA⟩, ⟨ib, w, hB⟩, ⟨ic, w, hC⟩]
      [[1], [2], []] [[], [], []] rfl rfl).1, hX, hE]
    simp [allEdges, List.range_succ, List.range_zero, BothZeroSlack]

theorem C12_witness :
    (criticalStage [⟨"A", 4, 1⟩, ⟨"B", 4, 2⟩, ⟨"C", 4, 3⟩]
      [[1], [2], []] [[], [], []]).hCritEdges = [(0, 1), (1, 2)] :=
  (C12_chain_scenario "A" "B" "C" 4 1 2 3 (by decide) (by decide) (by decide) (by decide)
    (by decide)).2.2.2

/-- C12 fails on the code as stated: for `w = 2^30` the sum `startX[B] + w = 2^31` wraps to
`-2^31`, so `startX = [0, 2^30, 0]`, the span is `2^30`, `endX = [-2^31, -2^30, 0]`, the
blocks `A` and `B` have non-zero slack and no horizontal critical edge is reported. -/
theorem C12_counterexample :
    (criticalStage [⟨"A", 1073741824, 1⟩, ⟨"B", 1073741824, 1⟩, ⟨"C", 1073741824, 1⟩]
      [[1], [2], []] [[], [], []]).startX = [0, 1073741824, 0] ∧
    (criticalStage [⟨"A", 1073741824, 1⟩, ⟨"B", 1073741824, 1⟩, ⟨"C", 1073741824, 1⟩]
      [[1], [2], []] [[], [], []]).endX = [-2147483648, -1073741824, 0] ∧
    (criticalStage [⟨"A", 1073741824, 1⟩, ⟨"B", 1073741824, 1⟩, ⟨"C", 1073741824, 1⟩]
      [[1], [2], []] [[], [], []]).hCritEdges = [] ∧
    (criticalStage [⟨"A", 1073741824, 1⟩, ⟨"B", 1073741824, 1⟩, ⟨"C", 1073741824, 1⟩]
      [[1], [2], []] [[], [], []]).hCritEdges ≠ [(0, 1), (1, 2)] :=
  ⟨by decide, by decide, by decide, by decide⟩
/-! ## Trial graphs of the reduction search -/

theorem trialH_length (g : Graph) (u v : Nat) : (trialH g u v).length = g.length := by
  simp [trialH]

theorem trialH_getD_ne (g : Graph) (u v a : Nat) (ha : a ≠ u) :
    (trialH g u v).getD a [] = g.getD a [] := by
  unfold trialH
  rw [getD_set_ne _ _ _ _ _ (Ne.symm ha)]

theorem trialH_getD_self (g : Graph) (u v : Nat) (hu : u < g.length) :
    (trialH g u v).getD u [] = (g.getD u []).filter (fun x => x != v) := by
  unfold trialH
  rw [getD_set_self _ _ _ _ hu]

theorem trialV_length (g : Graph) (u v : Nat) : (trialV g u v).length = g.length := by
  unfold trialV
  split
  · rfl
  · simp

theorem trialV_getD_ne (g : Graph) (u v a : Nat) (ha : a ≠ u) :
    (trialV g u v).getD a [] = g.getD a [] := by
  unfold trialV
  split
  · rfl
  · rw [getD_set_ne _ _ _ _ _ (Ne.symm ha)]

theorem trialV_present (g : Graph) (u v : Nat) (hp : Edge g u v) : trialV g u v = g := by
  have hp2 : v ∈ g.getD u [] := hp
  unfold trialV
  rw [if_pos hp2]

theorem trialV_absent (g : Graph) (u v : Nat) (hu : u < g.length) (hp : ¬ Edge g u v) :
    (trialV g u v).getD u [] = g.getD u [] ++ [v] := by
  have hp2 : ¬ v ∈ g.getD u [] := hp
  unfold trialV
  rw [if_neg hp2, getD_set_self _ _ _ _ hu]

theorem edge_trialH (g : Graph) (u v a b : Nat) (he : Edge (trialH g u v) a b) : Edge g a b := by
  unfold Edge at he ⊢
  by_cases ha : a = u
  · subst ha
    by_cases hu : a < g.length
    · rw [trialH_getD_self g a v hu] at he
      exact (List.mem_filter.mp he).1
    · rw [getD_ge _ _ _ (by rw [trialH_length]; omega)] at he
      simp at he
  · rw [trialH_getD_ne g u v a ha] at he
    exact he

theorem edge_trialV (g : Graph) (u v a b : Nat) (he : Edge g a b) : Edge (trialV g u v) a b := by
  by_cases hp : Edge g u v
  · rw [trialV_present g u v hp]; exact he
  · unfold Edge at he ⊢
    by_cases ha : a = u
    · subst ha
      rw [trialV_absent g a v (mem_of_getD_ne_nil g a b he) hp]
      exact List.mem_append.mpr (Or.inl he)
    · rw [trialV_getD_ne g u v a ha]
      exact he

/-- C16. Trial graphs for an edge `(u, v)` with `u` a valid handle of both graphs: the trial
HCG has the size of the HCG, its adjacency lists other than `u`'s are identical, and `u`'s list
is the original one with every copy of `v` erased, all other entries keeping their
multiplicity and order; the trial VCG is the VCG itself when `(u, v)` is already in it, and
otherwise the VCG with `v` appended once to `u`'s list, all other lists being identical. -/
theorem C16_trial_graphs (hGraph vGraph : Graph) (u v : Nat)
    (huH : u < hGraph.length) (huV : u < vGraph.length) :
    ((trialH hGraph u v).length = hGraph.length ∧
     (∀ a, a ≠ u → (trialH hGraph u v).getD a [] = hGraph.getD a []) ∧
     (trialH hGraph u v).getD u [] = (hGraph.getD u []).filter (fun x => x != v) ∧
     ¬ Edge (trialH hGraph u v) u v ∧
     (∀ w, w ≠ v → ((trialH hGraph u v).getD u []).count w = (hGraph.getD u []).count w) ∧
     List.Sublist ((trialH hGraph u v).getD u []) (hGraph.getD u [])) ∧
    (Edge vGraph u v → trialV vGraph u v = vGraph) ∧
    (¬ Edge vGraph u v →
      (trialV vGraph u v).length = vGraph.length ∧
      (∀ a, a ≠ u → (trialV vGraph u v).getD a [] = vGraph.getD a []) ∧
      (trialV vGraph u v).getD u [] = vGraph.getD u [] ++ [v] ∧
      ((trialV vGraph u v).getD u []).count v = 1) := by
  refine ⟨⟨trialH_length _ _ _, fun a ha => trialH_getD_ne _ _ _ a ha,
    trialH_getD_self _ _ _ huH, ?_, ?_, ?_⟩, trialV_present _ _ _, ?_⟩
  · intro he
    unfold Edge at he
    rw [trialH_getD_self _ _ _ huH] at he
    simpa using (List.mem_filter.mp he).2
  · intro w hw
    rw [trialH_getD_self _ _ _ huH, List.count_filter]
    simpa using hw
  · rw [trialH_getD_self _ _ _ huH]
    exact List.filter_sublist _
  · intro hp
    refine ⟨trialV_length _ _ _, fun a ha => trialV_getD_ne _ _ _ a ha,
      trialV_absent _ _ _ huV hp, ?_⟩
    rw [trialV_absent _ _ _ huV hp, List.count_append]
    have h0 : (vGraph.getD u []).count v = 0 := List.count_eq_zero.mpr hp
    rw [h0]
    simp

theorem C16_witness :
    (trialH [[1, 2, 1], [2], []] 0 1).getD 0 [] = [2] ∧
    (trialV [[2], [], []] 0 1).getD 0 [] = [2, 1] :=
  ⟨((C16_trial_graphs [[1, 2, 1], [2], []] [[2], [], []] 0 1 (by decide) (by decide)).1.2.2.1).trans
      (by decide),
   (((C16_trial_graphs [[1, 2, 1], [2], []] [[2], [], []] 0 1 (by decide) (by decide)).2.2
      (by decide)).2.2.1).trans (by decide)⟩

/-! ## Spans of the trial graphs -/

theorem acyclic_of_subgraph (g g' : Graph) (hsub : ∀ a b, Edge g' a b → Edge g a b)
    (hac : Acyclic g) : Acyclic g' :=
  fun v hv => hac v (Relation.TransGen.mono hsub hv)

theorem isPath_of_subgraph (g g' : Graph) (hsub : ∀ a b, Edge g' a b → Edge g a b) :
    ∀ p, IsPath g' p → IsPath g p := by
  intro p hp
  rw [isPath_iff_chain] at hp ⊢
  exact List.Chain'.imp hsub hp

theorem walksFit_of_subgraph (g g' : Graph) (sh : Nat → Int)
    (hsub : ∀ a b, Edge g' a b → Edge g a b) (hfit : WalksFit g sh) : WalksFit g' sh :=
  fun p hp => hfit p (isPath_of_subgraph g g' hsub p hp)

/-- Without overflow the forward coordinates lie below every non-negative assignment
satisfying the edge constraints. -/
theorem topoForward_least (g : Graph) (b : List Block) (h : Bool) (hac : Acyclic g)
    (hnn : ∀ u, u < g.length → 0 ≤ shift b h u) (hfit : WalksFit g (shift b h))
    (a : Nat → Int) (ha0 : ∀ v, v < g.length → 0 ≤ a v)
    (hae : ∀ u v, Edge g u v → a u + shift b h u ≤ a v) :
    ∀ v, v < g.length → (topoForward g b h).getD v 0 ≤ a v := by
  obtain ⟨_, hspec⟩ := topoForward_spec g b h hac hnn hfit
  intro v
  induction v using hac.wf.induction with
  | _ v ih =>
    intro hv
    rcases (hspec v hv).2.2 with h0 | ⟨u, he, heq⟩
    · rw [h0]; exact ha0 v hv
    · have h1 := ih u he he.src_lt
      have h2 := hae u v he
      omega

/-- C15 (as amended). For an acyclic HCG with in-range targets over the registered blocks,
with positive widths and no walk of total width `2^31` or more (no `int` sum overflows), and
every reported horizontal critical edge `(u, v)`, the horizontal span of the trial (the edge
removed) is at most the baseline horizontal span. -/
theorem C15_trial_horizontal_span_le (blocks : List Block) (hGraph vGraph : Graph)
    (hacH : Acyclic hGraph) (hinH : InRange hGraph) (hlenH : hGraph.length = blocks.length)
    (hposW : ∀ i, i < blocks.length → 0 < shift blocks true i)
    (hfitH : WalksFit hGraph (shift blocks true))
    (u v : Nat) (_hcrit : (u, v) ∈ (criticalStage blocks hGraph vGraph).hCritEdges) :
    (maxSpans blocks (topoForward (trialH hGraph u v) blocks true)
        (topoForward (trialV vGraph u v) blocks false)).1
      ≤ (maxSpans blocks (latestStage blocks hGraph vGraph).startX
          (latestStage blocks hGraph vGraph).startY).1 := by
  have hsub : ∀ a b, Edge (trialH hGraph u v) a b → Edge hGraph a b :=
    fun a b he => edge_trialH hGraph u v a b he
  have hac' : Acyclic (trialH hGraph u v) := acyclic_of_subgraph hGraph _ hsub hacH
  have hfit' : WalksFit (trialH hGraph u v) (shift blocks true) :=
    walksFit_of_subgraph hGraph _ _ hsub hfitH
  have hnn : ∀ i, i < hGraph.length → 0 ≤ shift blocks true i :=
    fun i hi => le_of_lt (hposW i (by rw [← hlenH]; exact hi))
  have hnn' : ∀ i, i < (trialH hGraph u v).length → 0 ≤ shift blocks true i := by
    intro i hi
    rw [trialH_length] at hi
    exact hnn i hi
  have hlen' : (trialH hGraph u v).length = blocks.length := by rw [trialH_length, hlenH]
  obtain ⟨_, hspec⟩ := topoForward_spec hGraph blocks true hacH hnn hfitH
  have hle : ∀ i, i < blocks.length →
      (topoForward (trialH hGraph u v) blocks true).getD i 0
        ≤ (topoForward hGraph blocks true).getD i 0 := by
    intro i hi
    apply topoForward_least (trialH hGraph u v) blocks true hac' hnn' hfit'
      (fun j => (topoForward hGraph blocks true).getD j 0)
    · intro j hj
      rw [trialH_length] at hj
      exact (hspec j hj).1
    · intro a c he
      have he2 := hsub a c he
      exact (hspec c (he2.tgt_lt hinH)).2.1 a he2
    · rw [hlen']; exact hi
  obtain ⟨⟨t0, _, _⟩, _⟩ := maxSpans_spec blocks (topoForward hGraph blocks true)
    (topoForward vGraph blocks false)
  obtain ⟨hb, _⟩ := spanX_exact blocks hGraph (topoForward vGraph blocks false) hacH hlenH
    hnn hfitH
  obtain ⟨_, ht⟩ := spanX_exact blocks (trialH hGraph u v)
    (topoForward (trialV vGraph u v) blocks false) hac' hlen' hnn' hfit'
  have hgoal : (maxSpans blocks (topoForward (trialH hGraph u v) blocks true)
        (topoForward (trialV vGraph u v) blocks false)).1
      ≤ (maxSpans blocks (topoForward hGraph blocks true)
          (topoForward vGraph blocks false)).1 := by
    rcases ht with e | ⟨i, hi, e⟩
    · rw [e]; exact t0
    · rw [e]
      have := hb i hi
      have := hle i hi
      omega
  exact hgoal

theorem C15_witness :
    (maxSpans [⟨"A", 2, 3⟩, ⟨"B", 2, 3⟩]
        (topoForward (trialH [[1], []] 0 1) [⟨"A", 2, 3⟩, ⟨"B", 2, 3⟩] true)
        (topoForward (trialV [[], []] 0 1) [⟨"A", 2, 3⟩, ⟨"B", 2, 3⟩] false)).1
      ≤ (maxSpans [⟨"A", 2, 3⟩, ⟨"B", 2, 3⟩]
          (latestStage [⟨"A", 2, 3⟩, ⟨"B", 2, 3⟩] [[1], []] [[], []]).startX
          (latestStage [⟨"A", 2, 3⟩, ⟨"B", 2, 3⟩] [[1], []] [[], []]).startY).1 :=
  C15_trial_horizontal_span_le [⟨"A", 2, 3⟩, ⟨"B", 2, 3⟩] [[1], []] [[], []]
    (TopoSorted.acyclic (by decide)) (by decide) (by decide) (by decide)
    (walksFit_of_bounds _ _ _ [2, 4] (by decide) (by decide) (by decide) (by decide))
    0 1 (by decide)

/-- C15 fails on the code as stated: on the chain `A → B → C → D → E` with widths
`2^28, 3 * 2^28, 2^30, 2^28, 7 * 2^28` the sums for `D` and for the span at `C` and `E`
overflow; the baseline has `startX = [0, 2^28, 2^30, 0, 2^28]` and span `2^30`, the edge
`A → B` is reported critical, and the trial without it has
`x = [0, 0, 3 * 2^28, 7 * 2^28, 0]` and span `7 * 2^28`, larger than the baseline span. -/
theorem C15_counterexample :
    Acyclic [[1], [2], [3], [4], []] ∧ InRange [[1], [2], [3], [4], []] ∧
    (∀ i, i < 5 → 0 < shift [⟨"A", 268435456, 1⟩, ⟨"B", 805306368, 1⟩,
      ⟨"C", 1073741824, 1⟩, ⟨"D", 268435456, 1⟩, ⟨"E", 1879048192, 1⟩] true i) ∧
    (latestStage [⟨"A", 268435456, 1⟩, ⟨"B", 805306368, 1⟩, ⟨"C", 1073741824, 1⟩,
      ⟨"D", 268435456, 1⟩, ⟨"E", 1879048192, 1⟩]
      [[1], [2], [3], [4], []] [[], [], [], [], []]).startX
      = [0, 268435456, 1073741824, 0, 268435456] ∧
    (0, 1) ∈ (criticalStage [⟨"A", 268435456, 1⟩, ⟨"B", 805306368, 1⟩,
      ⟨"C", 1073741824, 1⟩, ⟨"D", 268435456, 1⟩, ⟨"E", 1879048192, 1⟩]
      [[1], [2], [3], [4], []] [[], [], [], [], []]).hCritEdges ∧
    (maxSpans [⟨"A", 268435456, 1⟩, ⟨"B", 805306368, 1⟩, ⟨"C", 1073741824, 1⟩,
      ⟨"D", 268435456, 1⟩, ⟨"E", 1879048192, 1⟩]
      (latestStage [⟨"A", 268435456, 1⟩, ⟨"B", 805306368, 1⟩, ⟨"C", 1073741824, 1⟩,
        ⟨"D", 268435456, 1⟩, ⟨"E", 1879048192, 1⟩]
        [[1], [2], [3], [4], []] [[], [], [], [], []]).startX
      (latestStage [⟨"A", 268435456, 1⟩, ⟨"B", 805306368, 1⟩, ⟨"C", 1073741824, 1⟩,
        ⟨"D", 268435456, 1⟩, ⟨"E", 1879048192, 1⟩]
        [[1], [2], [3], [4], []] [[], [], [], [], []]).startY).1 = 1073741824 ∧
    topoForward (trialH [[1], [2], [3], [4], []] 0 1) [⟨"A", 268435456, 1⟩,
      ⟨"B", 805306368, 1⟩, ⟨"C", 1073741824, 1⟩, ⟨"D", 268435456, 1⟩,
      ⟨"E", 1879048192, 1⟩] true = [0, 0, 805306368, 1879048192, 0] ∧
    (maxSpans [⟨"A", 268435456, 1⟩, ⟨"B", 805306368, 1⟩, ⟨"C", 1073741824, 1⟩,
      ⟨"D", 268435456, 1⟩, ⟨"E", 1879048192, 1⟩]
      (topoForward (trialH [[1], [2], [3], [4], []] 0 1) [⟨"A", 268435456, 1⟩,
        ⟨"B", 805306368, 1⟩, ⟨"C", 1073741824, 1⟩, ⟨"D", 268435456, 1⟩,
        ⟨"E", 1879048192, 1⟩] true)
      (topoForward (trialV [[], [], [], [], []] 0 1) [⟨"A", 268435456, 1⟩,
        ⟨"B", 805306368, 1⟩, ⟨"C", 1073741824, 1⟩, ⟨"D", 268435456, 1⟩,
        ⟨"E", 1879048192, 1⟩] false)).1 = 1879048192 :=
  ⟨TopoSorted.acyclic (by decide), by decide, by decide, by decide, by decide, by decide,
    by decide, by decide⟩

/-- C14 (the code at the failing input). Blocks `A`, `B` of size `1×1`, HCG `A → B`, VCG
`B → A` (both acyclic, all dimensions positive): `A → B` is a horizontal critical edge, the
trial VCG `A ⇄ B` built by `tryAreaReduction` is cyclic, the forward pass over it dequeues
no vertex and returns `[0, 0]`, and the trial's vertical span is 1 while the baseline's is
2: moving the edge to the vertical graph has shortened the vertical span. -/
theorem C14_cyclic_trial_shrinks_span :
    Acyclic [[1], []] ∧ Acyclic [[], [0]] ∧
    (∀ i, i < 2 → 0 < shift [⟨"A", 1, 1⟩, ⟨"B", 1, 1⟩] true i
      ∧ 0 < shift [⟨"A", 1, 1⟩, ⟨"B", 1, 1⟩] false i) ∧
    (0, 1) ∈ (criticalStage [⟨"A", 1, 1⟩, ⟨"B", 1, 1⟩] [[1], []] [[], [0]]).hCritEdges ∧
    trialV [[], [0]] 0 1 = [[1], [0]] ∧
    topoForward (trialV [[], [0]] 0 1) [⟨"A", 1, 1⟩, ⟨"B", 1, 1⟩] false = [0, 0] ∧
    topoForwardOrder (trialV [[], [0]] 0 1) [⟨"A", 1, 1⟩, ⟨"B", 1, 1⟩] false = [] ∧
    (maxSpans [⟨"A", 1, 1⟩, ⟨"B", 1, 1⟩]
        (latestStage [⟨"A", 1, 1⟩, ⟨"B", 1, 1⟩] [[1], []] [[], [0]]).startX
        (latestStage [⟨"A", 1, 1⟩, ⟨"B", 1, 1⟩] [[1], []] [[], [0]]).startY).2 = 2 ∧
    (maxSpans [⟨"A", 1, 1⟩, ⟨"B", 1, 1⟩]
        (topoForward (trialH [[1], []] 0 1) [⟨"A", 1, 1⟩, ⟨"B", 1, 1⟩] true)
        (topoForward (trialV [[], [0]] 0 1) [⟨"A", 1, 1⟩, ⟨"B", 1, 1⟩] false)).2 = 1 :=
  ⟨TopoSorted.acyclic (by decide),
   acyclic_of_rank _ (fun v => 1 - v) (forall_edge_of_bounded _ _ (by decide)),
   by decide, by decide, by decide, by decide, by decide, by decide, by decide⟩
/-! ## Existence of a critical edge -/

/-- When the bound is attained by some `earliest + extent` and exceeds every single extent,
the last edge of a longest walk has zero slack at both endpoints; no `int` operation of the
two passes overflows. -/
theorem exists_zero_slack_edge (g : Graph) (b : List Block) (h : Bool) (bound : Int)
    (hac : Acyclic g) (hin : InRange g) (hnn : ∀ u, u < g.length → 0 ≤ shift b h u)
    (hfit : WalksFit g (shift b h)) (hb0 : 0 ≤ bound) (hb1 : bound < 2 ^ 31)
    (hB : ∀ v, v < g.length → (topoForward g b h).getD v 0 + shift b h v ≤ bound)
    (hatt : ∃ t, t < g.length ∧ (topoForward g b h).getD t 0 + shift b h t = bound)
    (hgt : ∀ i, i < g.length → shift b h i < bound) :
    ∃ u t, Edge g u t ∧
      (topoForward g b h).getD u 0 = (topoBackward g b bound h).getD u 0 ∧
      (topoForward g b h).getD t 0 = (topoBackward g b bound h).getD t 0 := by
  obtain ⟨t, ht, htB⟩ := hatt
  obtain ⟨_, hf⟩ := topoForward_spec g b h hac hnn hfit
  obtain ⟨_, hb⟩ := topoBackward_spec g b h bound hac hin hnn hb1
    (walks_le_of_fit g _ bound hfit hb0)
  have hle := earliest_le_latest g b h bound hac hin hnn hfit hb0 hb1 hB
  have hpos : (topoForward g b h).getD t 0 ≠ 0 := by
    have := hgt t ht
    omega
  rcases (hf t ht).2.2 with h0 | ⟨u, he, heq⟩
  · exact absurd h0 hpos
  · have hu := he.src_lt
    refine ⟨u, t, he, ?_, ?_⟩
    · have h1 := (hb u hu).2.1 t he
      have h2 := (hb t ht).1
      have h3 := hle u hu
      omega
    · have h2 := (hb t ht).1
      have h3 := hle t ht
      omega

/-- C20 (as amended). Per axis: with at least one block and an acyclic graph with in-range
targets over the registered blocks, positive extents and no walk of total extent `2^31` or
more (no `int` sum overflows), when the span exceeds the extent of every single block
`findCriticalEdges` reports at least one critical edge on that axis. The hypotheses on one
axis's graph are not needed for the other axis. -/
theorem C20_exists_critical_edge (blocks : List Block) (hGraph vGraph : Graph)
    (hne : 0 < blocks.length) :
    (Acyclic hGraph → InRange hGraph → hGraph.length = blocks.length →
      (∀ i, i < blocks.length → 0 < shift blocks true i) →
      WalksFit hGraph (shift blocks true) →
      (∀ i, i < blocks.length → shift blocks true i
        < (maxSpans blocks (latestStage blocks hGraph vGraph).startX
            (latestStage blocks hGraph vGraph).startY).1) →
      ∃ e, e ∈ (criticalStage blocks hGraph vGraph).hCritEdges) ∧
    (Acyclic vGraph → InRange vGraph → vGraph.length = blocks.length →
      (∀ i, i < blocks.length → 0 < shift blocks false i) →
      WalksFit vGraph (shift blocks false) →
      (∀ i, i < blocks.length → shift blocks false i
        < (maxSpans blocks (latestStage blocks hGraph vGraph).startX
            (latestStage blocks hGraph vGraph).startY).2) →
      ∃ e, e ∈ (criticalStage blocks hGraph vGraph).vCritEdges) := by
  obtain ⟨⟨hx0, hx1⟩, ⟨hy0, hy1⟩⟩ := maxSpans_range blocks (topoForward hGraph blocks true)
    (topoForward vGraph blocks false)
  constructor
  · intro hacH hinH hlenH hpos hfitH hgt
    have hnn : ∀ i, i < hGraph.length → 0 ≤ shift blocks true i :=
      fun i hi => le_of_lt (hpos i (by rw [← hlenH]; exact hi))
    obtain ⟨hx, hxa⟩ := spanX_exact blocks hGraph (topoForward vGraph blocks false) hacH hlenH
      hnn hfitH
    have hatt : ∃ t, t < hGraph.length ∧ (topoForward hGraph blocks true).getD t 0
        + shift blocks true t = (maxSpans blocks (topoForward hGraph blocks true)
          (topoForward vGraph blocks false)).1 := by
      rcases hxa with e | ⟨i, hi, e⟩
      · exfalso
        have h1 := hgt 0 hne
        have h2 := hpos 0 hne
        have h3 : (maxSpans blocks (latestStage blocks hGraph vGraph).startX
          (latestStage blocks hGraph vGraph).startY).1 = 0 := e
        omega
      · exact ⟨i, by rw [hlenH]; exact hi, e.symm⟩
    obtain ⟨u, t, he, hzu, hzt⟩ := exists_zero_slack_edge hGraph blocks true _ hacH hinH
      hnn hfitH hx0 hx1
      (fun i hi => hx i (by rw [← hlenH]; exact hi)) hatt
      (fun i hi => hgt i (by rw [← hlenH]; exact hi))
    exact ⟨(u, t), (mem_hCritEdges blocks hGraph vGraph hlenH u t).mpr ⟨he, hzu, hzt⟩⟩
  · intro hacV hinV hlenV hpos hfitV hgt
    have hnn : ∀ i, i < vGraph.length → 0 ≤ shift blocks false i :=
      fun i hi => le_of_lt (hpos i (by rw [← hlenV]; exact hi))
    obtain ⟨hy, hya⟩ := spanY_exact blocks vGraph (topoForward hGraph blocks true) hacV hlenV
      hnn hfitV
    have hatt : ∃ t, t < vGraph.length ∧ (topoForward vGraph blocks false).getD t 0
        + shift blocks false t = (maxSpans blocks (topoForward hGraph blocks true)
          (topoForward vGraph blocks false)).2 := by
      rcases hya with e | ⟨i, hi, e⟩
      · exfalso
        have h1 := hgt 0 hne
        have h2 := hpos 0 hne
        have h3 : (maxSpans blocks (latestStage blocks hGraph vGraph).startX
          (latestStage blocks hGraph vGraph).startY).2 = 0 := e
        omega
      · exact ⟨i, by rw [hlenV]; exact hi, e.symm⟩
    obtain ⟨u, t, he, hzu, hzt⟩ := exists_zero_slack_edge vGraph blocks false _ hacV hinV
      hnn hfitV hy0 hy1
      (fun i hi => hy i (by rw [← hlenV]; exact hi)) hatt
      (fun i hi => hgt i (by rw [← hlenV]; exact hi))
    exact ⟨(u, t), (mem_vCritEdges blocks hGraph vGraph hlenV u t).mpr ⟨he, hzu, hzt⟩⟩

theorem C20_witness :
    ∃ e, e ∈ (criticalStage [⟨"A", 2, 3⟩, ⟨"B", 1, 1⟩, ⟨"C", 4, 2⟩]
      [[1, 2], [2], []] [[2], [], []]).hCritEdges :=
  (C20_exists_critical_edge [⟨"A", 2, 3⟩, ⟨"B", 1, 1⟩, ⟨"C", 4, 2⟩] [[1, 2], [2], []] [[2], [], []]
    (by decide)).1 (TopoSorted.acyclic (by decide)) (by decide) (by decide) (by decide)
    (walksFit_of_bounds _ _ _ [2, 3, 7] (by decide) (by decide) (by decide) (by decide))
    (by decide)

/-- C20 fails on the code as stated, on two inputs. With no block at all (empty registry,
empty HCG and VCG) the HCG is acyclic, all widths are positive and the span exceeds every
width, vacuously, yet no critical edge is reported. On the chain `A → B → C` of three blocks
of width `2^30 - 1` the sum `startX[C] + width(C)` overflows, the span comes out as
`2^31 - 2`, larger than every width, and `endX = [-(2^30 - 1), 0, 2^30 - 1]` differs from
`startX = [0, 2^30 - 1, 2^31 - 2]` at every block: no critical edge is reported. -/
theorem C20_counterexample :
    (Acyclic ([] : Graph) ∧
      (∀ i, i < ([] : List Block).length → 0 < shift [] true i) ∧
      (∀ i, i < ([] : List Block).length → shift [] true i
        < (maxSpans [] (latestStage [] [] []).startX (latestStage [] [] []).startY).1) ∧
      (criticalStage [] [] []).hCritEdges = []) ∧
    (Acyclic [[1], [2], []] ∧
      (∀ i, i < 3 → 0 < shift [⟨"A", 1073741823, 1⟩, ⟨"B", 1073741823, 1⟩,
        ⟨"C", 1073741823, 1⟩] true i) ∧
      (∀ i, i < 3 → shift [⟨"A", 1073741823, 1⟩, ⟨"B", 1073741823, 1⟩,
          ⟨"C", 1073741823, 1⟩] true i
        < (maxSpans [⟨"A", 1073741823, 1⟩, ⟨"B", 1073741823, 1⟩, ⟨"C", 1073741823, 1⟩]
            (latestStage [⟨"A", 1073741823, 1⟩, ⟨"B", 1073741823, 1⟩, ⟨"C", 1073741823, 1⟩]
              [[1], [2], []] [[], [], []]).startX
            (latestStage [⟨"A", 1073741823, 1⟩, ⟨"B", 1073741823, 1⟩, ⟨"C", 1073741823, 1⟩]
              [[1], [2], []] [[], [], []]).startY).1) ∧
      (latestStage [⟨"A", 1073741823, 1⟩, ⟨"B", 1073741823, 1⟩, ⟨"C", 1073741823, 1⟩]
        [[1], [2], []] [[], [], []]).startX = [0, 1073741823, 2147483646] ∧
      (latestStage [⟨"A", 1073741823, 1⟩, ⟨"B", 1073741823, 1⟩, ⟨"C", 1073741823, 1⟩]
        [[1], [2], []] [[], [], []]).endX = [-1073741823, 0, 1073741823] ∧
      (criticalStage [⟨"A", 1073741823, 1⟩, ⟨"B", 1073741823, 1⟩, ⟨"C", 1073741823, 1⟩]
        [[1], [2], []] [[], [], []]).hCritEdges = []) :=
  ⟨⟨TopoSorted.acyclic (by decide), by decide, by decide, by decide⟩,
    ⟨TopoSorted.acyclic (by decide), by decide, by decide, by decide, by decide, by decide⟩⟩
/-! ## The dequeue order -/

theorem dequeueOrdered_step {g : Graph} {sh : Nat → Int} {done : List Nat} {s : FwdState}
    {u : Nat} {rest : List Nat} (hinv : FwdInv g sh done s) (hq : s.q = u :: rest)
    (hord : DequeueOrdered g done) : DequeueOrdered g (done ++ [u]) := by
  obtain ⟨rank, hr⟩ := hord
  have hnd := hinv.nodup
  rw [hq] at hnd
  have hud : u ∉ done := fun hmem => (List.nodup_append.mp hnd).2.2 hmem (by simp)
  have hult : u < g.length := hinv.lt u (by simp [hq])
  have h0 : inCount g done u = 0 := (hinv.zero u hult).mp (by simp [hq])
  have hpred : ∀ w, Edge g w u → w ∈ done := (inCount_eq_zero g done u).mp h0
  refine ⟨Function.update rank u done.length, ?_⟩
  intro v hv
  rcases List.mem_append.mp hv with hvd | hvu
  · have hvu : v ≠ u := fun e => hud (e ▸ hvd)
    obtain ⟨h1, h2⟩ := hr v hvd
    refine ⟨by rw [Function.update_noteq hvu]; simp; omega, ?_⟩
    intro w he
    obtain ⟨hwd, hlt⟩ := h2 w he
    have hwu : w ≠ u := fun e => hud (e ▸ hwd)
    refine ⟨List.mem_append.mpr (Or.inl hwd), ?_⟩
    rw [Function.update_noteq hwu, Function.update_noteq hvu]
    exact hlt
  · simp at hvu
    subst hvu
    refine ⟨by simp, ?_⟩
    intro w he
    have hwd := hpred w he
    have hwv : w ≠ v := fun e => hud (e ▸ hwd)
    refine ⟨List.mem_append.mpr (Or.inl hwd), ?_⟩
    rw [Function.update_noteq hwv, Function.update_same]
    exact (hr w hwd).1

theorem forwardLoop_order (g : Graph) (b : List Block) (h : Bool) :
    ∀ (fuel : Nat) (s : FwdState) (done : List Nat),
      FwdInv g (shift b h) done s → DequeueOrdered g done → g.length ≤ done.length + fuel →
      FwdInv g (shift b h) (done ++ forwardOrder g b h fuel s) (forwardLoop g b h fuel s) ∧
      DequeueOrdered g (done ++ forwardOrder g b h fuel s) ∧
      (forwardLoop g b h fuel s).q = [] := by
  intro fuel
  induction fuel with
  | zero =>
    intro s done hinv hord hfuel
    have hle := nodup_length_le _ _ hinv.nodup hinv.lt
    rw [List.length_append] at hle
    have hq : s.q = [] := List.eq_nil_of_length_eq_zero (by omega)
    simp only [forwardOrder, forwardLoop, List.append_nil]
    exact ⟨hinv, hord, hq⟩
  | succ fuel ih =>
    intro s done hinv hord hfuel
    cases hq : s.q with
    | nil =>
      simp only [forwardOrder, forwardLoop, hq, List.append_nil]
      exact ⟨hinv, hord, trivial⟩
    | cons u rest =>
      have hstep := hinv.step hq
      have hord' := dequeueOrdered_step hinv hq hord
      obtain ⟨h1, h2, h3⟩ := ih _ (done ++ [u]) hstep hord' (by simp; omega)
      simp only [forwardOrder, forwardLoop, hq]
      rw [List.append_assoc, List.singleton_append] at h1 h2
      exact ⟨h1, h2, h3⟩

/-- The final state of `topoForward` satisfies the loop invariant for the recorded dequeue
order, on every graph. -/
theorem topoForward_order_inv (g : Graph) (b : List Block) (h : Bool) :
    FwdInv g (shift b h) (topoForwardOrder g b h) (topoForwardRun g b h) ∧
    DequeueOrdered g (topoForwardOrder g b h) ∧
    (topoForwardRun g b h).q = [] := by
  have := forwardLoop_order g b h g.length (forwardInit g) [] (FwdInv.initial g _)
    ⟨fun _ => 0, fun v hv => by simp at hv⟩ (by simp)
  simpa [topoForwardOrder, topoForwardRun] using this

/-- Dequeue order of `topoForward`: no repetition, only valid handles, at most `n` entries. -/
theorem topoForwardOrder_nodup (g : Graph) (b : List Block) (h : Bool) :
    (topoForwardOrder g b h).Nodup ∧ (∀ u ∈ topoForwardOrder g b h, u < g.length) ∧
    (topoForwardOrder g b h).length ≤ g.length := by
  obtain ⟨hinv, _, hq⟩ := topoForward_order_inv g b h
  have hnd := hinv.nodup
  have hlt := hinv.lt
  rw [hq, List.append_nil] at hnd hlt
  exact ⟨hnd, hlt, nodup_length_le _ _ hnd hlt⟩

/-- A vertex is dequeued by `topoForward` exactly when its in-degree counter ends at zero. -/
theorem mem_topoForwardOrder_iff (g : Graph) (b : List Block) (h : Bool) (v : Nat)
    (hv : v < g.length) :
    v ∈ topoForwardOrder g b h ↔ (topoForwardRun g b h).indegree.getD v 0 = 0 := by
  obtain ⟨hinv, _, hq⟩ := topoForward_order_inv g b h
  have hz := hinv.zero v hv
  rw [hq, List.append_nil] at hz
  rw [hz, hinv.deg v hv]
  exact ⟨fun e => by rw [e]; rfl, fun e => by exact_mod_cast e⟩

/-- The in-degree counters never end below zero. -/
theorem topoForwardRun_indegree_nonneg (g : Graph) (b : List Block) (h : Bool) (v : Nat)
    (hv : v < g.length) : 0 ≤ (topoForwardRun g b h).indegree.getD v 0 := by
  obtain ⟨hinv, _, _⟩ := topoForward_order_inv g b h
  rw [hinv.deg v hv]
  exact Int.natCast_nonneg _

/-- If every vertex is dequeued, the dequeue order is a topological order and the graph is
acyclic. -/
theorem acyclic_of_all_dequeued (g : Graph) (b : List Block) (h : Bool)
    (hall : ∀ v, v < g.length → v ∈ topoForwardOrder g b h) : Acyclic g := by
  obtain ⟨_, ⟨rank, hr⟩, _⟩ := topoForward_order_inv g b h
  apply acyclic_of_rank g
    (fun v => if v ∈ topoForwardOrder g b h then rank v else (topoForwardOrder g b h).length)
  intro u v he
  have hu := hall u he.src_lt
  simp only [hu, if_true]
  by_cases hv : v ∈ topoForwardOrder g b h
  · simp only [hv, if_true]
    exact ((hr v hv).2 u he).2
  · simp only [hv, if_false]
    exact (hr u hu).1

/-- A graph is acyclic exactly when `topoForward` dequeues every vertex. -/
theorem acyclic_iff_all_dequeued (g : Graph) (b : List Block) (h : Bool) :
    Acyclic g ↔ ∀ v, v < g.length → v ∈ topoForwardOrder g b h := by
  constructor
  · intro hac
    obtain ⟨hinv, _, hq⟩ := topoForward_order_inv g b h
    exact hinv.all_done hq hac
  · exact acyclic_of_all_dequeued g b h

/-! ## Cyclic graphs -/

theorem not_acyclic_of_two_cycle (g : Graph) (a c : Nat) (h1 : Edge g a c) (h2 : Edge g c a) :
    ¬ Acyclic g :=
  fun hac => hac a (Relation.TransGen.tail (Relation.TransGen.single h1) h2)

/-- C17 (as amended). A vertex that `topoForward` never dequeues (its in-degree counter stays
positive, which only happens on a graph with a cycle) ends with the coordinate
`max(0, max over its dequeued predecessors u of coord[u] + extent(u))`, each sum being the
`int` sum as the machine forms it; with positive extents and none of these sums reaching
`2^31` it is left at its initial 0 if and only if none of its predecessors is dequeued. -/
theorem C17_never_dequeued_coordinate (g : Graph) (blocks : List Block) (horizontal : Bool)
    (v : Nat) (hv : v < g.length) (hnd : v ∉ topoForwardOrder g blocks horizontal) :
    ¬ Acyclic g ∧
    0 < (topoForwardRun g blocks horizontal).indegree.getD v 0 ∧
    0 ≤ (topoForward g blocks horizontal).getD v 0 ∧
    (∀ u ∈ topoForwardOrder g blocks horizontal, Edge g u v →
      wrapInt32 ((topoForward g blocks horizontal).getD u 0 + shift blocks horizontal u)
        ≤ (topoForward g blocks horizontal).getD v 0) ∧
    ((topoForward g blocks horizontal).getD v 0 = 0 ∨
      ∃ u ∈ topoForwardOrder g blocks horizontal, Edge g u v ∧
        (topoForward g blocks horizontal).getD v 0
          = wrapInt32 ((topoForward g blocks horizontal).getD u 0
              + shift blocks horizontal u)) ∧
    ((∀ u, u < g.length → 0 < shift blocks horizontal u) →
      (∀ u ∈ topoForwardOrder g blocks horizontal, Edge g u v →
        (topoForward g blocks horizontal).getD u 0 + shift blocks horizontal u < 2 ^ 31) →
      ((topoForward g blocks horizontal).getD v 0 = 0 ↔
        ∀ u ∈ topoForwardOrder g blocks horizontal, ¬ Edge g u v)) := by
  obtain ⟨hinv, _, hq⟩ := topoForward_order_inv g blocks horizontal
  have hlow := hinv.lower
  have hatt := hinv.attain v hv
  refine ⟨?_, ?_, hinv.nonneg v hv, fun u hu he => hlow u hu v hv he, hatt, ?_⟩
  · intro hac
    exact hnd ((acyclic_iff_all_dequeued g blocks horizontal).mp hac v hv)
  · have h0 := topoForwardRun_indegree_nonneg g blocks horizontal v hv
    have h1 : (topoForwardRun g blocks horizontal).indegree.getD v 0 ≠ 0 :=
      fun e => hnd ((mem_topoForwardOrder_iff g blocks horizontal v hv).mpr e)
    omega
  · intro hpos hfit
    constructor
    · intro h0 u hu he
      have h1 := hlow u hu v hv he
      have h2 := hinv.nonneg u he.src_lt
      have h3 := hpos u he.src_lt
      have h4 : (topoForward g blocks horizontal).getD v 0 = 0 := h0
      have h5 : (topoForwardRun g blocks horizontal).coords = topoForward g blocks horizontal := rfl
      have h6 := hfit u hu he
      rw [h5] at h1 h2
      rw [wrapInt32_of_range _ (by omega) h6] at h1
      omega
    · intro hno
      rcases hatt with h0 | ⟨u, hu, he, _⟩
      · exact h0
      · exact absurd he (hno u hu)

theorem C17_witness :
    0 < (topoForwardRun [[1], [2], [1]] [⟨"A", 1, 1⟩, ⟨"B", 1, 1⟩, ⟨"C", 1, 1⟩] true).indegree.getD 2 0 ∧
    (topoForward [[1], [2], [1]] [⟨"A", 1, 1⟩, ⟨"B", 1, 1⟩, ⟨"C", 1, 1⟩] true).getD 2 0 = 0 :=
  ⟨(C17_never_dequeued_coordinate [[1], [2], [1]] [⟨"A", 1, 1⟩, ⟨"B", 1, 1⟩, ⟨"C", 1, 1⟩] true 2
      (by decide) (by decide)).2.1, by decide⟩

/-- C17 fails on the code as stated. Graph `0 → 1 → 2 → 1` over unit blocks: vertex 1 lies on
the cycle, its in-degree counter ends at 1 and it is never dequeued, yet the dequeued vertex
0 has relaxed it to the coordinate 1. -/
theorem C17_counterexample :
    ¬ Acyclic [[1], [2], [1]] ∧
    1 ∉ topoForwardOrder [[1], [2], [1]] [⟨"A", 1, 1⟩, ⟨"B", 1, 1⟩, ⟨"C", 1, 1⟩] true ∧
    (topoForwardRun [[1], [2], [1]] [⟨"A", 1, 1⟩, ⟨"B", 1, 1⟩, ⟨"C", 1, 1⟩] true).indegree.getD 1 0
      = 1 ∧
    (topoForward [[1], [2], [1]] [⟨"A", 1, 1⟩, ⟨"B", 1, 1⟩, ⟨"C", 1, 1⟩] true).getD 1 0 = 1 :=
  ⟨not_acyclic_of_two_cycle _ 1 2 (by decide) (by decide),
   by decide, by decide, by decide⟩

/-- Why the characterisation of a never-dequeued vertex left at 0 needs sums in `int` range:
on the graph `0 → 1 → 2 ⇄ 3` with widths `2^30` vertex 2 is never dequeued, its predecessor
1 is dequeued with `coord[1] + width(1) = 2^31`, which wraps to `-2^31`, and `coord[2]`
stays 0. -/
theorem never_dequeued_overflow_example :
    2 ∉ topoForwardOrder [[1], [2], [3], [2]] [⟨"A", 1073741824, 1⟩, ⟨"B", 1073741824, 1⟩,
      ⟨"C", 1073741824, 1⟩, ⟨"D", 1073741824, 1⟩] true ∧
    1 ∈ topoForwardOrder [[1], [2], [3], [2]] [⟨"A", 1073741824, 1⟩, ⟨"B", 1073741824, 1⟩,
      ⟨"C", 1073741824, 1⟩, ⟨"D", 1073741824, 1⟩] true ∧
    Edge [[1], [2], [3], [2]] 1 2 ∧
    topoForward [[1], [2], [3], [2]] [⟨"A", 1073741824, 1⟩, ⟨"B", 1073741824, 1⟩,
      ⟨"C", 1073741824, 1⟩, ⟨"D", 1073741824, 1⟩] true = [0, 1073741824, 0, 0] :=
  ⟨by decide, by decide, by decide, by decide⟩

/-- C18 (as amended). The code has no cycle detection: on graphs with in-range targets of
which the HCG or the VCG contains a cycle, every topological pass still terminates with an
empty queue and yields a vector of full length, the forward pass on a cyclic graph leaves at
least one vertex never dequeued, and the pipeline returns its record without any failure. -/
theorem C18_cycle_not_detected (blocks : List Block) (hGraph vGraph : Graph)
    (hinH : InRange hGraph) (hinV : InRange vGraph)
    (_hcyc : ¬ Acyclic hGraph ∨ ¬ Acyclic vGraph) :
    (topoForwardRun hGraph blocks true).q = [] ∧
    (topoForwardRun vGraph blocks false).q = [] ∧
    (∀ bound, (topoBackwardRun hGraph blocks bound true).q = []) ∧
    (∀ bound, (topoBackwardRun vGraph blocks bound false).q = []) ∧
    (run blocks hGraph vGraph).startX.length = hGraph.length ∧
    (run blocks hGraph vGraph).startY.length = vGraph.length ∧
    (run blocks hGraph vGraph).endX.length = hGraph.length ∧
    (run blocks hGraph vGraph).endY.length = vGraph.length ∧
    (¬ Acyclic hGraph → ∃ v, v < hGraph.length ∧ v ∉ topoForwardOrder hGraph blocks true) ∧
    (¬ Acyclic vGraph → ∃ v, v < vGraph.length ∧ v ∉ topoForwardOrder vGraph blocks false) ∧
    ∃ r : Floorplanner, run blocks hGraph vGraph = r := by
  obtain ⟨hiH, _, hqH⟩ := topoForward_order_inv hGraph blocks true
  obtain ⟨hiV, _, hqV⟩ := topoForward_order_inv vGraph blocks false
  refine ⟨hqH, hqV, fun bound => (topoBackward_eq_forward hGraph blocks true bound hinH).1,
    fun bound => (topoBackward_eq_forward vGraph blocks false bound hinV).1,
    hiH.lenC, hiV.lenC, (topoBackward_eq_forward hGraph blocks true _ hinH).2.1,
    (topoBackward_eq_forward vGraph blocks false _ hinV).2.1, ?_, ?_, ⟨_, rfl⟩⟩
  · intro hc
    by_contra hall
    push_neg at hall
    exact hc (acyclic_of_all_dequeued hGraph blocks true hall)
  · intro hc
    by_contra hall
    push_neg at hall
    exact hc (acyclic_of_all_dequeued vGraph blocks false hall)

theorem C18_witness :
    ∃ v, v < 2 ∧ v ∉ topoForwardOrder [[1], [0]] [⟨"A", 2, 3⟩, ⟨"B", 2, 3⟩] true :=
  (C18_cycle_not_detected [⟨"A", 2, 3⟩, ⟨"B", 2, 3⟩] [[1], [0]] [[], []] (by decide) (by decide)
    (Or.inl (not_acyclic_of_two_cycle _ 0 1 (by decide) (by decide)))).2.2.2.2.2.2.2.2.1
    (not_acyclic_of_two_cycle _ 0 1 (by decide) (by decide))

/-- C18 (counterexample). Blocks `A(2×3)`, `B(2×3)` with the cyclic HCG `A ⇄ B` and an empty
VCG: the pipeline reports no failure and returns a complete record, with all coordinates 0,
both edges of the cycle reported critical and `minArea = 6`. -/
theorem C18_counterexample :
    ¬ Acyclic [[1], [0]] ∧
    run [⟨"A", 2, 3⟩, ⟨"B", 2, 3⟩] [[1], [0]] [[], []] =
      { blocks := [⟨"A", 2, 3⟩, ⟨"B", 2, 3⟩], hGraph := [[1], [0]], vGraph := [[], []]
        startX := [0, 0], startY := [0, 0], endX := [0, 0], endY := [0, 0]
        hCritEdges := [(0, 1), (1, 0)], vCritEdges := [], minArea := 6 } :=
  ⟨not_acyclic_of_two_cycle _ 0 1 (by decide) (by decide),
   by decide⟩

/-! ## Absence of run-time errors -/

theorem allOk_of_inv {σ α : Type} (ok : σ → α → Prop) (f : σ → α → σ)
    (I : List α → σ → Prop)
    (hstep : ∀ a rest s, I (a :: rest) s → ok s a ∧ I rest (f s a)) :
    ∀ (l : List α) (s : σ), I l s → AllOk ok f l s := by
  intro l
  induction l with
  | nil => intro s _; trivial
  | cons a l ih =>
    intro s hI
    obtain ⟨h1, h2⟩ := hstep a l s hI
    exact ⟨h1, ih _ h2⟩

theorem inRange_getD {g : Graph} (hin : InRange g) (u v : Nat) (hv : v ∈ g.getD u []) :
    v < g.length :=
  Edge.tgt_lt hin hv

theorem forwardRelax_allOk {g : Graph} {b : List Block} {h : Bool} {done : List Nat}
    {s : FwdState} {u : Nat} {rest : List Nat} (hinv : FwdInv g (shift b h) done s)
    (hq : s.q = u :: rest) (hin : InRange g) (hlen : g.length ≤ b.length) :
    AllOk (forwardRelaxOk b u) (forwardRelax b h u) (g.getD u []) { s with q := rest } := by
  have hnd := hinv.nodup
  rw [hq] at hnd
  have hult : u < g.length := hinv.lt u (by simp [hq])
  have hud : u ∉ done := fun hmem => (List.nodup_append.mp hnd).2.2 hmem (by simp)
  apply allOk_of_inv _ _ (fun rem st => st.coords.length = g.length ∧
    st.indegree.length = g.length ∧ (∀ v ∈ rem, v < g.length) ∧
    ∀ v, v < g.length → (rem.count v : Int) ≤ st.indegree.getD v 0)
  · intro a rem st ⟨hc, hd, hlt, hcnt⟩
    have ha : a < g.length := hlt a (by simp)
    have hca := hcnt a ha
    rw [List.count_cons_self] at hca
    push_cast at hca
    refine ⟨⟨by omega, by omega, by omega, by omega, by omega⟩, ?_, ?_, ?_, ?_⟩
    · simp [forwardRelax, hc]
    · simp [forwardRelax, hd]
    · intro v hv
      exact hlt v (by simp [hv])
    · intro v hv
      have hcv := hcnt v hv
      show _ ≤ (st.indegree.set a (st.indegree.getD a 0 - 1)).getD v 0
      rw [getD_set]
      by_cases hav : a = v
      · subst hav
        simp only [hd, ha, and_self, if_true]
        omega
      · simp only [hav, false_and, if_false]
        rw [List.count_cons_of_ne (fun e => hav e.symm)] at hcv
        exact hcv
  · refine ⟨hinv.lenC, hinv.lenD, fun v hv => inRange_getD hin u v hv, ?_⟩
    intro v hv
    show _ ≤ s.indegree.getD v 0
    rw [hinv.deg v hv, inCount_snoc g done u v hult hud]
    push_cast
    omega

theorem forwardSafe_of_inv (g : Graph) (b : List Block) (h : Bool) (hin : InRange g)
    (hlen : g.length ≤ b.length) :
    ∀ (fuel : Nat) (s : FwdState) (done : List Nat),
      FwdInv g (shift b h) done s → g.length ≤ done.length + fuel →
      ForwardSafe g b h fuel s := by
  intro fuel
  induction fuel with
  | zero =>
    intro s done hinv hfuel
    have hle := nodup_length_le _ _ hinv.nodup hinv.lt
    rw [List.length_append] at hle
    exact List.eq_nil_of_length_eq_zero (by omega)
  | succ fuel ih =>
    intro s done hinv hfuel
    cases hq : s.q with
    | nil => simp only [ForwardSafe, hq]
    | cons u rest =>
      simp only [ForwardSafe, hq]
      exact ⟨hinv.lt u (by simp [hq]), forwardRelax_allOk hinv hq hin hlen,
        ih _ (done ++ [u]) (hinv.step hq) (by simp; omega)⟩

theorem indegreeInitSafe_of_inRange (g : Graph) (hin : InRange g) : indegreeInitSafe g := by
  unfold indegreeInitSafe
  apply allOk_of_inv _ _ (fun rem (d : List Int) => d.length = g.length ∧ ∀ u ∈ rem, u < g.length)
  · intro u rem d ⟨hd, hlt⟩
    refine ⟨⟨hlt u (by simp), ?_⟩, ?_, fun x hx => hlt x (by simp [hx])⟩
    · apply allOk_of_inv _ _ (fun rem2 (d2 : List Int) => d2.length = g.length ∧
        ∀ v ∈ rem2, v < g.length)
      · intro v rem2 d2 ⟨hd2, hlt2⟩
        exact ⟨by rw [hd2]; exact hlt2 v (by simp), by simp [hd2],
          fun x hx => hlt2 x (by simp [hx])⟩
      · exact ⟨hd, fun v hv => inRange_getD hin u v hv⟩
    · rw [(incr_fold (g.getD u []) d).1, hd]
  · exact ⟨by simp, fun u hu => List.mem_range.mp hu⟩

/-- A run of `topoForward` on a graph with in-range targets (and a block per vertex) uses no
out-of-range subscript and never decrements a counter below zero. -/
theorem topoForwardSafe_of_inRange (g : Graph) (b : List Block) (h : Bool) (hin : InRange g)
    (hlen : g.length ≤ b.length) : TopoForwardSafe g b h :=
  ⟨indegreeInitSafe_of_inRange g hin, fun i hi => by rw [(indegreeInit_spec g).1]; exact hi,
    forwardSafe_of_inv g b h hin hlen g.length (forwardInit g) [] (FwdInv.initial g _) (by simp)⟩

theorem buildRevSafe_of_inRange (g : Graph) (hin : InRange g) : buildRevSafe g := by
  unfold buildRevSafe
  apply allOk_of_inv _ _ (fun rem (a : List (List Nat) × List Int) =>
    a.1.length = g.length ∧ a.2.length = g.length ∧ ∀ u ∈ rem, u < g.length)
  · intro u rem a ⟨h1, h2, hlt⟩
    have hu : u < g.length := hlt u (by simp)
    refine ⟨⟨hu, ?_⟩, ?_, ?_, fun x hx => hlt x (by simp [hx])⟩
    · apply allOk_of_inv _ _ (fun rem2 (a2 : List (List Nat) × List Int) =>
        a2.1.length = g.length ∧ a2.2.length = g.length ∧ ∀ v ∈ rem2, v < g.length)
      · intro v rem2 a2 ⟨k1, k2, hlt2⟩
        exact ⟨⟨by rw [k1]; exact hlt2 v (by simp), by rw [k2]; exact hu⟩,
          by simp [revPush, k1], by simp [revPush, k2], fun x hx => hlt2 x (by simp [hx])⟩
      · exact ⟨h1, h2, fun v hv => inRange_getD hin u v hv⟩
    · rw [(buildRev_inner u (g.getD u []) a).1, h1]
    · rw [(buildRev_inner u (g.getD u []) a).2.1, h2]
  · exact ⟨by simp, by simp, fun u hu => List.mem_range.mp hu⟩

theorem backwardInitSafe_of_len (g : Graph) (b : List Block) (bound : Int) (h : Bool)
    (hlen : g.length ≤ b.length) : backwardInitSafe g b bound h := by
  unfold backwardInitSafe
  apply allOk_of_inv _ _ (fun rem (a : List Int × List Nat) =>
    a.1.length = g.length ∧ ∀ i ∈ rem, i < g.length)
  · intro i rem a ⟨h1, hlt⟩
    have hi : i < g.length := hlt i (by simp)
    exact ⟨⟨by omega, by omega, by rw [(buildRev_spec g).2.1]; exact hi⟩, by simp [h1],
      fun x hx => hlt x (by simp [hx])⟩
  · exact ⟨by simp, fun u hu => List.mem_range.mp hu⟩

theorem inRange_buildRev (g : Graph) : InRange (buildRev g).1 := by
  intro adj hadj v hv
  obtain ⟨i, hi, rfl⟩ := List.getElem_of_mem hadj
  have he : Edge (buildRev g).1 i v := by
    unfold Edge
    rw [List.getD_eq_getElem _ _ hi]
    exact hv
  rw [(buildRev_spec g).1]
  exact ((edge_buildRev g i v).mp he).1.src_lt

theorem backwardRelax_allOk {n : Nat} {b : List Block} {h : Bool} (u : Nat)
    (hn : n ≤ b.length) :
    ∀ (l : List Nat) (bs : BwdState) (fs : FwdState), BwdSim n bs fs →
      AllOk (forwardRelaxOk b u) (forwardRelax b h u) l fs →
      AllOk (backwardRelaxOk b u) (backwardRelax b h u) l bs := by
  intro l
  induction l with
  | nil => intro bs fs _ _; trivial
  | cons p l ih =>
    intro bs fs hsim hok
    obtain ⟨⟨o1, o2, _, o4, o5⟩, hrest⟩ := hok
    rw [hsim.lenC] at o1 o2
    refine ⟨⟨by rw [hsim.lenL]; exact o1, by rw [hsim.lenL]; exact o2, by omega,
      by rw [hsim.deg]; exact o4, by rw [hsim.deg]; exact o5⟩, ?_⟩
    exact ih _ _ (hsim.relax u p) hrest

theorem backwardSafe_of_forward {n : Nat} {b : List Block} {h : Bool}
    (rev : List (List Nat)) (hn : n ≤ b.length) :
    ∀ (fuel : Nat) (bs : BwdState) (fs : FwdState), BwdSim n bs fs →
      ForwardSafe rev b h fuel fs →
      BackwardSafe rev b h fuel bs ∧
      backwardOrder rev b h fuel bs = forwardOrder rev b h fuel fs := by
  intro fuel
  induction fuel with
  | zero =>
    intro bs fs hsim hsafe
    simp only [ForwardSafe] at hsafe
    simp only [BackwardSafe, backwardOrder, forwardOrder, hsim.q, hsafe, and_self]
  | succ fuel ih =>
    intro bs fs hsim hsafe
    have hqq := hsim.q
    cases hq : fs.q with
    | nil =>
      rw [hq] at hqq
      simp only [BackwardSafe, backwardOrder, forwardOrder, hq, hqq, and_self]
    | cons u rest =>
      rw [hq] at hqq
      simp only [ForwardSafe, hq] at hsafe
      obtain ⟨hu, hok, hnext⟩ := hsafe
      have hsim0 : BwdSim n { bs with q := rest } { fs with q := rest } :=
        ⟨rfl, hsim.deg, hsim.lenL, hsim.lenC⟩
      have hsim1 := BwdSim.fold (b := b) (h := h) u (rev.getD u []) _ _ hsim0
      obtain ⟨i1, i2⟩ := ih _ _ hsim1 hnext
      simp only [BackwardSafe, backwardOrder, forwardOrder, hq, hqq]
      exact ⟨⟨hu, backwardRelax_allOk u hn _ _ _ hsim0 hok, i1⟩, by rw [i2]⟩

/-- A run of `topoBackward` on a graph with in-range targets (and a block per vertex) uses no
out-of-range subscript and never decrements a counter below zero; its dequeue order is that
of the forward pass over the reverse graph. -/
theorem topoBackwardSafe_of_inRange (g : Graph) (b : List Block) (bound : Int) (h : Bool)
    (hin : InRange g) (hlen : g.length ≤ b.length) :
    TopoBackwardSafe g b bound h ∧
    topoBackwardOrder g b bound h = topoForwardOrder (buildRev g).1 b h := by
  have h1 : (buildRev g).1.length = g.length := (buildRev_spec g).1
  have hfs := (topoForwardSafe_of_inRange (buildRev g).1 b h (inRange_buildRev g)
    (by rw [h1]; exact hlen)).2.2
  rw [h1] at hfs
  obtain ⟨s1, s2⟩ := backwardSafe_of_forward (buildRev g).1 hlen g.length _ _
    (BwdSim.start g b h bound hin) hfs
  refine ⟨⟨buildRevSafe_of_inRange g hin, backwardInitSafe_of_len g b bound h hlen, s1⟩, ?_⟩
  unfold topoBackwardOrder topoForwardOrder
  rw [h1]
  exact s2

/-- C19. On every graph whose edge targets are in range (with a block per vertex), cyclic or
not and duplicates allowed, `topoForward` and `topoBackward` terminate: each work loop exits
with an empty queue after at most `n` iterations, dequeues no vertex twice, uses only
subscripts inside their vectors, and never decrements a degree counter below zero. -/
theorem C19_passes_terminate_safely (g : Graph) (blocks : List Block) (horizontal : Bool)
    (bound : Int) (hin : InRange g) (hlen : g.length ≤ blocks.length) :
    ((topoForwardRun g blocks horizontal).q = [] ∧
     (topoForwardOrder g blocks horizontal).Nodup ∧
     (topoForwardOrder g blocks horizontal).length ≤ g.length ∧
     (∀ u ∈ topoForwardOrder g blocks horizontal, u < g.length) ∧
     TopoForwardSafe g blocks horizontal ∧
     (∀ v, v < g.length → 0 ≤ (topoForwardRun g blocks horizontal).indegree.getD v 0)) ∧
    ((topoBackwardRun g blocks bound horizontal).q = [] ∧
     (topoBackwardOrder g blocks bound horizontal).Nodup ∧
     (topoBackwardOrder g blocks bound horizontal).length ≤ g.length ∧
     (∀ u ∈ topoBackwardOrder g blocks bound horizontal, u < g.length) ∧
     TopoBackwardSafe g blocks bound horizontal) := by
  obtain ⟨f1, f2, f3⟩ := topoForwardOrder_nodup g blocks horizontal
  obtain ⟨b1, b2⟩ := topoBackwardSafe_of_inRange g blocks bound horizontal hin hlen
  obtain ⟨r1, r2, r3⟩ := topoForwardOrder_nodup (buildRev g).1 blocks horizontal
  have h1 : (buildRev g).1.length = g.length := (buildRev_spec g).1
  rw [h1] at r2 r3
  refine ⟨⟨forwardLoop_queue_empty g blocks horizontal, f1, f3, f2,
    topoForwardSafe_of_inRange g blocks horizontal hin hlen,
    topoForwardRun_indegree_nonneg g blocks horizontal⟩,
    ⟨(topoBackward_eq_forward g blocks horizontal bound hin).1, ?_, ?_, ?_, b1⟩⟩
  · rw [b2]; exact r1
  · rw [b2]; exact r3
  · rw [b2]; exact r2

theorem C19_witness :
    (topoForwardRun [[1, 1], [2], [1]] [⟨"A", 1, 1⟩, ⟨"B", 1, 1⟩, ⟨"C", 1, 1⟩] true).q = [] ∧
    (topoBackwardRun [[1, 1], [2], [1]] [⟨"A", 1, 1⟩, ⟨"B", 1, 1⟩, ⟨"C", 1, 1⟩] 3 true).q = [] ∧
    topoForwardOrder [[1, 1], [2], [1]] [⟨"A", 1, 1⟩, ⟨"B", 1, 1⟩, ⟨"C", 1, 1⟩] true = [0] :=
  ⟨(C19_passes_terminate_safely [[1, 1], [2], [1]] [⟨"A", 1, 1⟩, ⟨"B", 1, 1⟩, ⟨"C", 1, 1⟩] true 3
      (by decide) (by decide)).1.1,
   (C19_passes_terminate_safely [[1, 1], [2], [1]] [⟨"A", 1, 1⟩, ⟨"B", 1, 1⟩, ⟨"C", 1, 1⟩] true 3
      (by decide) (by decide)).2.1, by decide⟩

end Floorplan
